import Mathlib

/-!
Verification of the google-url core library against its specification.

The development shallowly embeds the C++ sources as Lean functions over
byte lists (a byte is a `Nat`; the 8-bit `char` instantiation of the
source templates is modelled).  Definitions are transcribed from the
files under `src/`; functions whose definitions live in files that are
not part of the source drop (the parser `url_parse.cc` and the
declarations in `url_canon_internal.h`) are modelled from the
specification text and carry a doc comment saying so.
-/

namespace GoogleUrl

/-! ## base/string_util.h -/

/-- Embedding of `ToLowerASCII` (base/string_util.h): ASCII-specific tolower. -/
def toLowerASCII (c : Nat) : Nat :=
  if 0x41 ≤ c ∧ c ≤ 0x5a then c + (0x61 - 0x41) else c

/-- Embedding of `DoLowerCaseEqualsASCII` (base/string_util.cc): compare the
lower-case form of the first string against the second (a NUL-free ASCII
literal in all call sites of the library). -/
def lowerCaseEqualsASCII : List Nat → List Nat → Bool
  | [], [] => true
  | [], _ :: _ => false
  | _ :: _, [] => false
  | a :: as, b :: bs => toLowerASCII a == b && lowerCaseEqualsASCII as bs

/-! ## Character classification (src/url_canon_internal.cc, kSharedCharTypeTable)

The table flags each byte with CHAR_QUERY / CHAR_IPV4 / CHAR_HEX /
CHAR_DEC / CHAR_OCT.  Each flag is transcribed as a boolean predicate;
bytes at or above 0x80 carry no flags. -/

/-- Bytes flagged `CHAR_QUERY` in `kSharedCharTypeTable`: 0x21, 0x22 and
0x24..0x7e (space, '#' and 0x7f are unflagged). -/
def isQueryChar (b : Nat) : Bool :=
  b == 0x21 || b == 0x22 || (0x24 ≤ b && b ≤ 0x7e)

/-- Bytes flagged `CHAR_IPV4` in `kSharedCharTypeTable`: '.', digits,
hex letters and the hex marker letters x/X. -/
def isIPv4Char (b : Nat) : Bool :=
  b == 0x2e || (0x30 ≤ b && b ≤ 0x39) || (0x41 ≤ b && b ≤ 0x46) ||
  (0x61 ≤ b && b ≤ 0x66) || b == 0x58 || b == 0x78

/-- Bytes flagged `CHAR_HEX` in `kSharedCharTypeTable`. -/
def isHexChar (b : Nat) : Bool :=
  (0x30 ≤ b && b ≤ 0x39) || (0x41 ≤ b && b ≤ 0x46) || (0x61 ≤ b && b ≤ 0x66)

/-- Bytes flagged `CHAR_DEC` in `kSharedCharTypeTable`. -/
def isDecChar (b : Nat) : Bool :=
  0x30 ≤ b && b ≤ 0x39

/-- Bytes flagged `CHAR_OCT` in `kSharedCharTypeTable`. -/
def isOctChar (b : Nat) : Bool :=
  0x30 ≤ b && b ≤ 0x37

/-- Embedding of `kHexCharLookup` (src/url_canon_internal.cc): maps a nibble
to its uppercase hex digit. -/
def kHexCharLookup : List Nat :=
  [0x30, 0x31, 0x32, 0x33, 0x34, 0x35, 0x36, 0x37,
   0x38, 0x39, 0x41, 0x42, 0x43, 0x44, 0x45, 0x46]

/-- Lookup into `kHexCharLookup`. -/
def hexCharAt (n : Nat) : Nat := kHexCharLookup.getD n 0

/-- Embedding of `kCharToHexLookup` (src/url_canon_internal.cc): indexed by
the top three bits of a hex digit, gives the offset to subtract. -/
def kCharToHexLookup : List Nat :=
  [0, 0x30, 0x41 - 10, 0x61 - 10, 0, 0, 0, 0]

/-- Modelled from the spec: `HexCharToValue` (declared in the missing
url_canon_internal.h) maps a hex digit to its value using the 8-entry
`kCharToHexLookup` indexed by the top 3 bits of the digit (spec section 4.1). -/
def hexCharToValue (c : Nat) : Nat :=
  c - kCharToHexLookup.getD (c / 0x20) 0

/-- Modelled from the spec: `AppendEscapedChar` (missing
url_canon_internal.h) writes a percent escape of one byte as two uppercase
hex digits using `kHexCharLookup` (spec sections 4.1 and 6). -/
def appendEscapedChar (b : Nat) : List Nat :=
  [0x25, hexCharAt (b / 16 % 16), hexCharAt (b % 16)]

/-- Modelled from the spec: `DecodeEscaped` (missing url_canon_internal.h)
reads %HH; it returns the decoded byte and advances past the two hex
digits when both are valid hex, and fails leaving the position at the
percent otherwise (spec section 4.1).  The input list holds the bytes that
follow the percent sign. -/
def decodeEscaped : List Nat → Option (Nat × List Nat)
  | h1 :: h2 :: rest =>
    if isHexChar h1 && isHexChar h2 then
      some (hexCharToValue h1 * 16 + hexCharToValue h2, rest)
    else none
  | _ => none

/-- Embedding of `DoCanonicalizeEscaped` (src/url_canon_internal.cc).  The
input list holds the bytes following the percent sign; the result is the
returned boolean, the bytes appended to the output, and the remaining
input (the caller resumes right after the percent sign on failure). -/
def canonicalizeEscaped (rest : List Nat) : Bool × List Nat × List Nat :=
  match decodeEscaped rest with
  | some (v, t) => (true, appendEscapedChar v, t)
  | none => (false, [0x25], rest)

/-- Check that a byte is a decimal digit or an uppercase hex letter. -/
def isUpperHexDigit (b : Nat) : Bool :=
  (0x30 ≤ b && b ≤ 0x39) || (0x41 ≤ b && b ≤ 0x46)

/-! ## Theorems for claim C5 -/

theorem hexCharAt_isUpper (n : Nat) (h : n < 16) : isUpperHexDigit (hexCharAt n) = true := by
  interval_cases n <;> decide

theorem hexCharToValue_hexCharAt (n : Nat) (h : n < 16) : hexCharToValue (hexCharAt n) = n := by
  interval_cases n <;> decide

/-- C5 counterexample: on the malformed escape "%zz" the code emits the
single byte '%' and not the three bytes "%25" that the claim predicts. -/
theorem canonicalizeEscaped_percent_literal :
    canonicalizeEscaped [0x7a, 0x7a] = (false, [0x25], [0x7a, 0x7a]) ∧
    [0x25] ≠ [0x25, 0x32, 0x35] := by
  constructor
  · decide
  · decide

/-- C5 (amended): at a percent sign, if the two following bytes are valid
hex digits the escape is re-emitted as a percent sign followed by two
uppercase hex digits denoting the same byte value and the function
returns true; otherwise the single byte '%' is emitted verbatim, the
remaining input is untouched (parsing continues at the character after
the percent) and the function returns false. -/
theorem canonicalizeEscaped_spec (rest : List Nat) :
    (∀ h1 h2 t, rest = h1 :: h2 :: t → isHexChar h1 = true → isHexChar h2 = true →
      ∃ d1 d2, canonicalizeEscaped rest = (true, [0x25, d1, d2], t) ∧
        isUpperHexDigit d1 = true ∧ isUpperHexDigit d2 = true ∧
        hexCharToValue d1 * 16 + hexCharToValue d2 =
          hexCharToValue h1 * 16 + hexCharToValue h2) ∧
    ((match rest with
      | h1 :: h2 :: _ => isHexChar h1 = false ∨ isHexChar h2 = false
      | _ => True) →
      canonicalizeEscaped rest = (false, [0x25], rest)) := by
  constructor
  · rintro h1 h2 t rfl hh1 hh2
    have hv : hexCharToValue h1 * 16 + hexCharToValue h2 < 256 := by
      have v1 : hexCharToValue h1 < 16 := by
        revert hh1; unfold isHexChar hexCharToValue kCharToHexLookup
        intro hh1
        rcases Nat.lt_or_ge h1 0x80 with hlt | hge
        · interval_cases h1 <;> simp_all
        · exfalso; revert hh1; simp; omega
      have v2 : hexCharToValue h2 < 16 := by
        revert hh2; unfold isHexChar hexCharToValue kCharToHexLookup
        intro hh2
        rcases Nat.lt_or_ge h2 0x80 with hlt | hge
        · interval_cases h2 <;> simp_all
        · exfalso; revert hh2; simp; omega
      omega
    refine ⟨hexCharAt ((hexCharToValue h1 * 16 + hexCharToValue h2) / 16 % 16),
      hexCharAt ((hexCharToValue h1 * 16 + hexCharToValue h2) % 16), ?_, ?_, ?_, ?_⟩
    · unfold canonicalizeEscaped decodeEscaped
      simp [hh1, hh2, appendEscapedChar]
    · exact hexCharAt_isUpper _ (Nat.mod_lt _ (by norm_num))
    · exact hexCharAt_isUpper _ (Nat.mod_lt _ (by norm_num))
    · rw [hexCharToValue_hexCharAt _ (Nat.mod_lt _ (by norm_num)),
        hexCharToValue_hexCharAt _ (Nat.mod_lt _ (by norm_num))]
      omega
  · intro hbad
    match rest with
    | [] => rfl
    | [h1] => rfl
    | h1 :: h2 :: t =>
      unfold canonicalizeEscaped decodeEscaped
      rcases hbad with hb | hb <;> simp [hb]

/-- C5 witness: the theorem applied to the concrete escape "%3f", which is
re-emitted as "%3F". -/
theorem canonicalizeEscaped_spec_witness :
    ∃ d1 d2, canonicalizeEscaped [0x33, 0x66] = (true, [0x25, d1, d2], []) ∧
      isUpperHexDigit d1 = true ∧ isUpperHexDigit d2 = true ∧
      hexCharToValue d1 * 16 + hexCharToValue d2 =
        hexCharToValue 0x33 * 16 + hexCharToValue 0x66 :=
  (canonicalizeEscaped_spec [0x33, 0x66]).1 0x33 0x66 [] rfl (by decide) (by decide)

/-! ## Data model: Component and Parsed (url_parse.h conventions, spec section 3) -/

/-- Embedding of `url_parse::Component`: a half-open range over the input,
where a negative length denotes an absent component. -/
structure Component where
  begin : Nat
  len : Int
  deriving Repr, DecidableEq

/-- Default component: not present. -/
def Component.none : Component := ⟨0, -1⟩

instance : Inhabited Component := ⟨Component.none⟩

/-- Embedding of `Component::end()`: begin plus the length clamped at zero. -/
def Component.stop (c : Component) : Nat := c.begin + c.len.toNat

/-- Embedding of `url_parse::Parsed`: the component ranges of a URL. -/
structure Parsed where
  scheme : Component := Component.none
  username : Component := Component.none
  password : Component := Component.none
  host : Component := Component.none
  port : Component := Component.none
  path : Component := Component.none
  query : Component := Component.none
  ref : Component := Component.none
  deriving Repr, DecidableEq

/-- Bytes of a component slice of a spec string. -/
def sliceC (l : List Nat) (c : Component) : List Nat :=
  (l.drop c.begin).take c.len.toNat

/-- ASCII bytes of a string literal (used only to name concrete inputs). -/
def strBytes (s : String) : List Nat := s.data.map Char.toNat

/-! ## Spec-modelled parser helpers (url_parse.cc is not under src/) -/

/-- Modelled from the spec: `url_parse::IsURLSlash` accepts forward and
backward slashes (spec sections 4.2 and 4.5). -/
def isURLSlash (c : Nat) : Bool := c == 0x2f || c == 0x5c

/-- Modelled from the spec: parsers and the resolver trim leading and
trailing whitespace, namely ASCII bytes at or below 0x20 (spec section
4.2 step 1); `url_parse::TrimURL` is not under src/.  Returns the number
of bytes trimmed at the front together with the trimmed byte list. -/
def trimURL (url : List Nat) : Nat × List Nat :=
  ((url.takeWhile fun c => c ≤ 0x20).length,
   ((url.dropWhile fun c => c ≤ 0x20).reverse.dropWhile fun c => c ≤ 0x20).reverse)

/-- Helper for `extractScheme`: scan for the scheme-terminating colon. -/
def extractSchemeAux : List Nat → List Nat → Option (List Nat)
  | [], _ => Option.none
  | c :: t, acc =>
    if c == 0x3a then some acc.reverse
    else if c ≤ 0x20 || c == 0x2f || c == 0x5c || c == 0x3f || c == 0x23 then Option.none
    else extractSchemeAux t (c :: acc)

/-- Modelled from the spec: `url_parse::ExtractScheme` finds the first
colon before any slash, backslash, question mark, hash, or whitespace;
the preceding characters form the scheme, and with no such colon the
scheme is absent (spec section 4.2 step 2).  The input is the trimmed
spec; the scheme bytes are returned. -/
def extractScheme (l : List Nat) : Option (List Nat) := extractSchemeAux l []

/-- Modelled from the spec: `url_parse::CountConsecutiveSlashes` counts the
consecutive forward or backward slashes at the given position (spec
sections 4.2 step 3 and 4.5 step 7). -/
def countConsecutiveSlashes (l : List Nat) : Nat := (l.takeWhile isURLSlash).length

/-- Modelled from the spec: `url_canon::CanonicalSchemeChar` maps a scheme
character to its canonical (lowercased) form — ASCII letters are
lowercased, digits and plus, minus, period pass through, and any other
byte is invalid, mapped to 0 (spec section 4.3, Scheme). -/
def canonicalSchemeChar (c : Nat) : Nat :=
  if 0x41 ≤ c ∧ c ≤ 0x5a then c + 0x20
  else if (0x61 ≤ c ∧ c ≤ 0x7a) ∨ (0x30 ≤ c ∧ c ≤ 0x39) ∨ c = 0x2b ∨ c = 0x2d ∨ c = 0x2e then c
  else 0

/-! ## Scheme registry (src/url_util.cc) -/

/-- Embedding of `kStandardURLSchemes` (src/url_util.cc): the seed entries
of the standard-scheme registry. -/
def kStandardURLSchemes : List (List Nat) :=
  [strBytes "http", strBytes "https", strBytes "file", strBytes "ftp", strBytes "gopher"]

/-- Embedding of `IsStandardSchemeT` (src/url_util.cc), parametrized by the
current contents of the mutable registry: linear search comparing with
`LowerCaseEqualsASCII`. -/
def isStandardSchemeIn (schemes : List (List Nat)) (s : List Nat) : Bool :=
  schemes.any fun r => lowerCaseEqualsASCII s r

/-! ## src/url_canon_relative.cc: DoIsRelativeURL -/

/-- Embedding of `AreSchemesEqual` (src/url_canon_relative.cc): lengths
must match and each reference character must canonicalize to the
corresponding (already canonical) base character. -/
def areSchemesEqual (base : List Nat) (baseScheme : Component) (sch : List Nat) : Bool :=
  let bs := sliceC base baseScheme
  bs.length == sch.length && (sch.zip bs).all fun p => canonicalSchemeChar p.1 == p.2

/-- Result triple of `DoIsRelativeURL`: the returned boolean (false means
error), the out-parameter `*is_relative`, and `*relative_component`. -/
structure RelResult where
  ok : Bool
  isRelative : Bool
  relComp : Component
  deriving Repr, DecidableEq

/-- Embedding of `DoIsRelativeURL` (src/url_canon_relative.cc), without
the WIN32-only drive-specifier block (the library's default build). -/
def doIsRelativeURL (base : List Nat) (baseParsed : Parsed) (url : List Nat)
    (isBaseHierarchical : Bool) : RelResult :=
  let p := trimURL url
  let b := p.1
  let t := p.2
  match t with
  | [] => ⟨true, true, ⟨b, 0⟩⟩
  | c :: _ =>
    if isURLSlash c then ⟨true, true, ⟨b, (t.length : Int)⟩⟩
    else match extractScheme t with
      | Option.none =>
        if !isBaseHierarchical then ⟨false, false, Component.none⟩
        else ⟨true, true, ⟨b, (t.length : Int)⟩⟩
      | some sch =>
        if !areSchemesEqual base baseParsed.scheme sch then ⟨true, false, Component.none⟩
        else if !isBaseHierarchical then ⟨true, false, Component.none⟩
        else
          let colonOffset := b + sch.length
          let numSlashes := countConsecutiveSlashes (t.drop (sch.length + 1))
          if numSlashes == 0 || numSlashes == 1 then
            ⟨true, true, ⟨colonOffset + 1, (b + t.length : Int) - (colonOffset + 1)⟩⟩
          else ⟨true, false, Component.none⟩

/-! ## src/url_util.cc: ResolveRelativeT and dispatch -/

/-- Embedding of `ResolveRelativeT` (src/url_util.cc).  The canonicalizer
fallback for absolute references and the relative resolver live in files
outside src/, so they are taken as function parameters; each yields the
returned boolean and the bytes appended to the output buffer. -/
def resolveRelativeT (schemes : List (List Nat))
    (canonFn : List Nat → Bool × List Nat)
    (resolveFn : List Nat → Parsed → Bool → List Nat → Component → Bool × List Nat)
    (baseSpec : List Nat) (baseParsed : Parsed) (relative : List Nat) : Bool × List Nat :=
  let standardBase := isStandardSchemeIn schemes (sliceC baseSpec baseParsed.scheme)
  let r := doIsRelativeURL baseSpec baseParsed relative standardBase
  if !r.ok then (false, [])
  else if r.isRelative then
    resolveFn baseSpec baseParsed
      (lowerCaseEqualsASCII (sliceC baseSpec baseParsed.scheme) (strBytes "file"))
      relative r.relComp
  else canonFn relative

/-- The three canonicalization strategies selected by the dispatchers. -/
inductive Strategy
  | file
  | standard
  | path
  deriving Repr, DecidableEq

/-- Embedding of the dispatch structure of `CanonicalizeT`
(src/url_util.cc): extract the scheme, then select the file strategy for
the scheme "file" (via `CompareSchemeComponent`), the standard strategy
for registered schemes, and the path strategy otherwise; with no
extractable scheme the function fails before dispatching. -/
def canonicalizeStrategy (schemes : List (List Nat)) (spec : List Nat) : Option Strategy :=
  match extractScheme ((trimURL spec).2) with
  | Option.none => Option.none
  | some sch =>
    if lowerCaseEqualsASCII sch (strBytes "file") then some Strategy.file
    else if isStandardSchemeIn schemes sch then some Strategy.standard
    else some Strategy.path

/-- Embedding of the dispatch structure of `ReplaceComponents`
(src/url_util.cc): the strategy is selected from the replacement scheme
when the override pointer is non-null and non-empty, and from the
original parsed scheme when the override pointer is null. -/
def replaceComponentsStrategy (schemes : List (List Nat)) (spec : List Nat) (parsed : Parsed)
    (replScheme : Option (List Nat)) : Strategy :=
  let fileCase :=
    match replScheme with
    | Option.none => lowerCaseEqualsASCII (sliceC spec parsed.scheme) (strBytes "file")
    | some s => decide (0 < s.length) && lowerCaseEqualsASCII s (strBytes "file")
  if fileCase then Strategy.file
  else
    let stdCase :=
      match replScheme with
      | Option.none => isStandardSchemeIn schemes (sliceC spec parsed.scheme)
      | some s => decide (0 < s.length) && isStandardSchemeIn schemes s
    if stdCase then Strategy.standard else Strategy.path

/-! ## Helper lemmas on scheme comparison -/

theorem lowerCaseEqualsASCII_eq_map (a b : List Nat) :
    lowerCaseEqualsASCII a b = (a.map toLowerASCII == b) := by
  induction a generalizing b with
  | nil => cases b <;> rfl
  | cons x xs ih =>
    cases b with
    | nil => rfl
    | cons y ys =>
      simp only [lowerCaseEqualsASCII, List.map, List.cons.injEq, ih]
      cases h : toLowerASCII x == y <;> simp_all

/-- Bytes that can occur in a canonical scheme: lowercase letters, digits,
plus, minus, period (spec section 4.3, Scheme). -/
def isCanonicalSchemeByte (b : Nat) : Bool :=
  (0x61 ≤ b && b ≤ 0x7a) || (0x30 ≤ b && b ≤ 0x39) || b == 0x2b || b == 0x2d || b == 0x2e

theorem canonicalSchemeChar_beq (b c : Nat) (hb : isCanonicalSchemeByte b = true) :
    (canonicalSchemeChar c == b) = (toLowerASCII c == toLowerASCII b) := by
  have hprop : (canonicalSchemeChar c = b) ↔ (toLowerASCII c = toLowerASCII b) := by
    unfold isCanonicalSchemeByte at hb
    simp only [Bool.or_eq_true, Bool.and_eq_true, decide_eq_true_eq, beq_iff_eq] at hb
    unfold canonicalSchemeChar toLowerASCII
    split_ifs <;> omega
  rw [Bool.eq_iff_iff]
  simp only [beq_iff_eq]
  exact hprop

theorem areSchemesEqual_eq_lower (base : List Nat) (baseScheme : Component) (sch : List Nat)
    (hcanon : ∀ b ∈ sliceC base baseScheme, isCanonicalSchemeByte b = true) :
    areSchemesEqual base baseScheme sch =
      (sch.map toLowerASCII == (sliceC base baseScheme).map toLowerASCII) := by
  unfold areSchemesEqual
  generalize hbs : sliceC base baseScheme = bs at hcanon ⊢
  clear hbs
  induction bs generalizing sch with
  | nil =>
    cases sch <;> simp [List.zip]
  | cons b brest ih =>
    cases sch with
    | nil => simp
    | cons c crest =>
      have hb := hcanon b (by simp)
      have hrest : ∀ x ∈ brest, isCanonicalSchemeByte x = true := by
        intro x hx; exact hcanon x (by simp [hx])
      have := ih crest hrest
      simp only [List.zip_cons_cons, List.all_cons, List.map, List.length_cons,
        List.cons.injEq] at *
      rw [canonicalSchemeChar_beq b c hb]
      cases h1 : toLowerASCII c == toLowerASCII b <;> simp_all

/-! ## Claim C3: the relativity decision -/

/-- Outcome of the relativity decision as the specification phrases it. -/
inductive RelDecision
  | relative
  | absolute
  | error
  deriving Repr, DecidableEq

/-- Decision procedure exactly as claim C3 states it: after trimming, an
empty reference is relative; a reference beginning with a slash or
backslash is relative; no extractable scheme means relative for a
hierarchical base and an error otherwise; a scheme differing from the
base's under case-insensitive ASCII comparison means absolute; matching
schemes with a non-hierarchical base mean absolute; matching schemes
with a hierarchical base are relative exactly when at most one slash
follows the colon. -/
def specRelativeDecision (baseScheme : List Nat) (url : List Nat) (hier : Bool) : RelDecision :=
  let t := (trimURL url).2
  match t with
  | [] => RelDecision.relative
  | c :: _ =>
    if c == 0x2f || c == 0x5c then RelDecision.relative
    else match extractScheme t with
      | Option.none => if hier then RelDecision.relative else RelDecision.error
      | some sch =>
        if (sch.map toLowerASCII == baseScheme.map toLowerASCII) = false then
          RelDecision.absolute
        else if hier = false then RelDecision.absolute
        else if 2 ≤ countConsecutiveSlashes (t.drop (sch.length + 1)) then RelDecision.absolute
        else RelDecision.relative

/-- C3: for a canonical base scheme, `DoIsRelativeURL` decides relativity
exactly by the claim's procedure: its returned boolean is false exactly
on the claim's error outcome, and otherwise its is_relative out-value
matches the claim's relative/absolute outcome. -/
theorem doIsRelativeURL_decision (base : List Nat) (baseParsed : Parsed) (url : List Nat)
    (hier : Bool)
    (hcanon : ∀ b ∈ sliceC base baseParsed.scheme, isCanonicalSchemeByte b = true) :
    match specRelativeDecision (sliceC base baseParsed.scheme) url hier with
    | RelDecision.error => (doIsRelativeURL base baseParsed url hier).ok = false
    | RelDecision.relative => (doIsRelativeURL base baseParsed url hier).ok = true ∧
        (doIsRelativeURL base baseParsed url hier).isRelative = true
    | RelDecision.absolute => (doIsRelativeURL base baseParsed url hier).ok = true ∧
        (doIsRelativeURL base baseParsed url hier).isRelative = false := by
  unfold specRelativeDecision doIsRelativeURL
  generalize htr : trimURL url = p
  obtain ⟨bOff, t⟩ := p
  cases t with
  | nil => simp
  | cons c rest =>
    simp only []
    by_cases hslash : isURLSlash c = true
    · have : (c == 0x2f || c == 0x5c) = true := hslash
      simp [this, hslash]
    · have hs2 : (c == 0x2f || c == 0x5c) = false := by
        revert hslash; unfold isURLSlash; intro h; simpa using h
      have hs3 : isURLSlash c = false := by simpa using hslash
      simp only [hs2, hs3, Bool.false_eq_true, if_false]
      cases hex : extractScheme (c :: rest) with
      | none =>
        cases hier <;> simp
      | some sch =>
        simp only []
        rw [areSchemesEqual_eq_lower base baseParsed.scheme sch hcanon]
        cases hmap : (sch.map toLowerASCII == (sliceC base baseParsed.scheme).map toLowerASCII) with
        | false => simp
        | true =>
          cases hier with
          | false => simp
          | true =>
            simp only [Bool.true_eq_false, if_false, Bool.not_true, Bool.false_eq_true]
            by_cases hcount : 2 ≤ countConsecutiveSlashes (rest.drop sch.length)
            · have hc2 : ¬ (countConsecutiveSlashes (rest.drop sch.length) = 0 ∨
                  countConsecutiveSlashes (rest.drop sch.length) = 1) := by omega
              simp [hcount, hc2]
            · have hc2 : countConsecutiveSlashes (rest.drop sch.length) = 0 ∨
                  countConsecutiveSlashes (rest.drop sch.length) = 1 := by omega
              simp [hcount, hc2]

/-- C3 witness: resolving the reference "foo.html" against the canonical
base "http://a/" with a hierarchical base is decided relative. -/
theorem doIsRelativeURL_decision_witness :
    (doIsRelativeURL (strBytes "http://a/") { scheme := ⟨0, 4⟩ } (strBytes "foo.html") true).ok
        = true ∧
    (doIsRelativeURL (strBytes "http://a/") { scheme := ⟨0, 4⟩ }
        (strBytes "foo.html") true).isRelative = true := by
  have h := doIsRelativeURL_decision (strBytes "http://a/") { scheme := ⟨0, 4⟩ }
    (strBytes "foo.html") true (by decide)
  have hd : specRelativeDecision (sliceC (strBytes "http://a/") (⟨0, 4⟩ : Component))
      (strBytes "foo.html") true = RelDecision.relative := by decide
  rw [hd] at h
  exact h

/-! ## Claim C4: unresolvable relative references -/

/-- C4 counterexample: with the non-hierarchical base "data:blahblah" and
the schemeless reference "file.html", `ResolveRelativeT` returns false
and appends nothing to the output buffer, so the output does not contain
the base URL (the repository's own test gurl_unittest.cc expects exactly
this: expected_valid false with expected output "").  The strategy
functions are instantiated with concrete functions that would append
visible bytes if they were called. -/
theorem resolveRelativeT_data_counterexample :
    resolveRelativeT kStandardURLSchemes
        (fun l => (true, l))
        (fun b _ _ _ _ => (true, b))
        (strBytes "data:blahblah") { scheme := ⟨0, 4⟩, path := ⟨5, 8⟩ }
        (strBytes "file.html") = (false, []) ∧
      ([] : List Nat) ≠ strBytes "data:blahblah" := by
  constructor
  · decide
  · decide

/-- C4 (amended): whenever the base scheme is not in the standard-scheme
registry and the reference, after trimming, is nonempty, does not begin
with a slash, and has no extractable scheme, `ResolveRelativeT` returns
false and appends nothing to the output buffer, whatever the downstream
canonicalizer and resolver do. -/
theorem resolveRelativeT_unresolvable (schemes : List (List Nat))
    (canonFn : List Nat → Bool × List Nat)
    (resolveFn : List Nat → Parsed → Bool → List Nat → Component → Bool × List Nat)
    (baseSpec : List Nat) (baseParsed : Parsed) (relative : List Nat)
    (hns : isStandardSchemeIn schemes (sliceC baseSpec baseParsed.scheme) = false)
    (hne : (trimURL relative).2 ≠ [])
    (hslash : ∀ c rest2, (trimURL relative).2 = c :: rest2 → isURLSlash c = false)
    (hsch : extractScheme (trimURL relative).2 = Option.none) :
    resolveRelativeT schemes canonFn resolveFn baseSpec baseParsed relative = (false, []) := by
  unfold resolveRelativeT
  rw [hns]
  unfold doIsRelativeURL
  generalize htr : trimURL relative = p at hne hslash hsch ⊢
  obtain ⟨bOff, t⟩ := p
  cases t with
  | nil => exact absurd rfl hne
  | cons c rest =>
    have hsl := hslash c rest rfl
    simp only [] at hsch ⊢
    simp [hsl, hsch]

/-- C4 witness for the amended claim, at the test's concrete input. -/
theorem resolveRelativeT_unresolvable_witness :
    resolveRelativeT kStandardURLSchemes
        (fun l => (true, l))
        (fun b _ _ _ _ => (true, b))
        (strBytes "data:blahblah") { scheme := ⟨0, 4⟩, path := ⟨5, 8⟩ }
        (strBytes "javascript.html") = (false, []) :=
  resolveRelativeT_unresolvable kStandardURLSchemes
    (fun l => (true, l)) (fun b _ _ _ _ => (true, b))
    (strBytes "data:blahblah") { scheme := ⟨0, 4⟩, path := ⟨5, 8⟩ }
    (strBytes "javascript.html")
    (by decide) (by decide)
    (by
      intro c r h
      have h2 : (trimURL (strBytes "javascript.html")).2 = 0x6a :: strBytes "avascript.html" := by
        decide
      rw [h2] at h
      cases h
      decide)
    (by decide)

/-! ## Claim C9: strategy dispatch -/

/-- Three-way strategy selection as claim C9 states it, applied to a
scheme: the file strategy when the scheme equals "file" under
case-insensitive ASCII comparison, the standard strategy when the scheme
is in the standard-scheme registry, the path strategy otherwise. -/
def specStrategySelect (schemes : List (List Nat)) (sch : List Nat) : Strategy :=
  if sch.map toLowerASCII == strBytes "file" then Strategy.file
  else if schemes.any (fun r => sch.map toLowerASCII == r) then Strategy.standard
  else Strategy.path

theorem isStandardSchemeIn_eq_any (schemes : List (List Nat)) (s : List Nat) :
    isStandardSchemeIn schemes s = schemes.any (fun r => s.map toLowerASCII == r) := by
  unfold isStandardSchemeIn
  simp only [lowerCaseEqualsASCII_eq_map]

/-- C9: `CanonicalizeT` selects the strategy by applying the claim's
three-way selection to the extracted scheme (failing with no extractable
scheme), and `ReplaceComponents` applies the same selection to the
resulting scheme — the replacement scheme when an override is supplied,
the original scheme otherwise.  The registry never holds empty entries
(`AddStandardScheme` rejects them). -/
theorem dispatch_strategy (schemes : List (List Nat)) (spec : List Nat) (parsed : Parsed)
    (replScheme : Option (List Nat)) (hne : ∀ r ∈ schemes, r ≠ []) :
    canonicalizeStrategy schemes spec =
      (extractScheme ((trimURL spec).2)).map (specStrategySelect schemes) ∧
    replaceComponentsStrategy schemes spec parsed replScheme =
      specStrategySelect schemes
        (match replScheme with
         | some s => s
         | Option.none => sliceC spec parsed.scheme) := by
  constructor
  · unfold canonicalizeStrategy
    cases hex : extractScheme ((trimURL spec).2) with
    | none => rfl
    | some sch =>
      rw [show Option.map (specStrategySelect schemes) (some sch) =
        some (specStrategySelect schemes sch) from rfl]
      unfold specStrategySelect
      simp only [lowerCaseEqualsASCII_eq_map, isStandardSchemeIn_eq_any]
      split_ifs <;> rfl
  · unfold replaceComponentsStrategy specStrategySelect
    cases replScheme with
    | none =>
      simp only [lowerCaseEqualsASCII_eq_map, isStandardSchemeIn_eq_any]
    | some s =>
      cases s with
      | nil =>
        have hfile : (([] : List Nat).map toLowerASCII == strBytes "file") = false := by decide
        have hany : (schemes.any fun r => ([] : List Nat).map toLowerASCII == r) = false := by
          rw [List.any_eq_false]
          intro r hr
          have hr2 := hne r hr
          cases r with
          | nil => exact absurd rfl hr2
          | cons y ys => simp
        simp only [hfile, hany, Bool.false_eq_true, if_false, List.length_nil,
          Nat.lt_irrefl, decide_eq_true_eq, Bool.false_and, Bool.and_eq_true,
          decide_eq_false_iff_not]
        simp
      | cons x xs =>
        have hlen : decide (0 < (x :: xs).length) = true := by simp
        simp only [hlen, Bool.true_and, lowerCaseEqualsASCII_eq_map, isStandardSchemeIn_eq_any]

/-- C9 witness: canonicalizing "HTTP://x" dispatches through the selection
on the extracted scheme, and replacing the scheme of "http://a/" with
"javascript" dispatches on the replacement scheme. -/
theorem dispatch_strategy_witness :
    canonicalizeStrategy kStandardURLSchemes (strBytes "HTTP://x") =
      (extractScheme ((trimURL (strBytes "HTTP://x")).2)).map
        (specStrategySelect kStandardURLSchemes) ∧
    replaceComponentsStrategy kStandardURLSchemes (strBytes "http://a/") { scheme := ⟨0, 4⟩ }
        (some (strBytes "javascript")) =
      specStrategySelect kStandardURLSchemes
        (match some (strBytes "javascript") with
         | some s => s
         | Option.none => sliceC (strBytes "http://a/") (⟨0, 4⟩ : Component)) :=
  dispatch_strategy kStandardURLSchemes (strBytes "HTTP://x") { scheme := ⟨0, 4⟩ }
    (some (strBytes "javascript")) (by decide)

/-! ## src/url_canon_ip.cc: IPv4 -/

/-- Helper for the embedding of `DoFindIPv4Components`
(src/url_canon_ip.cc): walks the host bytes with the current component
and the list of completed components.  At a dot or at the end the
current component is completed; empty components fail except a sole
trailing one, a fifth component fails except a trailing dot right after
the fourth, and every byte must be an IPV4-class character below 0x80. -/
def findIPv4Aux : List Nat → List Nat → List (List Nat) → Option (List (List Nat))
  | [], cur, acc =>
      if cur.length = 0 ∧ acc.length = 0 then Option.none
      else some (acc ++ [cur])
  | c :: t, cur, acc =>
      if c = 0x2e then
        if cur.length = 0 then Option.none
        else if acc.length + 1 = 4 then
          if t = [] then some (acc ++ [cur]) else Option.none
        else findIPv4Aux t [] (acc ++ [cur])
      else if 0x80 ≤ c ∨ isIPv4Char c = false then Option.none
      else findIPv4Aux t (cur ++ [c]) acc

/-- Embedding of `DoFindIPv4Components` (src/url_canon_ip.cc): the
component array is represented by the returned list of byte lists (the
unused trailing entries that the code nulls out are dropped). -/
def findIPv4Components (host : List Nat) : Option (List (List Nat)) :=
  findIPv4Aux host [] []

/-- Modelled from the spec: the digit values used by `_strtoui64` (the
standard library call in `IPv4ComponentToNumber`). -/
def baseDigitValue (d : Nat) : Nat :=
  if d ≤ 0x39 then d - 0x30 else if d ≤ 0x46 then d - 0x41 + 10 else d - 0x61 + 10

/-- Embedding of `IsCharOfType` specialized to the numeric bases used by
`IPv4ComponentToNumber` (the base is the value of `BaseForType`). -/
def isCharOfTypeBase (d : Nat) (base : Nat) : Bool :=
  if base = 16 then isHexChar d else if base = 8 then isOctChar d else isDecChar d

/-- Modelled from the spec: `_strtoui64` parses a validated digit string
as an unsigned integer in the given base; with at most 16 digits no
64-bit overflow is possible, so plain positional evaluation is exact. -/
def parseInBase (digits : List Nat) (base : Nat) : Nat :=
  digits.foldl (fun a d => a * base + baseDigitValue d) 0

/-- Embedding of `IPv4ComponentToNumber` (src/url_canon_ip.cc): choose
hex for a 0x/0X start, octal for another leading zero with more input,
decimal otherwise; reject more than 16 digits after the prefix or a
digit invalid for the base; parse and truncate to 32 bits.  The code is
never called with an empty component. -/
def iPv4ComponentToNumber : List Nat → Option Nat
  | [] => Option.none
  | c0 :: rest =>
    let bp : Nat × Nat :=
      if c0 = 0x30 then
        match rest with
        | [] => (10, 0)
        | r1 :: _ => if r1 = 0x58 ∨ r1 = 0x78 then (16, 2) else (8, 1)
      else (10, 0)
    let digits := (c0 :: rest).drop bp.2
    if 16 < digits.length then Option.none
    else if digits.all (fun d => isCharOfTypeBase d bp.1) then
      some (parseInBase digits bp.1 % 2 ^ 32)
    else Option.none

/-! ## Spec-side IPv4 characterization (claim C6) -/

/-- Split core: the first dot-free piece of the list together with the
remaining pieces. -/
def splitOnDotCore : List Nat → List Nat × List (List Nat)
  | [] => ([], [])
  | c :: t =>
    let pr := splitOnDotCore t
    if c = 0x2e then ([], pr.1 :: pr.2) else (c :: pr.1, pr.2)

/-- Split a byte list on the dot separator; a list with k dots yields
k+1 pieces, in particular a trailing dot yields a trailing empty piece. -/
def splitOnDot (l : List Nat) : List (List Nat) :=
  (splitOnDotCore l).1 :: (splitOnDotCore l).2

/-- IPV4-class check for a whole component. -/
def allIPv4Chars (p : List Nat) : Bool := p.all isIPv4Char

/-- Shape of an acceptable IPv4 host as claim C6 states it: at most four
non-empty components of IPV4-class characters, optionally followed by
one trailing empty component. -/
def ipv4PartsOK (parts : List (List Nat)) : Prop :=
  (parts.length ≤ 4 ∧ ∀ p ∈ parts, p ≠ [] ∧ allIPv4Chars p = true) ∨
  (2 ≤ parts.length ∧ parts.length ≤ 5 ∧ parts.getLast? = some [] ∧
    ∀ p ∈ parts.dropLast, p ≠ [] ∧ allIPv4Chars p = true)

instance : DecidablePred ipv4PartsOK := by
  intro parts
  unfold ipv4PartsOK
  infer_instance

/-- Claimed number conversion, phrased as claim C6 states it: base 16 for
a 0x/0X start with the prefix stripped, base 8 for a leading zero with
length over one with one zero stripped, base 10 otherwise (a lone zero
being decimal zero); reject over 16 characters after prefix stripping;
parse as an unsigned integer and truncate to 32 bits. -/
def specIPv4Number (c : List Nat) : Option Nat :=
  let bp : Nat × Nat :=
    if c.take 2 = [0x30, 0x78] ∨ c.take 2 = [0x30, 0x58] then (16, 2)
    else if c.headD 0 = 0x30 ∧ 1 < c.length then (8, 1)
    else (10, 0)
  let digits := c.drop bp.2
  if 16 < digits.length then Option.none
  else if digits.all (fun d => isCharOfTypeBase d bp.1) then
    some (parseInBase digits bp.1 % 2 ^ 32)
  else Option.none

example : findIPv4Components (strBytes "1.2.3.4") =
    some [strBytes "1", strBytes "2", strBytes "3", strBytes "4"] := by decide

example : findIPv4Components (strBytes "1.2.3.4.") =
    some [strBytes "1", strBytes "2", strBytes "3", strBytes "4"] := by decide

example : findIPv4Components (strBytes "1.2.") = some [strBytes "1", strBytes "2", []] := by
  decide

example : findIPv4Components (strBytes "1.2.3.4.5") = Option.none := by decide

example : findIPv4Components (strBytes "1..2") = Option.none := by decide

example : findIPv4Components [] = Option.none := by decide

example : iPv4ComponentToNumber (strBytes "0x7f") = some 127 := by decide

example : iPv4ComponentToNumber (strBytes "010") = some 8 := by decide

example : iPv4ComponentToNumber (strBytes "09") = Option.none := by decide

example : iPv4ComponentToNumber (strBytes "0") = some 0 := by decide

theorem isIPv4Char_lt (c : Nat) (h : isIPv4Char c = true) : c < 0x80 := by
  unfold isIPv4Char at h
  simp only [Bool.or_eq_true, Bool.and_eq_true, decide_eq_true_eq, beq_iff_eq] at h
  omega

theorem splitOnDotCore_ne (t : List Nat) (h : t ≠ []) :
    (splitOnDotCore t).1 ≠ [] ∨ (splitOnDotCore t).2 ≠ [] := by
  cases t with
  | nil => exact absurd rfl h
  | cons c t2 =>
    unfold splitOnDotCore
    by_cases hc : c = 0x2e <;> simp [hc]

theorem findIPv4Aux_characterization (t : List Nat) :
    ∀ cur acc : _,
      (∀ p ∈ acc, p ≠ []) → (∀ p ∈ acc, allIPv4Chars p = true) →
      allIPv4Chars cur = true → acc.length ≤ 3 →
      ((findIPv4Aux t cur acc).isSome ↔
        ipv4PartsOK (acc ++ (cur ++ (splitOnDotCore t).1) :: (splitOnDotCore t).2)) := by
  induction t with
  | nil =>
    intro cur acc hne hval hcur hlen
    simp only [findIPv4Aux, splitOnDotCore, List.append_nil]
    by_cases h1 : cur.length = 0 ∧ acc.length = 0
    · have hcur0 : cur = [] := List.length_eq_zero.mp h1.1
      have hacc0 : acc = [] := List.length_eq_zero.mp h1.2
      subst hcur0; subst hacc0
      simp only [h1, if_true, List.nil_append]
      simp [ipv4PartsOK]
    · simp only [h1, if_false, Option.isSome_some, true_iff]
      cases hcur0 : cur with
      | nil =>
        subst hcur0
        have haccne : acc ≠ [] := by
          intro h
          exact h1 (by simp [h])
        right
        refine ⟨?_, ?_, ?_, ?_⟩
        · rcases acc with _ | ⟨a, acc2⟩
          · exact absurd rfl haccne
          · simp only [List.length_append, List.length_cons, List.length_nil]
            omega
        · simp only [List.length_append, List.length_cons, List.length_nil]
          omega
        · rw [List.getLast?_append_of_ne_nil _ (by simp)]
          rfl
        · rw [List.dropLast_append_of_ne_nil _ (by simp)]
          simp only [List.dropLast_single, List.append_nil]
          intro p hp
          exact ⟨hne p hp, hval p hp⟩
      | cons x xs =>
        subst hcur0
        left
        refine ⟨by simp; omega, ?_⟩
        intro p hp
        rcases List.mem_append.mp hp with h | h
        · exact ⟨hne p h, hval p h⟩
        · rw [List.mem_singleton.mp h]
          exact ⟨by simp, hcur⟩
  | cons c t2 ih =>
    intro cur acc hne hval hcur hlen
    simp only [findIPv4Aux, splitOnDotCore]
    by_cases hc : c = 0x2e
    · simp only [hc, if_true, if_pos rfl, List.nil_append]
      by_cases hcur0 : cur.length = 0
      · have hcur1 : cur = [] := List.length_eq_zero.mp hcur0
        subst hcur1
        simp only [List.length_nil, reduceIte, Option.isSome_none, Bool.false_eq_true,
          false_iff, List.nil_append]
        intro hok
        have hmemparts : ([] : List Nat) ∈
            (acc ++ ([] : List Nat) :: (splitOnDotCore t2).1 :: (splitOnDotCore t2).2) :=
          List.mem_append.mpr (Or.inr (List.mem_cons_self _ _))
        have hmemdrop : ([] : List Nat) ∈
            (acc ++ ([] : List Nat) :: (splitOnDotCore t2).1 :: (splitOnDotCore t2).2).dropLast :=
          by
          rw [List.dropLast_append_of_ne_nil _ (by simp)]
          exact List.mem_append.mpr (Or.inr (List.mem_cons_self _ _))
        rcases hok with ⟨_, hall⟩ | ⟨_, _, _, hinit⟩
        · exact (hall [] hmemparts).1 rfl
        · exact (hinit [] hmemdrop).1 rfl
      · simp only [if_neg hcur0]
        by_cases h4 : acc.length + 1 = 4
        · simp only [if_pos h4]
          cases ht2 : t2 with
          | nil =>
            simp only [reduceIte, Option.isSome_some, true_iff, splitOnDotCore]
            right
            have hcurne : cur ≠ [] := by
              intro h; exact hcur0 (by simp [h])
            refine ⟨?_, ?_, ?_, ?_⟩
            · simp only [List.length_append, List.length_cons, List.length_nil]
              omega
            · simp only [List.length_append, List.length_cons, List.length_nil]
              omega
            · rw [List.getLast?_append_of_ne_nil _ (by simp)]
              rfl
            · rw [List.dropLast_append_of_ne_nil _ (by simp)]
              intro p hp
              rcases List.mem_append.mp hp with h | h
              · exact ⟨hne p h, hval p h⟩
              · have hp2 : p = cur := by simpa using h
                rw [hp2]
                exact ⟨hcurne, hcur⟩
          | cons d t3 =>
            simp only [if_neg (List.cons_ne_nil d t3), Option.isSome_none,
              Bool.false_eq_true, false_iff]
            intro hok
            have hlen4 : acc.length = 3 := by omega
            rcases hok with ⟨hl, _⟩ | ⟨_, hl, hlast, _⟩
            · rw [List.length_append, List.length_cons, List.length_cons] at hl
              omega
            · rw [List.length_append, List.length_cons, List.length_cons] at hl
              have hpr2 : (splitOnDotCore (d :: t3)).2 = [] := by
                cases hx : (splitOnDotCore (d :: t3)).2 with
                | nil => rfl
                | cons y ys => rw [hx] at hl; simp at hl; omega
              rw [hpr2] at hlast
              rw [List.getLast?_append_of_ne_nil _ (by simp)] at hlast
              have hpr1 : (splitOnDotCore (d :: t3)).1 = [] := by
                have : ((cur ++ ([] : List Nat)) ::
                    [(splitOnDotCore (d :: t3)).1]).getLast? =
                    some (splitOnDotCore (d :: t3)).1 := rfl
                rw [this] at hlast
                exact Option.some_injective _ hlast
              rcases splitOnDotCore_ne (d :: t3) (List.cons_ne_nil d t3) with h | h
              · exact h hpr1
              · exact h hpr2
        · simp only [if_neg h4]
          have hih := ih [] (acc ++ [cur])
            (by
              intro p hp
              rcases List.mem_append.mp hp with h | h
              · exact hne p h
              · rw [List.mem_singleton.mp h]
                intro hx; exact hcur0 (by simp [hx]))
            (by
              intro p hp
              rcases List.mem_append.mp hp with h | h
              · exact hval p h
              · rw [List.mem_singleton.mp h]; exact hcur)
            (by unfold allIPv4Chars; rfl)
            (by rw [List.length_append]; simp; omega)
          rw [hih]
          simp only [List.nil_append, List.append_assoc, List.singleton_append,
            List.append_nil]
    · simp only [if_neg hc]
      by_cases hbad : 0x80 ≤ c ∨ isIPv4Char c = false
      · simp only [if_pos hbad, Option.isSome_none, Bool.false_eq_true, false_iff]
        intro hok
        have hcinv : isIPv4Char c = false := by
          rcases hbad with h | h
          · cases hx : isIPv4Char c with
            | false => rfl
            | true => have := isIPv4Char_lt c hx; omega
          · exact h
        have hxinv : allIPv4Chars (cur ++ c :: (splitOnDotCore t2).1) = false := by
          unfold allIPv4Chars
          rw [List.all_eq_false]
          exact ⟨c, List.mem_append.mpr (Or.inr (List.mem_cons_self _ _)), by simp [hcinv]⟩
        rcases hok with ⟨_, hall⟩ | ⟨_, _, hlast, hinit⟩
        · have := (hall _ (List.mem_append.mpr (Or.inr (List.mem_cons_self _ _)))).2
          rw [this] at hxinv
          exact Bool.noConfusion hxinv
        · cases hpr2 : (splitOnDotCore t2).2 with
          | nil =>
            rw [hpr2] at hlast
            rw [List.getLast?_append_of_ne_nil _ (by simp)] at hlast
            have : cur ++ c :: (splitOnDotCore t2).1 = [] :=
              Option.some_injective _ hlast
            simp at this
          | cons y ys =>
            rw [hpr2] at hinit
            have hmem : cur ++ c :: (splitOnDotCore t2).1 ∈
                (acc ++ (cur ++ c :: (splitOnDotCore t2).1) :: y :: ys).dropLast := by
              rw [List.dropLast_append_of_ne_nil _ (by simp)]
              exact List.mem_append.mpr (Or.inr (List.mem_cons_self _ _))
            have := (hinit _ hmem).2
            rw [this] at hxinv
            exact Bool.noConfusion hxinv
      · simp only [if_neg hbad]
        have hcok : isIPv4Char c = true := by
          rcases not_or.mp hbad with ⟨_, h2⟩
          cases hx : isIPv4Char c with
          | true => rfl
          | false => exact absurd hx h2
        have hih := ih (cur ++ [c]) acc hne hval
          (by
            unfold allIPv4Chars at hcur ⊢
            rw [List.all_append]
            simp [hcur, hcok])
          hlen
        rw [hih]
        simp only [List.append_assoc, List.singleton_append]

/-- C6: `FindIPv4Components` succeeds exactly when the host splits on
the dot into at most four non-empty components of IPV4-class
characters, optionally followed by one trailing empty component; and on
every nonempty component `IPv4ComponentToNumber` computes exactly the
claimed value: base 16 for a 0x/0X start with the prefix stripped, base
8 for a longer leading-zero component with one zero stripped, base 10
otherwise, rejection past 16 characters after prefix stripping, parsed
as an unsigned integer and truncated to 32 bits. -/
theorem findIPv4_and_number_spec (host comp : List Nat) :
    ((findIPv4Components host).isSome ↔ ipv4PartsOK (splitOnDot host)) ∧
    (comp ≠ [] → iPv4ComponentToNumber comp = specIPv4Number comp) := by
  constructor
  · have h := findIPv4Aux_characterization host [] []
      (by intro p hp; cases hp) (by intro p hp; cases hp) (by rfl) (by simp)
    unfold findIPv4Components splitOnDot
    simpa using h
  · intro hcomp
    match comp with
    | c0 :: rest =>
      unfold iPv4ComponentToNumber specIPv4Number
      by_cases hc0 : c0 = 0x30
      · subst hc0
        cases rest with
        | nil => simp
        | cons r1 rest2 =>
          by_cases hr1 : r1 = 0x58 ∨ r1 = 0x78
          · rcases hr1 with h | h <;> subst h <;> simp
          · have h58 : r1 ≠ 0x58 := fun h => hr1 (Or.inl h)
            have h78 : r1 ≠ 0x78 := fun h => hr1 (Or.inr h)
            simp [h58, h78]
      · simp [hc0]

/-- C6 witness: the host "0x7f.1" splits into the two components "0x7f"
and "1", and the component "0x7f" converts in base 16 to 127. -/
theorem findIPv4_and_number_spec_witness :
    ((findIPv4Components (strBytes "0x7f.1")).isSome ↔
      ipv4PartsOK (splitOnDot (strBytes "0x7f.1"))) ∧
    (strBytes "0x7f" ≠ [] →
      iPv4ComponentToNumber (strBytes "0x7f") = specIPv4Number (strBytes "0x7f")) :=
  findIPv4_and_number_spec (strBytes "0x7f.1") (strBytes "0x7f")

/-! ## Claim C7: IPv4 assembly and rendering -/

/-- Embedding of the address-assembly block of `DoCanonicalizeIPv4Address`
(src/url_canon_ip.cc): all but the last value are truncated to one byte,
then the last value fills the remaining bytes.  The code is reached only
with one to four values. -/
def assembleAddress : List Nat → Option (Nat × Nat × Nat × Nat)
  | [v] => some ((v &&& 0xFF000000) >>> 24, (v &&& 0x00FF0000) >>> 16,
      (v &&& 0x0000FF00) >>> 8, v &&& 0xFF)
  | [v0, v] => some (v0 &&& 0xFF, (v &&& 0x00FF0000) >>> 16, (v &&& 0x0000FF00) >>> 8,
      v &&& 0xFF)
  | [v0, v1, v] => some (v0 &&& 0xFF, v1 &&& 0xFF, (v &&& 0x0000FF00) >>> 8, v &&& 0xFF)
  | [v0, v1, v2, v] => some (v0 &&& 0xFF, v1 &&& 0xFF, v2 &&& 0xFF, v &&& 0xFF)
  | _ => Option.none

/-- Fuel-driven helper for `decRepr`; the fuel always suffices at the
call below. -/
def decReprAux : Nat → Nat → List Nat
  | 0, _ => []
  | fuel + 1, n => if n < 10 then [0x30 + n] else decReprAux fuel (n / 10) ++ [0x30 + n % 10]

/-- Decimal digits of a number, most significant first, no leading zeros
(the rendering `_itoa_s` performs in `AppendIPv4Address`). -/
def decRepr (n : Nat) : List Nat := decReprAux (n + 1) n

theorem decReprAux_congr (fuel1 : Nat) : ∀ fuel2 n : Nat, n < fuel1 → n < fuel2 →
    decReprAux fuel1 n = decReprAux fuel2 n := by
  induction fuel1 with
  | zero => intro fuel2 n h1 _; omega
  | succ f ih =>
    intro fuel2 n h1 h2
    cases fuel2 with
    | zero => omega
    | succ f2 =>
      simp only [decReprAux]
      by_cases h : n < 10
      · simp [h]
      · simp only [h, if_false]
        rw [ih f2 (n / 10) (by omega) (by omega)]

theorem decRepr_eq (n : Nat) :
    decRepr n = if n < 10 then [0x30 + n] else decRepr (n / 10) ++ [0x30 + n % 10] := by
  by_cases h : n < 10
  · simp [decRepr, decReprAux, h]
  · rw [show decRepr n = decReprAux (n + 1) n from rfl]
    simp only [decReprAux, h, if_false]
    rw [decReprAux_congr n (n / 10 + 1) (n / 10) (by omega) (by omega)]
    rfl

/-- Embedding of `AppendIPv4Address` (src/url_canon_ip.cc): the four
octets rendered in decimal and joined with dots. -/
def appendIPv4Address (a b c d : Nat) : List Nat :=
  decRepr a ++ [0x2e] ++ decRepr b ++ [0x2e] ++ decRepr c ++ [0x2e] ++ decRepr d

/-- Embedding of `DoCanonicalizeIPv4Address` (src/url_canon_ip.cc): find
the components, skip the non-present ones, convert each to a number,
assemble the four octets, render. -/
def canonicalizeIPv4Address (host : List Nat) : Option (List Nat) :=
  match findIPv4Components host with
  | Option.none => Option.none
  | some comps =>
    match (comps.filter fun p => !p.isEmpty).mapM iPv4ComponentToNumber with
    | Option.none => Option.none
    | some vals =>
      match assembleAddress vals with
      | Option.none => Option.none
      | some (a, b, c, d) => some (appendIPv4Address a b c d)

example : canonicalizeIPv4Address (strBytes "192.168.9.1") =
    some (strBytes "192.168.9.1") := by decide

example : canonicalizeIPv4Address (strBytes "0x7f.1") = some (strBytes "127.0.0.1") := by
  decide

example : canonicalizeIPv4Address (strBytes "1.2") = some (strBytes "1.0.0.2") := by decide

example : canonicalizeIPv4Address (strBytes "192.168.9.1.2") = Option.none := by decide

/-- The assembled 32-bit address as claim C7 states it: earlier
components truncated to 8 bits occupy the high octets and the last
component fills all remaining low-order octets. -/
def specAssembleN : List Nat → Nat
  | [v] => v % 2 ^ 32
  | [v0, v] => v0 % 256 * 2 ^ 24 + v % 2 ^ 24
  | [v0, v1, v] => v0 % 256 * 2 ^ 24 + v1 % 256 * 2 ^ 16 + v % 2 ^ 16
  | [v0, v1, v2, v] => v0 % 256 * 2 ^ 24 + v1 % 256 * 2 ^ 16 + v2 % 256 * 2 ^ 8 + v % 2 ^ 8
  | _ => 0

/-- A byte list is the decimal rendering of a number with no leading
zeros: nonempty, all decimal digits, evaluating to the number, and
starting with a zero digit only as the single-digit rendering of zero. -/
def isDecimalRepr (l : List Nat) (x : Nat) : Prop :=
  l ≠ [] ∧ (∀ d ∈ l, 0x30 ≤ d ∧ d ≤ 0x39) ∧
  l.foldl (fun a d => a * 10 + (d - 0x30)) 0 = x ∧
  (l.headD 0 = 0x30 → l = [0x30])

theorem nat_and_shift_eq (v k : Nat) :
    (v &&& (255 * 2 ^ k)) >>> k = v / 2 ^ k % 256 := by
  apply Nat.eq_of_testBit_eq
  intro i
  rw [Nat.testBit_shiftRight, Nat.testBit_and]
  rw [show (255 : Nat) * 2 ^ k = 255 <<< k by rw [Nat.shiftLeft_eq]]
  rw [Nat.testBit_shiftLeft]
  rw [show v / 2 ^ k = v >>> k by rw [Nat.shiftRight_eq_div_pow]]
  rw [show (256 : Nat) = 2 ^ 8 by norm_num, Nat.testBit_mod_two_pow, Nat.testBit_shiftRight]
  rw [show (255 : Nat) = 2 ^ 8 - 1 by norm_num, Nat.testBit_two_pow_sub_one]
  have h1 : (k ≤ k + i) := Nat.le_add_right k i
  have h2 : k + i - k = i := by omega
  simp [h1, h2, Bool.and_comm]

theorem nat_and_255 (v : Nat) : v &&& 255 = v % 256 := by
  have := nat_and_shift_eq v 0
  simpa using this

theorem decRepr_isDecimalRepr (x : Nat) : isDecimalRepr (decRepr x) x := by
  induction x using Nat.strong_induction_on with
  | _ x ih =>
    rw [decRepr_eq]
    by_cases h : x < 10
    · simp only [h, if_true]
      refine ⟨by simp, ?_, ?_, ?_⟩
      · intro d hd
        have hd2 : d = 0x30 + x := by simpa using hd
        omega
      · simp only [List.foldl_cons, List.foldl_nil]
        omega
      · intro hh
        have hx0 : x = 0 := by
          simp only [List.headD_cons] at hh
          omega
        simp [hx0]
    · simp only [h, if_false]
      obtain ⟨hne, hdig, hfold, hzero⟩ := ih (x / 10) (by omega)
      refine ⟨by simp, ?_, ?_, ?_⟩
      · intro d hd
        rcases List.mem_append.mp hd with h2 | h2
        · exact hdig d h2
        · have hd2 : d = 0x30 + x % 10 := by simpa using h2
          have hm : x % 10 < 10 := Nat.mod_lt x (by norm_num)
          omega
      · rw [List.foldl_append]
        simp only [List.foldl_cons, List.foldl_nil]
        rw [hfold]
        omega
      · intro hh
        exfalso
        obtain ⟨h1, t1, hl1⟩ := List.exists_cons_of_ne_nil hne
        rw [hl1] at hh
        simp only [List.cons_append, List.headD_cons] at hh
        have hz := hzero (by rw [hl1]; simpa using hh)
        rw [hz] at hfold
        simp only [List.foldl_cons, List.foldl_nil] at hfold
        omega

theorem mask24 (v : Nat) : (v &&& 0xFF000000) >>> 24 = v / 2 ^ 24 % 256 := by
  have h := nat_and_shift_eq v 24
  norm_num at h ⊢
  exact h

theorem mask16 (v : Nat) : (v &&& 0x00FF0000) >>> 16 = v / 2 ^ 16 % 256 := by
  have h := nat_and_shift_eq v 16
  norm_num at h ⊢
  exact h

theorem mask8 (v : Nat) : (v &&& 0x0000FF00) >>> 8 = v / 2 ^ 8 % 256 := by
  have h := nat_and_shift_eq v 8
  norm_num at h ⊢
  exact h

/-- C7: on a host accepted as IPv4 with one to four numeric components,
the output is the dotted-decimal rendering, with no leading zeros, of
the four octets of the 32-bit address in which the last component fills
all remaining low-order octets and earlier components, truncated to 8
bits, fill the high octets in order. -/
theorem canonicalizeIPv4Address_spec (host : List Nat) (comps : List (List Nat))
    (vals : List Nat)
    (hfind : findIPv4Components host = some comps)
    (hvals : (comps.filter fun p => !p.isEmpty).mapM iPv4ComponentToNumber = some vals)
    (hlen : 1 ≤ vals.length ∧ vals.length ≤ 4) :
    ∃ la lb lc ld,
      canonicalizeIPv4Address host =
        some (la ++ [0x2e] ++ lb ++ [0x2e] ++ lc ++ [0x2e] ++ ld) ∧
      isDecimalRepr la (specAssembleN vals / 2 ^ 24 % 256) ∧
      isDecimalRepr lb (specAssembleN vals / 2 ^ 16 % 256) ∧
      isDecimalRepr lc (specAssembleN vals / 2 ^ 8 % 256) ∧
      isDecimalRepr ld (specAssembleN vals % 256) := by
  obtain ⟨hge, hle⟩ := hlen
  unfold canonicalizeIPv4Address
  rw [hfind]
  simp only []
  rw [hvals]
  simp only []
  rcases vals with _ | ⟨v0, _ | ⟨v1, _ | ⟨v2, _ | ⟨v3, rest⟩⟩⟩⟩
  · simp at hge
  · refine ⟨decRepr ((v0 &&& 0xFF000000) >>> 24), decRepr ((v0 &&& 0x00FF0000) >>> 16),
      decRepr ((v0 &&& 0x0000FF00) >>> 8), decRepr (v0 &&& 0xFF), rfl, ?_, ?_, ?_, ?_⟩
    · rw [show (v0 &&& 0xFF000000) >>> 24 = specAssembleN [v0] / 2 ^ 24 % 256 by
        rw [mask24]; simp only [specAssembleN]; omega]
      exact decRepr_isDecimalRepr _
    · rw [show (v0 &&& 0x00FF0000) >>> 16 = specAssembleN [v0] / 2 ^ 16 % 256 by
        rw [mask16]; simp only [specAssembleN]; omega]
      exact decRepr_isDecimalRepr _
    · rw [show (v0 &&& 0x0000FF00) >>> 8 = specAssembleN [v0] / 2 ^ 8 % 256 by
        rw [mask8]; simp only [specAssembleN]; omega]
      exact decRepr_isDecimalRepr _
    · rw [show v0 &&& 0xFF = specAssembleN [v0] % 256 by
        rw [show (0xFF : Nat) = 255 from rfl, nat_and_255]; simp only [specAssembleN]; omega]
      exact decRepr_isDecimalRepr _
  · refine ⟨decRepr (v0 &&& 0xFF), decRepr ((v1 &&& 0x00FF0000) >>> 16),
      decRepr ((v1 &&& 0x0000FF00) >>> 8), decRepr (v1 &&& 0xFF), rfl, ?_, ?_, ?_, ?_⟩
    · rw [show v0 &&& 0xFF = specAssembleN [v0, v1] / 2 ^ 24 % 256 by
        rw [show (0xFF : Nat) = 255 from rfl, nat_and_255]; simp only [specAssembleN]; omega]
      exact decRepr_isDecimalRepr _
    · rw [show (v1 &&& 0x00FF0000) >>> 16 = specAssembleN [v0, v1] / 2 ^ 16 % 256 by
        rw [mask16]; simp only [specAssembleN]; omega]
      exact decRepr_isDecimalRepr _
    · rw [show (v1 &&& 0x0000FF00) >>> 8 = specAssembleN [v0, v1] / 2 ^ 8 % 256 by
        rw [mask8]; simp only [specAssembleN]; omega]
      exact decRepr_isDecimalRepr _
    · rw [show v1 &&& 0xFF = specAssembleN [v0, v1] % 256 by
        rw [show (0xFF : Nat) = 255 from rfl, nat_and_255]; simp only [specAssembleN]; omega]
      exact decRepr_isDecimalRepr _
  · refine ⟨decRepr (v0 &&& 0xFF), decRepr (v1 &&& 0xFF),
      decRepr ((v2 &&& 0x0000FF00) >>> 8), decRepr (v2 &&& 0xFF), rfl, ?_, ?_, ?_, ?_⟩
    · rw [show v0 &&& 0xFF = specAssembleN [v0, v1, v2] / 2 ^ 24 % 256 by
        rw [show (0xFF : Nat) = 255 from rfl, nat_and_255]; simp only [specAssembleN]; omega]
      exact decRepr_isDecimalRepr _
    · rw [show v1 &&& 0xFF = specAssembleN [v0, v1, v2] / 2 ^ 16 % 256 by
        rw [show (0xFF : Nat) = 255 from rfl, nat_and_255]; simp only [specAssembleN]; omega]
      exact decRepr_isDecimalRepr _
    · rw [show (v2 &&& 0x0000FF00) >>> 8 = specAssembleN [v0, v1, v2] / 2 ^ 8 % 256 by
        rw [mask8]; simp only [specAssembleN]; omega]
      exact decRepr_isDecimalRepr _
    · rw [show v2 &&& 0xFF = specAssembleN [v0, v1, v2] % 256 by
        rw [show (0xFF : Nat) = 255 from rfl, nat_and_255]; simp only [specAssembleN]; omega]
      exact decRepr_isDecimalRepr _
  · rcases rest with _ | ⟨v4, r⟩
    · refine ⟨decRepr (v0 &&& 0xFF), decRepr (v1 &&& 0xFF), decRepr (v2 &&& 0xFF),
        decRepr (v3 &&& 0xFF), rfl, ?_, ?_, ?_, ?_⟩
      · rw [show v0 &&& 0xFF = specAssembleN [v0, v1, v2, v3] / 2 ^ 24 % 256 by
          rw [show (0xFF : Nat) = 255 from rfl, nat_and_255]; simp only [specAssembleN]; omega]
        exact decRepr_isDecimalRepr _
      · rw [show v1 &&& 0xFF = specAssembleN [v0, v1, v2, v3] / 2 ^ 16 % 256 by
          rw [show (0xFF : Nat) = 255 from rfl, nat_and_255]; simp only [specAssembleN]; omega]
        exact decRepr_isDecimalRepr _
      · rw [show v2 &&& 0xFF = specAssembleN [v0, v1, v2, v3] / 2 ^ 8 % 256 by
          rw [show (0xFF : Nat) = 255 from rfl, nat_and_255]; simp only [specAssembleN]; omega]
        exact decRepr_isDecimalRepr _
      · rw [show v3 &&& 0xFF = specAssembleN [v0, v1, v2, v3] % 256 by
          rw [show (0xFF : Nat) = 255 from rfl, nat_and_255]; simp only [specAssembleN]; omega]
        exact decRepr_isDecimalRepr _
    · simp at hle

/-- C7 witness: the host "0x7f.1" is assembled from the values 127 and 1
and rendered "127.0.0.1". -/
theorem canonicalizeIPv4Address_spec_witness :
    ∃ la lb lc ld,
      canonicalizeIPv4Address (strBytes "0x7f.1") =
        some (la ++ [0x2e] ++ lb ++ [0x2e] ++ lc ++ [0x2e] ++ ld) ∧
      isDecimalRepr la (specAssembleN [127, 1] / 2 ^ 24 % 256) ∧
      isDecimalRepr lb (specAssembleN [127, 1] / 2 ^ 16 % 256) ∧
      isDecimalRepr lc (specAssembleN [127, 1] / 2 ^ 8 % 256) ∧
      isDecimalRepr ld (specAssembleN [127, 1] % 256) :=
  canonicalizeIPv4Address_spec (strBytes "0x7f.1")
    [strBytes "0x7f", strBytes "1"] [127, 1] (by decide) (by decide) (by decide)

/-! ## src/url_canon_ip.cc: IPv6 (claims C8 and C10) -/

/-- Embedding of the scan loop of `DoCanonicalizeIPv6Address`
(src/url_canon_ip.cc), carrying the counts of colons and dots and the
length of the current hex run; yields the final counts: a fifth
consecutive hex digit, a colon after a dot or after six previous
colons, a dot not after a hex digit, a byte at or above 0x80 and any
other byte all fail. -/
def ipv6ScanAux : List Nat → Nat → Nat → Nat → Option (Nat × Nat)
  | [], numColons, numDots, _ => some (numColons, numDots)
  | c :: t, numColons, numDots, numHex =>
    if 0x80 ≤ c then Option.none
    else if isHexChar c then
      if 3 < numHex then Option.none else ipv6ScanAux t numColons numDots (numHex + 1)
    else if c = 0x3a then
      if 0 < numDots ∨ 6 < numColons then Option.none
      else ipv6ScanAux t (numColons + 1) numDots 0
    else if c = 0x2e then
      if numHex < 1 then Option.none else ipv6ScanAux t numColons (numDots + 1) 0
    else Option.none

/-- Embedding of `DoCanonicalizeIPv6Address` (src/url_canon_ip.cc): the
host must be bracketed, the interior must pass the scan with at least
two colons and zero or exactly three dots, and on success the host is
copied verbatim, brackets included. -/
def canonicalizeIPv6Address (host : List Nat) : Option (List Nat) :=
  match host with
  | [] => Option.none
  | c :: t =>
    if c ≠ 0x5b then Option.none
    else if (c :: t).getLast? ≠ some 0x5d then Option.none
    else
      match ipv6ScanAux (t.dropLast) 0 0 0 with
      | Option.none => Option.none
      | some (nc, nd) =>
        if nc < 2 then Option.none
        else if nd ≠ 0 ∧ nd ≠ 3 then Option.none
        else some (c :: t)

example : canonicalizeIPv6Address (strBytes "[1:2:3:4:5:6:7:8]") =
    some (strBytes "[1:2:3:4:5:6:7:8]") := by decide

example : canonicalizeIPv6Address (strBytes "[::1]") = some (strBytes "[::1]") := by decide

example : canonicalizeIPv6Address (strBytes "[::1.2.3.4]") =
    some (strBytes "[::1.2.3.4]") := by decide

example : canonicalizeIPv6Address (strBytes "[1234:5678]") = Option.none := by decide

example : canonicalizeIPv6Address (strBytes "[1:2:3.4.5.6:7]") = Option.none := by decide

example : canonicalizeIPv6Address (strBytes "[12345::]") = Option.none := by decide

example : canonicalizeIPv6Address (strBytes "1:2:3:4:5:6:7:8") = Option.none := by decide

/-- A byte admissible inside an IPv6 literal: hex digit, colon or dot. -/
def validIPv6Char (c : Nat) : Bool := isHexChar c || c == 0x3a || c == 0x2e

/-- Check that every maximal run of consecutive hex digits has length at
most the allowance (4 at a fresh run). -/
def hexRunBound : List Nat → Nat → Bool
  | [], _ => true
  | c :: t, k =>
    if isHexChar c then
      match k with
      | 0 => false
      | k2 + 1 => hexRunBound t k2
    else hexRunBound t 4

/-- Check that every dot is immediately preceded by a hex digit; the
flag says whether the previous byte was a hex digit. -/
def dotsPrecededByHex : Bool → List Nat → Bool
  | _, [] => true
  | prevHex, c :: t =>
    (if c = 0x2e then prevHex else true) && dotsPrecededByHex (isHexChar c) t

/-- The bracket-interior shape stated by claim C8: only hex digits,
colons and dots; at most 4 hex digits in any run; at most 7 colons;
every dot only after a hex digit; zero or exactly three dots. -/
def specIPv6ShapeClaimed (l : List Nat) : Prop :=
  (∀ c ∈ l, validIPv6Char c = true) ∧
  l.count 0x3a ≤ 7 ∧
  (l.count 0x2e = 0 ∨ l.count 0x2e = 3) ∧
  hexRunBound l 4 = true ∧
  dotsPrecededByHex false l = true

/-- The amended interior shape: claim C8's conditions plus the two rules
the code also enforces — at least two colons, and no colon after a dot. -/
def specIPv6Shape (l : List Nat) : Prop :=
  specIPv6ShapeClaimed l ∧
  2 ≤ l.count 0x3a ∧
  (l.dropWhile fun c => c ≠ 0x2e).count 0x3a = 0

theorem validIPv6Char_lt (c : Nat) (h : validIPv6Char c = true) : c < 0x80 := by
  unfold validIPv6Char isHexChar at h
  simp only [Bool.or_eq_true, Bool.and_eq_true, decide_eq_true_eq, beq_iff_eq] at h
  omega

theorem ipv6ScanAux_counts (t : List Nat) : ∀ nc nd nh ncf ndf,
    ipv6ScanAux t nc nd nh = some (ncf, ndf) →
    ncf = nc + t.count 0x3a ∧ ndf = nd + t.count 0x2e := by
  induction t with
  | nil =>
    intro nc nd nh ncf ndf h
    simp only [ipv6ScanAux, Option.some.injEq, Prod.mk.injEq] at h
    simp [h.1.symm, h.2.symm]
  | cons c t2 ih =>
    intro nc nd nh ncf ndf h
    simp only [ipv6ScanAux] at h
    by_cases h80 : 0x80 ≤ c
    · simp [h80] at h
    · simp only [h80, if_false] at h
      by_cases hhex : isHexChar c = true
      · simp only [hhex, if_true] at h
        by_cases hrun : 3 < nh
        · simp [hrun] at h
        · simp only [hrun, if_false] at h
          have hcol : c ≠ 0x3a := by
            intro he; rw [he] at hhex; simp [isHexChar] at hhex
          have hdot : c ≠ 0x2e := by
            intro he; rw [he] at hhex; simp [isHexChar] at hhex
          have := ih nc nd (nh + 1) ncf ndf h
          rw [List.count_cons, List.count_cons]
          simp only [beq_iff_eq, hcol, hdot, if_false]
          simpa using this
      · simp only [hhex, if_false] at h
        by_cases hcol : c = 0x3a
        · simp only [hcol, if_pos rfl] at h
          by_cases hfail : 0 < nd ∨ 6 < nc
          · simp [hfail] at h
          · simp only [hfail, if_false] at h
            have hcounts := ih (nc + 1) nd 0 ncf ndf h
            rw [hcol]
            simp only [List.count_cons]
            simp only [show ((0x3a : Nat) == 0x3a) = true from rfl,
              show ((0x3a : Nat) == 0x2e) = false from rfl, if_true, if_false,
              Bool.false_eq_true]
            omega
        · simp only [hcol, if_false] at h
          by_cases hdot : c = 0x2e
          · simp only [hdot, if_pos rfl] at h
            by_cases hfail : nh < 1
            · simp [hfail] at h
            · simp only [hfail, if_false] at h
              have hcounts := ih nc (nd + 1) 0 ncf ndf h
              rw [hdot]
              simp only [List.count_cons]
              simp only [show ((0x2e : Nat) == 0x2e) = true from rfl,
                show ((0x2e : Nat) == 0x3a) = false from rfl, if_true, if_false,
                Bool.false_eq_true]
              omega
          · simp [hdot] at h

theorem ipv6ScanAux_iff (t : List Nat) : ∀ nc nd nh : Nat, nc ≤ 7 →
    ((ipv6ScanAux t nc nd nh).isSome = true ↔
      ((∀ c ∈ t, validIPv6Char c = true) ∧
       nc + t.count 0x3a ≤ 7 ∧
       (0 < nd → t.count 0x3a = 0) ∧
       (t.dropWhile fun c => c ≠ 0x2e).count 0x3a = 0 ∧
       hexRunBound t (4 - nh) = true ∧
       dotsPrecededByHex (decide (0 < nh)) t = true)) := by
  induction t with
  | nil =>
    intro nc nd nh hnc
    simp [ipv6ScanAux, hexRunBound, dotsPrecededByHex, hnc]
  | cons c t2 ih =>
    intro nc nd nh hnc
    simp only [ipv6ScanAux]
    by_cases h80 : 0x80 ≤ c
    · have hval : validIPv6Char c = false := by
        cases hv : validIPv6Char c with
        | false => rfl
        | true => have := validIPv6Char_lt c hv; omega
      rw [if_pos h80]
      simp only [Option.isSome_none, Bool.false_eq_true, false_iff]
      intro hok
      have := hok.1 c (List.mem_cons_self _ _)
      rw [hval] at this
      exact Bool.noConfusion this
    · rw [if_neg h80]
      by_cases hhex : isHexChar c = true
      · have hcol : c ≠ 0x3a := by
          intro he; rw [he] at hhex; exact Bool.noConfusion hhex
        have hdot : c ≠ 0x2e := by
          intro he; rw [he] at hhex; exact Bool.noConfusion hhex
        rw [if_pos hhex]
        have e1 : (c :: t2).count 0x3a = t2.count 0x3a := by
          rw [List.count_cons]
          simp only [beq_iff_eq, hcol, if_false]
          omega
        have e2 : ((c :: t2).dropWhile fun x => x ≠ 0x2e) =
            t2.dropWhile fun x => x ≠ 0x2e := by
          rw [List.dropWhile_cons]
          simp [hdot]
        have e4 : dotsPrecededByHex (decide (0 < nh)) (c :: t2) =
            dotsPrecededByHex true t2 := by
          simp [dotsPrecededByHex, hdot, hhex]
        by_cases hrun : 3 < nh
        · have hrb : hexRunBound (c :: t2) (4 - nh) = false := by
            have h40 : 4 - nh = 0 := by omega
            simp [hexRunBound, h40, hhex]
          rw [if_pos hrun]
          simp only [Option.isSome_none, Bool.false_eq_true, false_iff]
          intro hok
          have := hok.2.2.2.2.1
          rw [hrb] at this
          exact Bool.noConfusion this
        · rw [if_neg hrun]
          rw [ih nc nd (nh + 1) hnc]
          have e3 : hexRunBound (c :: t2) (4 - nh) = hexRunBound t2 (4 - (nh + 1)) := by
            have h4 : 4 - nh = (4 - (nh + 1)) + 1 := by omega
            simp [hexRunBound, hhex, h4]
          have e5 : dotsPrecededByHex (decide (0 < nh + 1)) t2 =
              dotsPrecededByHex true t2 := by
            norm_num
          rw [e5]
          rw [e1.symm] at *
          constructor
          · rintro ⟨a, b, d, e, f, g⟩
            rw [e1] at b d
            refine ⟨?_, by rw [e1]; exact b, by rw [e1]; exact d,
              by rw [e2]; exact e, by rw [e3]; exact f, by rw [e4]; exact g⟩
            intro x hx
            rcases List.mem_cons.mp hx with h | h
            · rw [h]; simp [validIPv6Char, hhex]
            · exact a x h
          · rintro ⟨a, b, d, e, f, g⟩
            rw [e1] at b d
            exact ⟨fun x hx => a x (List.mem_cons_of_mem _ hx), by rw [← e1]; exact b,
              by rw [← e1]; exact d, by rw [← e2]; exact e, by rw [← e3]; exact f,
              by rw [← e4]; exact g⟩
      · rw [if_neg hhex]
        by_cases hcol : c = 0x3a
        · subst hcol
          rw [if_pos rfl]
          have e1 : ((0x3a : Nat) :: t2).count 0x3a = t2.count 0x3a + 1 := by
            rw [List.count_cons]; simp
          have e2 : (((0x3a : Nat) :: t2).dropWhile fun x => x ≠ 0x2e) =
              t2.dropWhile fun x => x ≠ 0x2e := by
            rw [List.dropWhile_cons]
            simp
          have e3 : hexRunBound ((0x3a : Nat) :: t2) (4 - nh) = hexRunBound t2 4 := by
            simp [hexRunBound, hhex]
          have e4 : dotsPrecededByHex (decide (0 < nh)) ((0x3a : Nat) :: t2) =
              dotsPrecededByHex false t2 := by
            simp only [dotsPrecededByHex]
            rw [if_neg (by norm_num)]
            rw [show isHexChar 0x3a = false from rfl]
            simp
          by_cases hfail : 0 < nd ∨ 6 < nc
          · rw [if_pos hfail]
            simp only [Option.isSome_none, Bool.false_eq_true, false_iff]
            intro hok
            rcases hfail with h | h
            · have := hok.2.2.1 h
              rw [e1] at this
              omega
            · have := hok.2.1
              rw [e1] at this
              omega
          · rw [if_neg hfail]
            have hnd : nd = 0 := by omega
            have hnc6 : nc ≤ 6 := by omega
            rw [ih (nc + 1) nd 0 (by omega)]
            subst hnd
            constructor
            · rintro ⟨a, b, d, e, f, g⟩
              refine ⟨?_, by rw [e1]; omega, by simp, by rw [e2]; exact e,
                by rw [e3]; simpa using f, by rw [e4]; simpa using g⟩
              intro x hx
              rcases List.mem_cons.mp hx with h | h
              · rw [h]; rfl
              · exact a x h
            · rintro ⟨a, b, d, e, f, g⟩
              rw [e1] at b
              refine ⟨fun x hx => a x (List.mem_cons_of_mem _ hx), by omega,
                by simp, by rw [e2] at e; exact e, by rw [e3] at f; simpa using f,
                by rw [e4] at g; simpa using g⟩
        · rw [if_neg hcol]
          by_cases hdot : c = 0x2e
          · subst hdot
            rw [if_pos rfl]
            have e1 : ((0x2e : Nat) :: t2).count 0x3a = t2.count 0x3a := by
              rw [List.count_cons]; simp
            have e2 : (((0x2e : Nat) :: t2).dropWhile fun x => x ≠ 0x2e) =
                (0x2e : Nat) :: t2 := by
              rw [List.dropWhile_cons]
              simp
            have e3 : hexRunBound ((0x2e : Nat) :: t2) (4 - nh) = hexRunBound t2 4 := by
              simp [hexRunBound, hhex]
            by_cases hfail : nh < 1
            · have hnh : nh = 0 := by omega
              rw [if_pos hfail]
              simp only [Option.isSome_none, Bool.false_eq_true, false_iff]
              intro hok
              have := hok.2.2.2.2.2
              rw [hnh] at this
              simp only [dotsPrecededByHex] at this
              simp at this
            · rw [if_neg hfail]
              have hnh : 0 < nh := by omega
              have e4 : dotsPrecededByHex (decide (0 < nh)) ((0x2e : Nat) :: t2) =
                  dotsPrecededByHex false t2 := by
                simp only [dotsPrecededByHex]
                simp [hnh, show isHexChar 0x2e = false from rfl]
              rw [ih nc (nd + 1) 0 hnc]
              have hcountmono : (t2.dropWhile fun x => x ≠ 0x2e).count 0x3a ≤
                  t2.count 0x3a :=
                List.Sublist.count_le (List.dropWhile_sublist _) _
              constructor
              · rintro ⟨a, b, d, e, f, g⟩
                have hz : t2.count 0x3a = 0 := d (by omega)
                refine ⟨?_, by rw [e1]; omega, by rw [e1]; intro _; exact hz,
                  by rw [e2, e1]; exact hz, by rw [e3]; simpa using f,
                  by rw [e4]; simpa using g⟩
                intro x hx
                rcases List.mem_cons.mp hx with h | h
                · rw [h]; rfl
                · exact a x h
              · rintro ⟨a, b, d, e, f, g⟩
                rw [e1] at b d
                rw [e2, e1] at e
                refine ⟨fun x hx => a x (List.mem_cons_of_mem _ hx), b,
                  by intro _; exact e, by omega, by rw [e3] at f; simpa using f,
                  by rw [e4] at g; simpa using g⟩
          · have hval : validIPv6Char c = false := by
              unfold validIPv6Char
              simp [hhex, hcol, hdot]
            rw [if_neg hdot]
            simp only [Option.isSome_none, Bool.false_eq_true, false_iff]
            intro hok
            have := hok.1 c (List.mem_cons_self _ _)
            rw [hval] at this
            exact Bool.noConfusion this

/-- C8 counterexample: the bracketed host "[1:2:3.4.5.6:7]" satisfies
every shape rule listed by the claim — only hex digits, colons and
dots, runs of at most 4 hex digits, at most 7 colons, every dot after a
hex digit, exactly three dots — yet `CanonicalizeIPv6Address` rejects
it, because the code additionally forbids a colon after a dot. -/
theorem ipv6_claimed_shape_counterexample :
    specIPv6ShapeClaimed (strBytes "1:2:3.4.5.6:7") ∧
    (strBytes "[1:2:3.4.5.6:7]").headD 0 = 0x5b ∧
    (strBytes "[1:2:3.4.5.6:7]").getLast? = some 0x5d ∧
    ((strBytes "[1:2:3.4.5.6:7]").drop 1).dropLast = strBytes "1:2:3.4.5.6:7" ∧
    canonicalizeIPv6Address (strBytes "[1:2:3.4.5.6:7]") = Option.none := by
  refine ⟨⟨by decide, by decide, by decide, by decide, by decide⟩, by decide, by decide,
    by decide, by decide⟩

/-- C8 (amended): `CanonicalizeIPv6Address` succeeds exactly when the
host is bracketed and its interior satisfies the claimed shape rules
together with the two further rules the code enforces — at least two
colon separators, and no colon after any dot; on success the bracketed
host is copied to the output verbatim. -/
theorem canonicalizeIPv6Address_iff (host : List Nat) :
    ((canonicalizeIPv6Address host).isSome = true ↔
      (host ≠ [] ∧ host.headD 0 = 0x5b ∧ host.getLast? = some 0x5d ∧
        specIPv6Shape ((host.drop 1).dropLast))) ∧
    (∀ out, canonicalizeIPv6Address host = some out → out = host) := by
  constructor
  · unfold canonicalizeIPv6Address
    cases host with
    | nil => simp
    | cons c t =>
      have hdrop : ((c :: t).drop 1).dropLast = t.dropLast := rfl
      rw [hdrop]
      simp only []
      by_cases h1 : c ≠ 0x5b
      · rw [if_pos h1]
        simp only [Option.isSome_none, Bool.false_eq_true, false_iff]
        intro hok
        exact h1 hok.2.1
      · rw [if_neg h1]
        have hc : c = 0x5b := not_not.mp h1
        by_cases h2 : (c :: t).getLast? ≠ some 0x5d
        · rw [if_pos h2]
          simp only [Option.isSome_none, Bool.false_eq_true, false_iff]
          intro hok
          exact h2 hok.2.2.1
        · rw [if_neg h2]
          have hlast : (c :: t).getLast? = some 0x5d := not_not.mp h2
          cases hscan : ipv6ScanAux t.dropLast 0 0 0 with
          | none =>
            simp only [Option.isSome_none, Bool.false_eq_true, false_iff]
            intro hok
            obtain ⟨⟨hv, h7, hd03, hrb, hdp⟩, h2c, hnca⟩ := hok.2.2.2
            have hsome :=
              (ipv6ScanAux_iff t.dropLast 0 0 0 (by omega)).mpr
                ⟨hv, by omega, by intro h; omega, hnca, hrb, hdp⟩
            rw [hscan] at hsome
            exact Bool.noConfusion hsome
          | some pair =>
            obtain ⟨nc, nd⟩ := pair
            have hcounts := ipv6ScanAux_counts t.dropLast 0 0 0 nc nd hscan
            simp only [Nat.zero_add] at hcounts
            simp only []
            by_cases h3 : nc < 2
            · rw [if_pos h3]
              simp only [Option.isSome_none, Bool.false_eq_true, false_iff]
              intro hok
              have := hok.2.2.2.2.1
              omega
            · rw [if_neg h3]
              by_cases h4 : nd ≠ 0 ∧ nd ≠ 3
              · rw [if_pos h4]
                simp only [Option.isSome_none, Bool.false_eq_true, false_iff]
                intro hok
                rcases hok.2.2.2.1.2.2.1 with h | h <;> omega
              · rw [if_neg h4]
                simp only [Option.isSome_some, true_iff]
                have hsome : (ipv6ScanAux t.dropLast 0 0 0).isSome = true := by
                  rw [hscan]; rfl
                obtain ⟨hv, h7, _, hnca, hrb, hdp⟩ :=
                  (ipv6ScanAux_iff t.dropLast 0 0 0 (by omega)).mp hsome
                refine ⟨List.cons_ne_nil c t, by simpa using hc, hlast,
                  ⟨hv, by omega, ?_, hrb, hdp⟩, by omega, hnca⟩
                rcases Decidable.em (nd = 0) with h | h
                · left; omega
                · right
                  have : nd = 3 := by tauto
                  omega
  · intro out hout
    unfold canonicalizeIPv6Address at hout
    cases host with
    | nil => cases hout
    | cons c t =>
      simp only [] at hout
      by_cases h1 : c ≠ 0x5b
      · rw [if_pos h1] at hout; cases hout
      · rw [if_neg h1] at hout
        by_cases h2 : (c :: t).getLast? ≠ some 0x5d
        · rw [if_pos h2] at hout; cases hout
        · rw [if_neg h2] at hout
          cases hscan : ipv6ScanAux t.dropLast 0 0 0 with
          | none => rw [hscan] at hout; cases hout
          | some pair =>
            obtain ⟨nc, nd⟩ := pair
            rw [hscan] at hout
            simp only [] at hout
            by_cases h3 : nc < 2
            · rw [if_pos h3] at hout; cases hout
            · rw [if_neg h3] at hout
              by_cases h4 : nd ≠ 0 ∧ nd ≠ 3
              · rw [if_pos h4] at hout; cases hout
              · rw [if_neg h4] at hout
                exact (Option.some_injective _ hout).symm

/-- C8 witness: the amended characterization applied to the concrete
host "[::1.2.3.4]", which is accepted and copied through verbatim. -/
theorem canonicalizeIPv6Address_iff_witness :
    (canonicalizeIPv6Address (strBytes "[::1.2.3.4]")).isSome = true ∧
    ∀ out, canonicalizeIPv6Address (strBytes "[::1.2.3.4]") = some out →
      out = strBytes "[::1.2.3.4]" :=
  ⟨(canonicalizeIPv6Address_iff (strBytes "[::1.2.3.4]")).1.mpr
      (by
        refine ⟨by decide, by decide, by decide,
          ⟨by decide, by decide, by decide, by decide, by decide⟩, by decide, by decide⟩),
    (canonicalizeIPv6Address_iff (strBytes "[::1.2.3.4]")).2⟩

/-- C10: whenever the interior of the bracketed host holds fewer than
two colons, `CanonicalizeIPv6Address` fails, whatever else the host
looks like. -/
theorem canonicalizeIPv6Address_two_colons (host : List Nat)
    (h : ((host.drop 1).dropLast).count 0x3a < 2) :
    canonicalizeIPv6Address host = Option.none := by
  unfold canonicalizeIPv6Address
  cases host with
  | nil => rfl
  | cons c t =>
    have hdrop : ((c :: t).drop 1).dropLast = t.dropLast := rfl
    rw [hdrop] at h
    simp only []
    by_cases h1 : c ≠ 0x5b
    · rw [if_pos h1]
    · rw [if_neg h1]
      by_cases h2 : (c :: t).getLast? ≠ some 0x5d
      · rw [if_pos h2]
      · rw [if_neg h2]
        cases hscan : ipv6ScanAux t.dropLast 0 0 0 with
        | none => rfl
        | some pair =>
          obtain ⟨nc, nd⟩ := pair
          have hcounts := ipv6ScanAux_counts t.dropLast 0 0 0 nc nd hscan
          simp only [Nat.zero_add] at hcounts
          have h3 : nc < 2 := by omega
          simp only [] 
          rw [if_pos h3]

/-- C10 witness: the host "[1234:5678]" has a single colon inside the
brackets and is rejected. -/
theorem canonicalizeIPv6Address_two_colons_witness :
    canonicalizeIPv6Address (strBytes "[1234:5678]") = Option.none :=
  canonicalizeIPv6Address_two_colons (strBytes "[1234:5678]") (by decide)

/-! ## Spec-modelled canonicalization pipeline (claims C1 and C2)

The per-component canonicalizers, the parsers and the UTF machinery live
in files that are not part of the source drop (url_canon.cc and friends,
url_parse.cc); the definitions below are modelled from the specification
text (sections 3, 4.1, 4.2, 4.3, 6 and 7) on 8-bit input, reusing what
is under src/: the character class table, `DoCanonicalizeEscaped`,
`LowerCaseEqualsASCII`, the scheme registry and the IP canonicalizers.
Where the specification leaves a detail open it is resolved in the way
consistent with the specification's own stated invariants (pure-ASCII
output except as noted in claim C2, idempotence), and the doc comments
say so. -/

/-- Check for a UTF-8 continuation byte. -/
def isContByte (b : Nat) : Bool := 0x80 ≤ b && b ≤ 0xbf

theorem isContByte_true (b : Nat) (h1 : 0x80 ≤ b) (h2 : b ≤ 0xbf) : isContByte b = true := by
  unfold isContByte
  simp only [Bool.and_eq_true, decide_eq_true_eq]
  omega

/-- Modelled from the spec: `ReadUTFChar` reads one code point from an
8-bit sequence; malformed sequences — overlongs, surrogates, truncated
multi-byte, stray continuation bytes — yield the replacement character
0xFFFD and report failure (spec section 4.1).  Returns the validity
flag, the code point and the remaining input; on a malformed sequence
only the lead byte is consumed. -/
def readUTF8 : List Nat → Bool × Nat × List Nat
  | [] => (false, 0xfffd, [])
  | c :: t =>
    if c < 0x80 then (true, c, t)
    else if c < 0xc2 then (false, 0xfffd, t)
    else if c < 0xe0 then
      match t with
      | c1 :: t1 =>
        if isContByte c1 then (true, (c - 0xc0) * 0x40 + (c1 - 0x80), t1)
        else (false, 0xfffd, t)
      | [] => (false, 0xfffd, t)
    else if c < 0xf0 then
      match t with
      | c1 :: c2 :: t2 =>
        if isContByte c1 && isContByte c2 then
          if (c - 0xe0) * 0x1000 + (c1 - 0x80) * 0x40 + (c2 - 0x80) < 0x800 ∨
              (0xd800 ≤ (c - 0xe0) * 0x1000 + (c1 - 0x80) * 0x40 + (c2 - 0x80) ∧
               (c - 0xe0) * 0x1000 + (c1 - 0x80) * 0x40 + (c2 - 0x80) ≤ 0xdfff) then
            (false, 0xfffd, t)
          else (true, (c - 0xe0) * 0x1000 + (c1 - 0x80) * 0x40 + (c2 - 0x80), t2)
        else (false, 0xfffd, t)
      | _ => (false, 0xfffd, t)
    else if c < 0xf5 then
      match t with
      | c1 :: c2 :: c3 :: t3 =>
        if isContByte c1 && isContByte c2 && isContByte c3 then
          if (c - 0xf0) * 0x40000 + (c1 - 0x80) * 0x1000 + (c2 - 0x80) * 0x40 +
                (c3 - 0x80) < 0x10000 ∨
              0x10ffff < (c - 0xf0) * 0x40000 + (c1 - 0x80) * 0x1000 +
                (c2 - 0x80) * 0x40 + (c3 - 0x80) then
            (false, 0xfffd, t)
          else (true, (c - 0xf0) * 0x40000 + (c1 - 0x80) * 0x1000 + (c2 - 0x80) * 0x40 +
            (c3 - 0x80), t3)
        else (false, 0xfffd, t)
      | _ => (false, 0xfffd, t)
    else (false, 0xfffd, t)

/-- Modelled from the spec: `AppendUTF8Value` writes one code point in
UTF-8 (spec section 4.1). -/
def appendUTF8 (cp : Nat) : List Nat :=
  if cp < 0x80 then [cp]
  else if cp < 0x800 then [0xc0 + cp / 0x40, 0x80 + cp % 0x40]
  else if cp < 0x10000 then
    [0xe0 + cp / 0x1000, 0x80 + cp / 0x40 % 0x40, 0x80 + cp % 0x40]
  else [0xf0 + cp / 0x40000, 0x80 + cp / 0x1000 % 0x40, 0x80 + cp / 0x40 % 0x40,
    0x80 + cp % 0x40]

/-- A code point that UTF-8 can carry: in range and not a surrogate. -/
def isValidCodePoint (cp : Nat) : Bool :=
  cp ≤ 0x10ffff && !(0xd800 ≤ cp && cp ≤ 0xdfff)

theorem readUTF8_appendUTF8 (cp : Nat) (rest : List Nat)
    (h : isValidCodePoint cp = true) :
    readUTF8 (appendUTF8 cp ++ rest) = (true, cp, rest) := by
  have hv : cp ≤ 0x10ffff ∧ (cp < 0xd800 ∨ 0xdfff < cp) := by
    unfold isValidCodePoint at h
    rcases Nat.lt_or_ge cp 0xd800 with hc | hc
    · exact ⟨by revert h; simp only [Bool.and_eq_true, decide_eq_true_eq]; tauto, Or.inl hc⟩
    · rcases Nat.lt_or_ge 0xdfff cp with hc2 | hc2
      · exact ⟨by revert h; simp only [Bool.and_eq_true, decide_eq_true_eq]; tauto, Or.inr hc2⟩
      · exfalso
        rw [show (0xd800 ≤ cp && cp ≤ 0xdfff) = true by
          simp only [Bool.and_eq_true, decide_eq_true_eq]; omega] at h
        simp at h
  unfold appendUTF8
  by_cases h1 : cp < 0x80
  · rw [if_pos h1]
    simp only [List.cons_append, List.nil_append, readUTF8]
    rw [if_pos h1]
  · rw [if_neg h1]
    by_cases h2 : cp < 0x800
    · rw [if_pos h2]
      simp only [List.cons_append, List.nil_append, readUTF8]
      rw [if_neg (by omega), if_neg (by omega), if_pos (by omega),
        if_pos (isContByte_true _ (by omega) (by omega))]
      have he : (0xc0 + cp / 0x40 - 0xc0) * 0x40 + (0x80 + cp % 0x40 - 0x80) = cp := by
        omega
      rw [he]
    · rw [if_neg h2]
      by_cases h3 : cp < 0x10000
      · rw [if_pos h3]
        simp only [List.cons_append, List.nil_append, readUTF8]
        rw [if_neg (by omega), if_neg (by omega), if_neg (by omega), if_pos (by omega)]
        rw [show (isContByte (0x80 + cp / 0x40 % 0x40) && isContByte (0x80 + cp % 0x40))
            = true by
          rw [isContByte_true _ (by omega) (by omega), isContByte_true _ (by omega) (by omega)]
          rfl]
        rw [if_pos rfl]
        have he : (0xe0 + cp / 0x1000 - 0xe0) * 0x1000 + (0x80 + cp / 0x40 % 0x40 - 0x80)
            * 0x40 + (0x80 + cp % 0x40 - 0x80) = cp := by omega
        rw [he]
        rw [if_neg (by omega)]
      · rw [if_neg h3]
        simp only [List.cons_append, List.nil_append, readUTF8]
        rw [if_neg (by omega), if_neg (by omega), if_neg (by omega), if_neg (by omega),
          if_pos (by omega)]
        rw [show (isContByte (0x80 + cp / 0x1000 % 0x40) &&
            isContByte (0x80 + cp / 0x40 % 0x40) && isContByte (0x80 + cp % 0x40)) = true by
          rw [isContByte_true _ (by omega) (by omega), isContByte_true _ (by omega) (by omega),
            isContByte_true _ (by omega) (by omega)]
          rfl]
        rw [if_pos rfl]
        have he : (0xf0 + cp / 0x40000 - 0xf0) * 0x40000 +
            (0x80 + cp / 0x1000 % 0x40 - 0x80) * 0x1000 +
            (0x80 + cp / 0x40 % 0x40 - 0x80) * 0x40 + (0x80 + cp % 0x40 - 0x80) = cp := by
          omega
        rw [he]
        rw [if_neg (by omega)]

theorem readUTF8_rest_length (l : List Nat) (hne : l ≠ []) :
    (readUTF8 l).2.2.length < l.length := by
  rcases l with _ | ⟨c, t⟩
  · exact absurd rfl hne
  rcases t with _ | ⟨c1, t1⟩
  · simp only [readUTF8]
    split_ifs <;> simp <;> omega
  rcases t1 with _ | ⟨c2, t2⟩
  · simp only [readUTF8]
    split_ifs <;> simp <;> omega
  rcases t2 with _ | ⟨c3, t3⟩
  · simp only [readUTF8]
    split_ifs <;> simp <;> omega
  · simp only [readUTF8]
    split_ifs <;> simp <;> omega

/-- Percent-escape every byte of a list. -/
def escapeBytes (l : List Nat) : List Nat :=
  l.foldr (fun b acc => appendEscapedChar b ++ acc) []

theorem canonicalizeEscaped_rest_length (t : List Nat) :
    (canonicalizeEscaped t).2.2.length ≤ t.length := by
  match t with
  | [] => simp [canonicalizeEscaped, decodeEscaped]
  | [h1] => simp [canonicalizeEscaped, decodeEscaped]
  | h1 :: h2 :: t2 =>
    simp only [canonicalizeEscaped, decodeEscaped]
    split_ifs <;> simp <;> omega

/-- Modelled from the spec: the shared character walk of the
per-component canonicalizers (spec section 4.3).  ASCII bytes are
handled by the supplied per-component function; when escape
normalization is on, a percent sign is treated by `CanonicalizeEscaped`
(src/url_canon_internal.cc) and the walk resumes after the percent
sign; other bytes are read as UTF-8 — with replacement and a validity
flag on malformed input — re-encoded, and either passed through raw (in
the ref) or percent-escaped.  Fuel-driven; the fuel always suffices at
the call below. -/
def canonEngine (handleAscii : Nat → Bool × List Nat) (normEsc rawUTF8 : Bool) :
    Nat → List Nat → Bool × List Nat
  | 0, _ => (true, [])
  | _ + 1, [] => (true, [])
  | fuel + 1, c :: t =>
    if c = 0x25 ∧ normEsc = true then
      ((canonicalizeEscaped t).1 &&
        (canonEngine handleAscii normEsc rawUTF8 fuel (canonicalizeEscaped t).2.2).1,
       (canonicalizeEscaped t).2.1 ++
        (canonEngine handleAscii normEsc rawUTF8 fuel (canonicalizeEscaped t).2.2).2)
    else if c < 0x80 then
      ((handleAscii c).1 && (canonEngine handleAscii normEsc rawUTF8 fuel t).1,
       (handleAscii c).2 ++ (canonEngine handleAscii normEsc rawUTF8 fuel t).2)
    else
      ((readUTF8 (c :: t)).1 &&
        (canonEngine handleAscii normEsc rawUTF8 fuel (readUTF8 (c :: t)).2.2).1,
       (if rawUTF8 = true then appendUTF8 (readUTF8 (c :: t)).2.1
        else escapeBytes (appendUTF8 (readUTF8 (c :: t)).2.1)) ++
        (canonEngine handleAscii normEsc rawUTF8 fuel (readUTF8 (c :: t)).2.2).2)

theorem canonEngine_congr (handleAscii : Nat → Bool × List Nat) (normEsc rawUTF8 : Bool)
    (f1 : Nat) : ∀ f2 l, l.length < f1 → l.length < f2 →
    canonEngine handleAscii normEsc rawUTF8 f1 l =
      canonEngine handleAscii normEsc rawUTF8 f2 l := by
  induction f1 with
  | zero => intro f2 l h1 _; omega
  | succ f ih =>
    intro f2 l h1 h2
    cases f2 with
    | zero => omega
    | succ f2b =>
      cases l with
      | nil => rfl
      | cons c t =>
        simp only [canonEngine]
        by_cases hc : c = 0x25 ∧ normEsc = true
        · rw [if_pos hc, if_pos hc]
          have hlen := canonicalizeEscaped_rest_length t
          rw [ih f2b (canonicalizeEscaped t).2.2 (by simp at h1; omega)
            (by simp at h2; omega)]
        · rw [if_neg hc, if_neg hc]
          by_cases h80 : c < 0x80
          · rw [if_pos h80, if_pos h80]
            rw [ih f2b t (by simp at h1; omega) (by simp at h2; omega)]
          · rw [if_neg h80, if_neg h80]
            have hlen := readUTF8_rest_length (c :: t) (List.cons_ne_nil c t)
            rw [ih f2b (readUTF8 (c :: t)).2.2 (by simp at h1 hlen ⊢; omega)
              (by simp at h2 hlen ⊢; omega)]

/-- The walk at adequate fuel. -/
def canonWalk (handleAscii : Nat → Bool × List Nat) (normEsc rawUTF8 : Bool)
    (l : List Nat) : Bool × List Nat :=
  canonEngine handleAscii normEsc rawUTF8 (l.length + 1) l

theorem canonWalk_nil (handleAscii : Nat → Bool × List Nat) (normEsc rawUTF8 : Bool) :
    canonWalk handleAscii normEsc rawUTF8 [] = (true, []) := rfl

theorem canonWalk_cons (handleAscii : Nat → Bool × List Nat) (normEsc rawUTF8 : Bool)
    (c : Nat) (t : List Nat) :
    canonWalk handleAscii normEsc rawUTF8 (c :: t) =
      (if c = 0x25 ∧ normEsc = true then
        ((canonicalizeEscaped t).1 &&
          (canonWalk handleAscii normEsc rawUTF8 (canonicalizeEscaped t).2.2).1,
         (canonicalizeEscaped t).2.1 ++
          (canonWalk handleAscii normEsc rawUTF8 (canonicalizeEscaped t).2.2).2)
      else if c < 0x80 then
        ((handleAscii c).1 && (canonWalk handleAscii normEsc rawUTF8 t).1,
         (handleAscii c).2 ++ (canonWalk handleAscii normEsc rawUTF8 t).2)
      else
        ((readUTF8 (c :: t)).1 &&
          (canonWalk handleAscii normEsc rawUTF8 (readUTF8 (c :: t)).2.2).1,
         (if rawUTF8 = true then appendUTF8 (readUTF8 (c :: t)).2.1
          else escapeBytes (appendUTF8 (readUTF8 (c :: t)).2.1)) ++
          (canonWalk handleAscii normEsc rawUTF8 (readUTF8 (c :: t)).2.2).2)) := by
  unfold canonWalk
  rw [show (c :: t).length + 1 = t.length + 1 + 1 from by simp]
  simp only [canonEngine]
  by_cases hc : c = 0x25 ∧ normEsc = true
  · rw [if_pos hc, if_pos hc]
    have hlen := canonicalizeEscaped_rest_length t
    rw [canonEngine_congr handleAscii normEsc rawUTF8 (t.length + 1)
      ((canonicalizeEscaped t).2.2.length + 1) (canonicalizeEscaped t).2.2
      (by omega) (by omega)]
  · rw [if_neg hc, if_neg hc]
    by_cases h80 : c < 0x80
    · rw [if_pos h80, if_pos h80]
    · rw [if_neg h80, if_neg h80]
      have hlen := readUTF8_rest_length (c :: t) (List.cons_ne_nil c t)
      rw [canonEngine_congr handleAscii normEsc rawUTF8 (t.length + 1)
        ((readUTF8 (c :: t)).2.2.length + 1) (readUTF8 (c :: t)).2.2
        (by simp at hlen ⊢; omega) (by omega)]

/-! ## Per-component canonicalizers (spec section 4.3) -/

/-- Unreserved plus sub-delims bytes: the set the spec's userinfo
canonicalizer passes through unescaped (spec section 4.3, Userinfo). -/
def isUserinfoSafe (c : Nat) : Bool :=
  (0x41 ≤ c && c ≤ 0x5a) || (0x61 ≤ c && c ≤ 0x7a) || (0x30 ≤ c && c ≤ 0x39) ||
  c == 0x2d || c == 0x2e || c == 0x5f || c == 0x7e ||
  c == 0x21 || c == 0x24 || c == 0x26 || c == 0x27 || c == 0x28 || c == 0x29 ||
  c == 0x2a || c == 0x2b || c == 0x2c || c == 0x3b || c == 0x3d

/-- Modelled from the spec: the path-safe class (spec section 4.3, Path;
the exact class is in the missing url_canon_path.cc): printable ASCII
except the bytes that would disturb re-parsing or escaping — quote,
hash, percent, slash, angle brackets, question mark, backslash, caret,
backquote, braces, pipe. -/
def isPathSafe (c : Nat) : Bool :=
  0x21 ≤ c && c ≤ 0x7e &&
  !(c == 0x22 || c == 0x23 || c == 0x25 || c == 0x2f || c == 0x3c || c == 0x3e ||
    c == 0x3f || c == 0x5c || c == 0x5e || c == 0x60 || c == 0x7b || c == 0x7c ||
    c == 0x7d)

/-- ASCII handling for userinfo: safe bytes pass, the rest is escaped. -/
def userinfoAscii (c : Nat) : Bool × List Nat :=
  if isUserinfoSafe c then (true, [c]) else (true, appendEscapedChar c)

/-- ASCII handling for path segments: safe bytes pass, the rest is escaped. -/
def pathAscii (c : Nat) : Bool × List Nat :=
  if isPathSafe c then (true, [c]) else (true, appendEscapedChar c)

/-- ASCII handling for queries: QUERY-class bytes pass, the rest is escaped. -/
def queryAscii (c : Nat) : Bool × List Nat :=
  if isQueryChar c then (true, [c]) else (true, appendEscapedChar c)

/-- ASCII handling for refs: control characters are escaped, the rest passes. -/
def refAscii (c : Nat) : Bool × List Nat :=
  if c < 0x20 || c == 0x7f then (true, appendEscapedChar c) else (true, [c])

/-- ASCII handling for opaque path-URL bodies: everything passes. -/
def opaqueAscii (c : Nat) : Bool × List Nat := (true, [c])

/-- Userinfo canonicalizer (one of user or password). -/
def canonUserinfoPart (l : List Nat) : Bool × List Nat := canonWalk userinfoAscii true false l

/-- Path segment canonicalizer. -/
def canonPathSeg (l : List Nat) : Bool × List Nat := canonWalk pathAscii true false l

/-- Query body canonicalizer (no converter, UTF-8). -/
def canonQueryBody (l : List Nat) : Bool × List Nat := canonWalk queryAscii false false l

/-- Ref body canonicalizer: non-ASCII passes through UTF-8-encoded raw. -/
def canonRefBody (l : List Nat) : Bool × List Nat := canonWalk refAscii false true l

/-- Opaque path-URL body canonicalizer. -/
def canonOpaqueBody (l : List Nat) : Bool × List Nat := canonWalk opaqueAscii false false l

/-- Scheme canonicalizer: every byte must canonicalize through
`CanonicalSchemeChar`; invalid bytes fail and are dropped from the
best-effort output (spec section 4.3, Scheme). -/
def canonScheme (sch : List Nat) : Bool × List Nat :=
  (sch.all (fun c => canonicalSchemeChar c != 0),
   (sch.map canonicalSchemeChar).filter (fun c => decide (c ≠ 0)))

/-- Bytes that are errors in a registered host name.  Modelled from the
spec (sections 4.3 Host and 7 Bad host): control characters, space,
delete and the disallowed punctuation; colon and square brackets cannot
occur in a parsed non-bracketed host, and a pipe in a canonical host
would re-trigger the Windows drive quirk on a file URL, so these are
treated the same way, as the specification's idempotence invariant
(sections 1 and 5) requires. -/
def isHostDisallowed (c : Nat) : Bool :=
  c ≤ 0x20 || c == 0x7f || c == 0x23 || c == 0x25 || c == 0x2f || c == 0x5c ||
  c == 0x3f || c == 0x40 || c == 0x3a || c == 0x5b || c == 0x5d || c == 0x7c

/-- Modelled from the spec: the registered-name walk (spec sections 4.3
Host and 7): ASCII bytes are lowercased, disallowed bytes make the host
invalid, escapes are percent-decoded ('%' is itself disallowed
punctuation, so any escape renders the host invalid; a decoded
non-ASCII byte is re-escaped, per section 7 an error), and raw
non-ASCII input is read as UTF-8 and re-escaped, per section 7 an
error.  Fuel-driven; the fuel always suffices at the call below. -/
def hostEngine : Nat → List Nat → Bool × List Nat
  | 0, _ => (true, [])
  | _ + 1, [] => (true, [])
  | fuel + 1, c :: t =>
    if c = 0x25 then
      match decodeEscaped t with
      | some (v, t2) =>
        (false, (if v < 0x80 then [toLowerASCII v] else appendEscapedChar v) ++
          (hostEngine fuel t2).2)
      | Option.none => (false, 0x25 :: (hostEngine fuel t).2)
    else if c < 0x80 then
      (!(isHostDisallowed c) && (hostEngine fuel t).1,
       toLowerASCII c :: (hostEngine fuel t).2)
    else
      (false, escapeBytes (appendUTF8 (readUTF8 (c :: t)).2.1) ++
        (hostEngine fuel (readUTF8 (c :: t)).2.2).2)

theorem decodeEscaped_rest_length (t : List Nat) (v : Nat) (t2 : List Nat)
    (h : decodeEscaped t = some (v, t2)) : t2.length ≤ t.length := by
  match t with
  | [] => cases h
  | [h1] => cases h
  | h1 :: h2 :: rest =>
    unfold decodeEscaped at h
    simp only [] at h
    by_cases hh : (isHexChar h1 && isHexChar h2) = true
    · rw [if_pos hh] at h
      cases h
      simp
      omega
    · rw [if_neg hh] at h
      cases h

theorem hostEngine_congr (f1 : Nat) : ∀ f2 l, l.length < f1 → l.length < f2 →
    hostEngine f1 l = hostEngine f2 l := by
  induction f1 with
  | zero => intro f2 l h1 _; omega
  | succ f ih =>
    intro f2 l h1 h2
    cases f2 with
    | zero => omega
    | succ f2b =>
      cases l with
      | nil => rfl
      | cons c t =>
        simp only [hostEngine]
        by_cases hc : c = 0x25
        · rw [if_pos hc, if_pos hc]
          cases hdec : decodeEscaped t with
          | none =>
            rw [ih f2b t (by simp at h1; omega) (by simp at h2; omega)]
          | some pair =>
            obtain ⟨v, t2⟩ := pair
            have := decodeEscaped_rest_length t v t2 hdec
            simp only []
            rw [ih f2b t2 (by simp at h1; omega) (by simp at h2; omega)]
        · rw [if_neg hc, if_neg hc]
          by_cases h80 : c < 0x80
          · rw [if_pos h80, if_pos h80]
            rw [ih f2b t (by simp at h1; omega) (by simp at h2; omega)]
          · rw [if_neg h80, if_neg h80]
            have hlen := readUTF8_rest_length (c :: t) (List.cons_ne_nil c t)
            rw [ih f2b (readUTF8 (c :: t)).2.2 (by simp at h1 hlen ⊢; omega)
              (by simp at h2 hlen ⊢; omega)]

/-- The registered-name walk at adequate fuel. -/
def hostWalk (l : List Nat) : Bool × List Nat := hostEngine (l.length + 1) l

theorem hostWalk_cons (c : Nat) (t : List Nat) :
    hostWalk (c :: t) =
      (if c = 0x25 then
        match decodeEscaped t with
        | some (v, t2) =>
          (false, (if v < 0x80 then [toLowerASCII v] else appendEscapedChar v) ++
            (hostWalk t2).2)
        | Option.none => (false, 0x25 :: (hostWalk t).2)
      else if c < 0x80 then
        (!(isHostDisallowed c) && (hostWalk t).1, toLowerASCII c :: (hostWalk t).2)
      else
        (false, escapeBytes (appendUTF8 (readUTF8 (c :: t)).2.1) ++
          (hostWalk (readUTF8 (c :: t)).2.2).2)) := by
  unfold hostWalk
  rw [show (c :: t).length + 1 = t.length + 1 + 1 from by simp]
  simp only [hostEngine]
  by_cases hc : c = 0x25
  · rw [if_pos hc, if_pos hc]
    cases hdec : decodeEscaped t with
    | none => rfl
    | some pair =>
      obtain ⟨v, t2⟩ := pair
      have := decodeEscaped_rest_length t v t2 hdec
      simp only []
      rw [hostEngine_congr (t.length + 1) (t2.length + 1) t2 (by omega) (by omega)]
  · rw [if_neg hc, if_neg hc]
    by_cases h80 : c < 0x80
    · rw [if_pos h80, if_pos h80]
    · rw [if_neg h80, if_neg h80]
      have hlen := readUTF8_rest_length (c :: t) (List.cons_ne_nil c t)
      rw [hostEngine_congr (t.length + 1) ((readUTF8 (c :: t)).2.2.length + 1)
        (readUTF8 (c :: t)).2.2 (by simp at hlen ⊢; omega) (by omega)]

/-- Host canonicalizer: first IPv4, then IPv6, then registered name;
an empty host is an error for authority-based URLs (spec section 4.3). -/
def canonHost (host : List Nat) : Bool × List Nat :=
  if host = [] then (false, [])
  else
    match canonicalizeIPv4Address host with
    | some out => (true, out)
    | Option.none =>
      match canonicalizeIPv6Address host with
      | some out => (true, out)
      | Option.none => hostWalk host

/-- Decimal value of a digit string. -/
def portFold (l : List Nat) : Nat := l.foldl (fun a d => a * 10 + (d - 0x30)) 0

/-- Modelled from the spec: `ParsePort` strips leading zeros, requires
the remaining bytes to be decimal digits, accepts 0..65535, returns -1
for empty and -2 for invalid (spec section 4.2). -/
def parsePort (l : List Nat) : Int :=
  if l = [] then -1
  else
    let s := l.dropWhile (fun c => c == 0x30)
    if !s.all isDecChar then -2
    else if 5 < s.length then -2
    else if 65535 < portFold s then -2
    else (portFold s : Int)

/-- Port canonicalizer: omitted when absent or equal to the scheme's
default, a colon and decimal digits otherwise, an error when invalid
(spec section 4.3, Port).  The default-port table lives outside the
source drop and is taken as a parameter. -/
def renderPort (defaultPort : List Nat → Int) (schemeOut : List Nat) :
    Option (List Nat) → Bool × List Nat
  | Option.none => (true, [])
  | some pl =>
    let p := parsePort pl
    if p = -1 then (true, [])
    else if p = -2 then (false, [])
    else if p = defaultPort schemeOut then (true, [])
    else (true, 0x3a :: decRepr p.toNat)

/-! ## Path canonicalization (spec section 4.3, Path) -/

/-- Split core on slashes (forward and backward). -/
def splitSlashesCore : List Nat → List Nat × List (List Nat)
  | [] => ([], [])
  | c :: t =>
    let pr := splitSlashesCore t
    if isURLSlash c then ([], pr.1 :: pr.2) else (c :: pr.1, pr.2)

/-- Split a path remainder on slashes. -/
def splitSlashes (l : List Nat) : List (List Nat) :=
  (splitSlashesCore l).1 :: (splitSlashesCore l).2

/-- Dot-segment resolution with standard web semantics: a single dot is
dropped, a double dot pops the previous segment, and a trailing dot or
double dot leaves a trailing slash (spec section 4.3, Path). -/
def resolveSegs : List (List Nat) → List (List Nat) → List (List Nat)
  | [], stack => stack
  | s :: rest, stack =>
    if s = [0x2e] then
      if rest = [] then stack ++ [[]] else resolveSegs rest stack
    else if s = [0x2e, 0x2e] then
      if rest = [] then stack.dropLast ++ [[]] else resolveSegs rest stack.dropLast
    else resolveSegs rest (stack ++ [s])

/-- Render resolved segments joined by slashes, canonicalizing each. -/
def renderSegs : List (List Nat) → Bool × List Nat
  | [] => (true, [])
  | [s] => canonPathSeg s
  | s :: s2 :: rest =>
    ((canonPathSeg s).1 && (renderSegs (s2 :: rest)).1,
     (canonPathSeg s).2 ++ 0x2f :: (renderSegs (s2 :: rest)).2)

/-- Path canonicalizer: an absent path renders as the root slash;
otherwise the leading slash is implicit and the slash-split remainder
is dot-resolved, per-segment canonicalized and joined with forward
slashes (spec section 4.3, Path). -/
def canonPath (path : List Nat) : Bool × List Nat :=
  if path = [] then (true, [0x2f])
  else
    let r := renderSegs (resolveSegs (splitSlashes (path.drop 1)) [])
    (r.1, 0x2f :: r.2)

/-- ASCII letter check for drive letters. -/
def isDriveLetter (c : Nat) : Bool := (0x41 ≤ c && c ≤ 0x5a) || (0x61 ≤ c && c ≤ 0x7a)

/-- Modelled from the spec: a Windows drive specifier is a letter
followed by a colon or a pipe (spec sections 4.2 and 4.5). -/
def beginsDriveSpec : List Nat → Bool
  | d :: s :: _ => isDriveLetter d && (s == 0x3a || s == 0x7c)
  | _ => false

/-! ## Parsers (spec section 4.2; url_parse.cc is not under src/) -/

/-- Take and drop up to the first byte satisfying the predicate. -/
def spanNotB (p : Nat → Bool) (l : List Nat) : List Nat × List Nat :=
  (l.takeWhile (fun c => !p c), l.dropWhile (fun c => !p c))

/-- Authority terminators: slash, backslash, question mark, hash. -/
def isAuthorityTerminator (c : Nat) : Bool := isURLSlash c || c == 0x3f || c == 0x23

/-- Parsed pieces of an authority. -/
structure AuthorityParts where
  user : List Nat
  pass : List Nat
  host : List Nat
  port : Option (List Nat)
  deriving Repr, DecidableEq

/-- The userinfo/hostport halves of the authority parse: within
userinfo the first colon separates user from password; a host beginning
with an open bracket extends through the closing bracket, and otherwise
the first colon ends the host and begins the port (spec section 4.2
step 4). -/
def parseAuthorityHP (userinfo hostport : List Nat) : AuthorityParts :=
  let usp := spanNotB (fun c => c == 0x3a) userinfo
  if hostport.headD 0 == 0x5b then
    let bsp := spanNotB (fun c => c == 0x5d) hostport
    if bsp.2 = [] then
      { user := usp.1, pass := usp.2.drop 1, host := hostport, port := Option.none }
    else
      let after := bsp.2.drop 1
      { user := usp.1, pass := usp.2.drop 1, host := bsp.1 ++ [0x5d],
        port :=
          if after = [] then Option.none
          else if after.headD 0 = 0x3a then some (after.drop 1)
          else some after }
  else
    let hsp := spanNotB (fun c => c == 0x3a) hostport
    { user := usp.1, pass := usp.2.drop 1, host := hsp.1,
      port := if hsp.2 = [] then Option.none else some (hsp.2.drop 1) }

/-- Modelled from the spec: within the authority the last at-sign
separates userinfo from the host (spec section 4.2 step 4). -/
def parseAuthority (auth : List Nat) : AuthorityParts :=
  let rsp := spanNotB (fun c => c == 0x40) auth.reverse
  parseAuthorityHP (if rsp.2 = [] then [] else (rsp.2.drop 1).reverse)
    (if rsp.2 = [] then auth else rsp.1.reverse)

/-- Query and ref from the tail that follows the path. -/
def parseQueryRef (l : List Nat) : Option (List Nat) × Option (List Nat) :=
  if l.headD 0 = 0x3f then
    let qsp := spanNotB (fun c => c == 0x23) (l.drop 1)
    (some qsp.1, if qsp.2 = [] then Option.none else some (qsp.2.drop 1))
  else if l.headD 0 = 0x23 ∧ l ≠ [] then (Option.none, some (l.drop 1))
  else (Option.none, Option.none)

/-- Parsed pieces of the part after the scheme colon. -/
structure StdParts where
  auth : List Nat
  path : List Nat
  query : Option (List Nat)
  ref : Option (List Nat)
  deriving Repr, DecidableEq

/-- Split authority, path, query and ref out of a string that starts at
the authority: the authority runs to the first slash, backslash,
question mark or hash, the path runs to the first question mark or
hash, the query runs to the first hash (spec section 4.2 steps 4, 5). -/
def parseNoSlashDrop (l : List Nat) : StdParts :=
  let asp := spanNotB isAuthorityTerminator l
  let psp := spanNotB (fun c => c == 0x3f || c == 0x23) asp.2
  let qr := parseQueryRef psp.2
  { auth := asp.1, path := psp.1, query := qr.1, ref := qr.2 }

/-- Modelled from the spec: after the scheme of a standard URL the
consecutive slashes are skipped — any count introduces the authority —
and the rest is split as authority, path, query, ref (spec section 4.2
steps 3 to 5). -/
def parseAfterScheme (rest : List Nat) : StdParts :=
  parseNoSlashDrop (rest.dropWhile isURLSlash)

/-! ## Strategy canonicalizers and the dispatcher (spec section 4.3) -/

/-- Render userinfo: nothing when user and password are both empty; the
colon separator appears only with a nonempty password, and the at-sign
closes the userinfo (spec section 4.3, Userinfo). -/
def renderUserinfo (user pass : List Nat) : Bool × List Nat :=
  if user = [] ∧ pass = [] then (true, [])
  else
    ((canonUserinfoPart user).1 &&
      (if pass = [] then true else (canonUserinfoPart pass).1),
     (canonUserinfoPart user).2 ++
      (if pass = [] then [] else 0x3a :: (canonUserinfoPart pass).2) ++ [0x40])

/-- Render an optional query with its question mark. -/
def renderQuery : Option (List Nat) → Bool × List Nat
  | Option.none => (true, [])
  | some qb => ((canonQueryBody qb).1, 0x3f :: (canonQueryBody qb).2)

/-- Render an optional ref with its hash. -/
def renderRef : Option (List Nat) → Bool × List Nat
  | Option.none => (true, [])
  | some rb => ((canonRefBody rb).1, 0x23 :: (canonRefBody rb).2)

/-- File hosts may be empty: a URL on the local machine (spec section
4.2, File-URL quirks); a nonempty one canonicalizes as usual. -/
def canonFileHost (h : List Nat) : Bool × List Nat :=
  if h = [] then (true, []) else canonHost h

/-- The authority-based body: double slash, userinfo, host, port, path,
query, ref (spec sections 4.3 and 6); the path and host canonicalizers
are parameters so the file strategy can use the drive-aware path and
the empty-tolerant host. -/
def canonFromParts (pathCanon hostCanon : List Nat → Bool × List Nat)
    (defaultPort : List Nat → Int) (schemeOut : List Nat) (sp : StdParts) :
    Bool × List Nat :=
  let ap := parseAuthority sp.auth
  let ui := renderUserinfo ap.user ap.pass
  let h := hostCanon ap.host
  let pr := renderPort defaultPort schemeOut ap.port
  let pa := pathCanon sp.path
  let q := renderQuery sp.query
  let r := renderRef sp.ref
  (ui.1 && h.1 && pr.1 && pa.1 && q.1 && r.1,
   [0x2f, 0x2f] ++ ui.2 ++ h.2 ++ pr.2 ++ pa.2 ++ q.2 ++ r.2)

/-- The standard-strategy body. -/
def canonAuthorityBody (defaultPort : List Nat → Int) (schemeOut : List Nat)
    (rest : List Nat) : Bool × List Nat :=
  canonFromParts canonPath canonHost defaultPort schemeOut (parseAfterScheme rest)

/-- The local-machine file body: empty host; the given bytes (the input
after its second slash, missing leading slashes synthesized away) form
the path up to a query or ref. -/
def canonFileLocalBody (tail : List Nat) : Bool × List Nat :=
  let psp := spanNotB (fun c => c == 0x3f || c == 0x23) tail
  let qr := parseQueryRef psp.2
  let pa := canonPath (0x2f :: psp.1)
  let q := renderQuery qr.1
  let r := renderRef qr.2
  (pa.1 && q.1 && r.1, [0x2f, 0x2f] ++ pa.2 ++ q.2 ++ r.2)

/-- Modelled from the spec: the file strategy (spec section 4.2,
File-URL quirks).  With exactly two or three leading slashes and no
drive specifier after them the authority begins after the second slash,
so two slashes give a UNC host and three an empty host on the local
machine.  Every other shape — a drive specifier after the slashes, or
zero, one, or four-or-more slashes — is a URL on the local machine with
an empty host whose path keeps every slash beyond the second, missing
ones synthesized.  The spec states the drive quirks as parsing rules,
and the missing file canonicalizer is modelled as performing no
drive-byte rewriting beyond the ordinary path rules. -/
def canonFileAuthBody (sp : StdParts) : Bool × List Nat :=
  let ap := parseAuthority sp.auth
  let h := canonFileHost ap.host
  let pa := canonPath sp.path
  let q := renderQuery sp.query
  let r := renderRef sp.ref
  (h.1 && pa.1 && q.1 && r.1, [0x2f, 0x2f] ++ h.2 ++ pa.2 ++ q.2 ++ r.2)

/-- Modelled from the spec: the file dispatch on slash count and drive
specifier; the canonical authority of a file URL carries only the
host — the spec's canonical grammar gives file URLs no default port
and its idempotence invariant (sections 1 and 5) excludes userinfo
and port bytes that could re-introduce a drive specifier. -/
def canonFileBody (defaultPort : List Nat → Int) (schemeOut : List Nat)
    (rest : List Nat) : Bool × List Nat :=
  let k := countConsecutiveSlashes rest
  if (k = 2 ∨ k = 3) ∧ beginsDriveSpec (rest.dropWhile isURLSlash) = false then
    canonFileAuthBody (parseNoSlashDrop (rest.drop 2))
  else canonFileLocalBody (rest.drop (min k 3))

/-- Modelled from the spec: `Canonicalize` — trim, extract the scheme
(no scheme is a failure with nothing written), dispatch on it as
`CanonicalizeT` (src/url_util.cc) does: the file strategy for "file",
the standard strategy for registered schemes, and the opaque path
strategy otherwise, which copies the body after the colon with
non-ASCII percent-escaped and no ref split (spec sections 4.2, 4.3 and
the parser tests in src/url_parse_unittest.cc). -/
def canonicalize (schemes : List (List Nat)) (defaultPort : List Nat → Int)
    (spec : List Nat) : Bool × List Nat :=
  let t := (trimURL spec).2
  match extractScheme t with
  | Option.none => (false, [])
  | some sch =>
    let so := canonScheme sch
    let rest := t.drop (sch.length + 1)
    if lowerCaseEqualsASCII sch (strBytes "file") then
      let b := canonFileBody defaultPort so.2 rest
      (so.1 && b.1, so.2 ++ 0x3a :: b.2)
    else if isStandardSchemeIn schemes sch then
      let b := canonAuthorityBody defaultPort so.2 rest
      (so.1 && b.1, so.2 ++ 0x3a :: b.2)
    else
      let b := canonOpaqueBody rest
      (so.1 && b.1, so.2 ++ 0x3a :: b.2)

/-! ## End-to-end checks of the modelled pipeline -/

/-- A default-port table for the seed schemes, used in the examples. -/
def testDefaultPort (s : List Nat) : Int :=
  if s = strBytes "http" then 80
  else if s = strBytes "https" then 443
  else if s = strBytes "ftp" then 21
  else -1

example : canonicalize kStandardURLSchemes testDefaultPort
    (strBytes "HTTP://www.Google.COM/foo/../bar?q#r") =
    (true, strBytes "http://www.google.com/bar?q#r") := by decide

example : canonicalize kStandardURLSchemes testDefaultPort
    (strBytes "http://a:80/") = (true, strBytes "http://a/") := by decide

example : canonicalize kStandardURLSchemes testDefaultPort
    (strBytes "http://u:pw@a:8080/x") = (true, strBytes "http://u:pw@a:8080/x") := by decide

example : canonicalize kStandardURLSchemes testDefaultPort
    (strBytes "JavaScript:Alert(1)") = (true, strBytes "javascript:Alert(1)") := by decide

example : canonicalize kStandardURLSchemes testDefaultPort
    (strBytes "file:///C|/foo/../bar") = (true, strBytes "file:///C%7C/bar") := by decide

example : canonicalize kStandardURLSchemes testDefaultPort
    (strBytes "file://server/share") = (true, strBytes "file://server/share") := by decide

example : canonicalize kStandardURLSchemes testDefaultPort
    (strBytes "http://a/%7b%7d") = (true, strBytes "http://a/%7B%7D") := by decide

example : canonicalize kStandardURLSchemes testDefaultPort
    (strBytes "http://a/?a b") = (true, strBytes "http://a/?a%20b") := by decide

example : canonicalize kStandardURLSchemes testDefaultPort
    (strBytes "http://a/" ++ [0xc3, 0xa9]) =
    (true, strBytes "http://a/%C3%A9") := by decide

example : canonicalize kStandardURLSchemes testDefaultPort
    (strBytes "http://a/#" ++ [0xc3, 0xa9]) =
    (true, strBytes "http://a/#" ++ [0xc3, 0xa9]) := by decide

example : (canonicalize kStandardURLSchemes testDefaultPort
    (strBytes "http://a b/")).1 = false := by decide

example : (canonicalize kStandardURLSchemes testDefaultPort
    (strBytes "http://%41/")).1 = false := by decide

example : canonicalize kStandardURLSchemes testDefaultPort
    (strBytes "http://192.168.0.1:81/") =
    (true, strBytes "http://192.168.0.1:81/") := by decide

example : canonicalize kStandardURLSchemes testDefaultPort
    (strBytes "http://0x7f.1/") = (true, strBytes "http://127.0.0.1/") := by decide

example : canonicalize kStandardURLSchemes testDefaultPort
    (strBytes "http://[1:2:3::8]/") = (true, strBytes "http://[1:2:3::8]/") := by decide

example : canonicalize kStandardURLSchemes testDefaultPort
    (strBytes "file:foo") = (true, strBytes "file:///foo") := by decide

example : canonicalize kStandardURLSchemes testDefaultPort
    (strBytes "file:///foo") = (true, strBytes "file:///foo") := by decide

example : canonicalize kStandardURLSchemes testDefaultPort
    (strBytes "file:////foo") = (true, strBytes "file:////foo") := by decide

example : canonicalize kStandardURLSchemes testDefaultPort
    (strBytes "file://server/a/../b?q#r") =
    (true, strBytes "file://server/b?q#r") := by decide

example : canonicalize kStandardURLSchemes testDefaultPort
    (strBytes "data:text/html;base64,AA==#x") =
    (true, strBytes "data:text/html;base64,AA==#x") := by decide

/-! ## Claim C2: ASCII output -/

/-- Every byte of the list is 7-bit ASCII. -/
def allASCII (l : List Nat) : Bool := l.all (fun c => decide (c < 0x80))

theorem allASCII_iff (l : List Nat) : allASCII l = true ↔ ∀ c ∈ l, c < 0x80 := by
  unfold allASCII
  simp [List.all_eq_true]

theorem allASCII_append (a b : List Nat) :
    allASCII (a ++ b) = (allASCII a && allASCII b) := by
  unfold allASCII
  simp [List.all_append]

theorem allASCII_cons (c : Nat) (t : List Nat) (hc : c < 0x80) (ht : allASCII t = true) :
    allASCII (c :: t) = true := by
  rw [allASCII_iff]
  intro b hb
  rcases List.mem_cons.mp hb with h | h
  · omega
  · exact (allASCII_iff t).mp ht b h

theorem allASCII_of_subset (l l' : List Nat) (hs : ∀ c ∈ l', c ∈ l)
    (h : allASCII l = true) : allASCII l' = true := by
  rw [allASCII_iff] at h ⊢
  exact fun c hc => h c (hs c hc)

theorem hexCharAt_lt (n : Nat) (h : n < 16) : hexCharAt n < 0x80 := by
  interval_cases n <;> decide

theorem allASCII_appendEscapedChar (b : Nat) : allASCII (appendEscapedChar b) = true := by
  have h1 := hexCharAt_lt (b / 16 % 16) (Nat.mod_lt _ (by omega))
  have h2 := hexCharAt_lt (b % 16) (Nat.mod_lt _ (by omega))
  unfold appendEscapedChar
  simp [allASCII]
  omega

theorem allASCII_escapeBytes (l : List Nat) : allASCII (escapeBytes l) = true := by
  induction l with
  | nil => rfl
  | cons b t ih =>
    show allASCII (appendEscapedChar b ++ escapeBytes t) = true
    rw [allASCII_append, allASCII_appendEscapedChar, ih]
    rfl

theorem allASCII_canonicalizeEscaped (t : List Nat) :
    allASCII (canonicalizeEscaped t).2.1 = true := by
  unfold canonicalizeEscaped
  cases h : decodeEscaped t with
  | none => rfl
  | some p => exact allASCII_appendEscapedChar p.1

theorem toLowerASCII_lt (c : Nat) (h : c < 0x80) : toLowerASCII c < 0x80 := by
  unfold toLowerASCII
  split_ifs <;> omega

theorem canonEngine_allASCII (ha : Nat → Bool × List Nat) (ne : Bool)
    (H : ∀ c, c < 0x80 → allASCII (ha c).2 = true) :
    ∀ fuel l, allASCII (canonEngine ha ne false fuel l).2 = true := by
  intro fuel
  induction fuel with
  | zero => intro l; rfl
  | succ f ih =>
    intro l
    cases l with
    | nil => rfl
    | cons c t =>
      simp only [canonEngine]
      by_cases hc : c = 0x25 ∧ ne = true
      · rw [if_pos hc]
        rw [allASCII_append, allASCII_canonicalizeEscaped, ih]
        rfl
      · rw [if_neg hc]
        by_cases h80 : c < 0x80
        · rw [if_pos h80]
          rw [allASCII_append, H c h80, ih]
          rfl
        · rw [if_neg h80]
          rw [if_neg (by simp : ¬(false = true))]
          rw [allASCII_append, allASCII_escapeBytes, ih]
          rfl

theorem canonicalizeEscaped_rest_subset (t : List Nat) :
    ∀ c ∈ (canonicalizeEscaped t).2.2, c ∈ t := by
  rcases t with _ | ⟨h1, _ | ⟨h2, r⟩⟩
  · simp [canonicalizeEscaped, decodeEscaped]
  · simp [canonicalizeEscaped, decodeEscaped]
  · simp only [canonicalizeEscaped, decodeEscaped]
    split_ifs with hh
    · intro c hc
      simp
      tauto
    · intro c hc
      exact hc

theorem canonEngine_allASCII_raw (ha : Nat → Bool × List Nat) (ne : Bool)
    (H : ∀ c, c < 0x80 → allASCII (ha c).2 = true) :
    ∀ fuel l, allASCII l = true → allASCII (canonEngine ha ne true fuel l).2 = true := by
  intro fuel
  induction fuel with
  | zero => intro l _; rfl
  | succ f ih =>
    intro l hl
    cases l with
    | nil => rfl
    | cons c t =>
      have hc80 : c < 0x80 := (allASCII_iff _).mp hl c (List.mem_cons_self _ _)
      have ht : allASCII t = true := by
        rw [allASCII_iff] at hl ⊢
        exact fun b hb => hl b (List.mem_cons_of_mem _ hb)
      simp only [canonEngine]
      by_cases hc : c = 0x25 ∧ ne = true
      · rw [if_pos hc]
        rw [allASCII_append, allASCII_canonicalizeEscaped,
          ih _ (allASCII_of_subset t _ (canonicalizeEscaped_rest_subset t) ht)]
        rfl
      · rw [if_neg hc]
        rw [if_pos hc80]
        rw [allASCII_append, H c hc80, ih t ht]
        rfl

theorem hostEngine_allASCII : ∀ fuel l, allASCII (hostEngine fuel l).2 = true := by
  intro fuel
  induction fuel with
  | zero => intro l; rfl
  | succ f ih =>
    intro l
    cases l with
    | nil => rfl
    | cons c t =>
      simp only [hostEngine]
      by_cases hc : c = 0x25
      · rw [if_pos hc]
        cases hdec : decodeEscaped t with
        | none => exact allASCII_cons 0x25 _ (by omega) (ih t)
        | some p =>
          obtain ⟨v, t2⟩ := p
          simp only []
          rw [allASCII_append]
          by_cases hv : v < 0x80
          · rw [if_pos hv]
            rw [show allASCII [toLowerASCII v] = true by
              simp [allASCII]; have := toLowerASCII_lt v hv; omega]
            rw [ih t2]
            rfl
          · rw [if_neg hv, allASCII_appendEscapedChar, ih t2]
            rfl
      · rw [if_neg hc]
        by_cases h80 : c < 0x80
        · rw [if_pos h80]
          exact allASCII_cons _ _ (toLowerASCII_lt c h80) (ih t)
        · rw [if_neg h80]
          rw [allASCII_append, allASCII_escapeBytes, ih]
          rfl

theorem decReprAux_allASCII : ∀ fuel n, allASCII (decReprAux fuel n) = true := by
  intro fuel
  induction fuel with
  | zero => intro n; rfl
  | succ f ih =>
    intro n
    simp only [decReprAux]
    split_ifs with h
    · simp [allASCII]; omega
    · rw [allASCII_append, ih]
      have : n % 10 < 10 := Nat.mod_lt _ (by omega)
      simp [allASCII]
      omega

theorem decRepr_allASCII (n : Nat) : allASCII (decRepr n) = true :=
  decReprAux_allASCII _ _

theorem appendIPv4Address_allASCII (a b c d : Nat) :
    allASCII (appendIPv4Address a b c d) = true := by
  unfold appendIPv4Address
  simp only [allASCII_append, decRepr_allASCII]
  rfl

theorem canonicalizeIPv4Address_allASCII (h out : List Nat)
    (heq : canonicalizeIPv4Address h = some out) : allASCII out = true := by
  unfold canonicalizeIPv4Address at heq
  cases h1 : findIPv4Components h with
  | none => rw [h1] at heq; cases heq
  | some comps =>
    rw [h1] at heq
    simp only [] at heq
    cases h2 : (comps.filter fun p => !p.isEmpty).mapM iPv4ComponentToNumber with
    | none => rw [h2] at heq; cases heq
    | some vals =>
      rw [h2] at heq
      simp only [] at heq
      cases h3 : assembleAddress vals with
      | none => rw [h3] at heq; cases heq
      | some q =>
        obtain ⟨a, b, c, d⟩ := q
        rw [h3] at heq
        simp only [Option.some.injEq] at heq
        rw [← heq]
        exact appendIPv4Address_allASCII a b c d

theorem ipv6ScanAux_valid (t : List Nat) : ∀ nc nd nh p,
    ipv6ScanAux t nc nd nh = some p → ∀ c ∈ t, validIPv6Char c = true := by
  induction t with
  | nil => intro nc nd nh p _ c hc; cases hc
  | cons c t2 ih =>
    intro nc nd nh p hp b hb
    simp only [ipv6ScanAux] at hp
    by_cases h80 : 0x80 ≤ c
    · rw [if_pos h80] at hp; cases hp
    · rw [if_neg h80] at hp
      by_cases hhex : isHexChar c = true
      · rw [if_pos hhex] at hp
        by_cases hrun : 3 < nh
        · rw [if_pos hrun] at hp; cases hp
        · rw [if_neg hrun] at hp
          rcases List.mem_cons.mp hb with h | h
          · subst h; simp [validIPv6Char, hhex]
          · exact ih _ _ _ _ hp b h
      · rw [if_neg hhex] at hp
        by_cases hcol : c = 0x3a
        · rw [if_pos hcol] at hp
          by_cases hbad : 0 < nd ∨ 6 < nc
          · rw [if_pos hbad] at hp; cases hp
          · rw [if_neg hbad] at hp
            rcases List.mem_cons.mp hb with h | h
            · subst h; simp [validIPv6Char, hcol]
            · exact ih _ _ _ _ hp b h
        · rw [if_neg hcol] at hp
          by_cases hdot : c = 0x2e
          · rw [if_pos hdot] at hp
            by_cases hlow : nh < 1
            · rw [if_pos hlow] at hp; cases hp
            · rw [if_neg hlow] at hp
              rcases List.mem_cons.mp hb with h | h
              · subst h; simp [validIPv6Char, hdot]
              · exact ih _ _ _ _ hp b h
          · rw [if_neg hdot] at hp; cases hp

theorem canonicalizeIPv6Address_allASCII (h out : List Nat)
    (heq : canonicalizeIPv6Address h = some out) : allASCII out = true := by
  unfold canonicalizeIPv6Address at heq
  cases h with
  | nil => cases heq
  | cons c t =>
    simp only [] at heq
    by_cases hc : c ≠ 0x5b
    · rw [if_pos hc] at heq; cases heq
    · rw [if_neg hc] at heq
      push_neg at hc
      by_cases hlast : (c :: t).getLast? ≠ some 0x5d
      · rw [if_pos hlast] at heq; cases heq
      · rw [if_neg hlast] at heq
        push_neg at hlast
        cases hscan : ipv6ScanAux t.dropLast 0 0 0 with
        | none => rw [hscan] at heq; cases heq
        | some p =>
          obtain ⟨nc, nd⟩ := p
          rw [hscan] at heq
          simp only [] at heq
          by_cases h2 : nc < 2
          · rw [if_pos h2] at heq; cases heq
          · rw [if_neg h2] at heq
            by_cases h3 : nd ≠ 0 ∧ nd ≠ 3
            · rw [if_pos h3] at heq; cases heq
            · rw [if_neg h3] at heq
              simp only [Option.some.injEq] at heq
              subst heq
              have hint : ∀ b ∈ t.dropLast, b < 0x80 := by
                intro b hb
                exact validIPv6Char_lt b (ipv6ScanAux_valid _ _ _ _ _ hscan b hb)
              rw [allASCII_iff]
              intro b hb
              rcases List.mem_cons.mp hb with hbc | hbt
              · omega
              · have htne : t ≠ [] := by
                  intro he
                  rw [he] at hbt
                  cases hbt
                have hdec : t.dropLast ++ [t.getLast htne] = t :=
                  List.dropLast_append_getLast htne
                have hlast2 : t.getLast htne = 0x5d := by
                  have : (c :: t).getLast? = t.getLast? := by
                    cases t with
                    | nil => exact absurd rfl htne
                    | cons x xs => simp [List.getLast?_cons_cons]
                  rw [this] at hlast
                  rw [List.getLast?_eq_getLast t htne] at hlast
                  exact Option.some_injective _ hlast
                rw [← hdec] at hbt
                rcases List.mem_append.mp hbt with hx | hx
                · exact hint b hx
                · rw [List.mem_singleton.mp hx, hlast2]
                  omega

theorem hostWalk_allASCII (l : List Nat) : allASCII (hostWalk l).2 = true :=
  hostEngine_allASCII _ _

theorem canonHost_allASCII (h : List Nat) : allASCII (canonHost h).2 = true := by
  unfold canonHost
  split_ifs with h0
  · rfl
  · cases h4 : canonicalizeIPv4Address h with
    | some out => exact canonicalizeIPv4Address_allASCII h out h4
    | none =>
      cases h6 : canonicalizeIPv6Address h with
      | some out => exact canonicalizeIPv6Address_allASCII h out h6
      | none => exact hostWalk_allASCII h

theorem userinfoAscii_allASCII (c : Nat) (h : c < 0x80) :
    allASCII (userinfoAscii c).2 = true := by
  unfold userinfoAscii
  split_ifs
  · simp [allASCII]; omega
  · exact allASCII_appendEscapedChar c

theorem pathAscii_allASCII (c : Nat) (h : c < 0x80) :
    allASCII (pathAscii c).2 = true := by
  unfold pathAscii
  split_ifs
  · simp [allASCII]; omega
  · exact allASCII_appendEscapedChar c

theorem queryAscii_allASCII (c : Nat) (h : c < 0x80) :
    allASCII (queryAscii c).2 = true := by
  unfold queryAscii
  split_ifs
  · simp [allASCII]; omega
  · exact allASCII_appendEscapedChar c

theorem refAscii_allASCII (c : Nat) (h : c < 0x80) :
    allASCII (refAscii c).2 = true := by
  unfold refAscii
  split_ifs
  · exact allASCII_appendEscapedChar c
  · simp [allASCII]; omega

theorem opaqueAscii_allASCII (c : Nat) (h : c < 0x80) :
    allASCII (opaqueAscii c).2 = true := by
  unfold opaqueAscii
  simp [allASCII]
  omega

theorem canonUserinfoPart_allASCII (l : List Nat) :
    allASCII (canonUserinfoPart l).2 = true :=
  canonEngine_allASCII userinfoAscii true userinfoAscii_allASCII _ _

theorem canonPathSeg_allASCII (l : List Nat) : allASCII (canonPathSeg l).2 = true :=
  canonEngine_allASCII pathAscii true pathAscii_allASCII _ _

theorem canonQueryBody_allASCII (l : List Nat) : allASCII (canonQueryBody l).2 = true :=
  canonEngine_allASCII queryAscii false queryAscii_allASCII _ _

theorem canonRefBody_allASCII (l : List Nat) (h : allASCII l = true) :
    allASCII (canonRefBody l).2 = true :=
  canonEngine_allASCII_raw refAscii false refAscii_allASCII _ _ h

theorem canonOpaqueBody_allASCII (l : List Nat) : allASCII (canonOpaqueBody l).2 = true :=
  canonEngine_allASCII opaqueAscii false opaqueAscii_allASCII _ _

theorem renderSegs_allASCII : ∀ segs, allASCII (renderSegs segs).2 = true
  | [] => rfl
  | [s] => canonPathSeg_allASCII s
  | s :: s2 :: rest => by
    show allASCII ((canonPathSeg s).2 ++ 0x2f :: (renderSegs (s2 :: rest)).2) = true
    rw [allASCII_append, canonPathSeg_allASCII,
      allASCII_cons _ _ (by omega) (renderSegs_allASCII (s2 :: rest))]
    rfl

theorem canonPath_allASCII (p : List Nat) : allASCII (canonPath p).2 = true := by
  unfold canonPath
  split_ifs
  · rfl
  · exact allASCII_cons _ _ (by omega) (renderSegs_allASCII _)

theorem renderPort_allASCII (dp : List Nat → Int) (so : List Nat)
    (p : Option (List Nat)) : allASCII (renderPort dp so p).2 = true := by
  unfold renderPort
  cases p with
  | none => rfl
  | some pl =>
    simp only []
    split_ifs
    · rfl
    · rfl
    · rfl
    · exact allASCII_cons _ _ (by omega) (decRepr_allASCII _)

theorem renderUserinfo_allASCII (u pw : List Nat) :
    allASCII (renderUserinfo u pw).2 = true := by
  unfold renderUserinfo
  split_ifs with h1 h2
  · rfl
  · simp only []
    rw [allASCII_append, allASCII_append, canonUserinfoPart_allASCII]
    rfl
  · simp only []
    rw [allASCII_append, allASCII_append, canonUserinfoPart_allASCII]
    rw [allASCII_cons _ _ (by omega) (canonUserinfoPart_allASCII pw)]
    rfl

theorem renderQuery_allASCII (q : Option (List Nat)) :
    allASCII (renderQuery q).2 = true := by
  unfold renderQuery
  cases q with
  | none => rfl
  | some qb => exact allASCII_cons _ _ (by omega) (canonQueryBody_allASCII qb)

theorem renderRef_allASCII (r : Option (List Nat))
    (h : ∀ rb, r = some rb → allASCII rb = true) :
    allASCII (renderRef r).2 = true := by
  unfold renderRef
  cases r with
  | none => rfl
  | some rb => exact allASCII_cons _ _ (by omega) (canonRefBody_allASCII rb (h rb rfl))

theorem canonicalSchemeChar_lt (c : Nat) : canonicalSchemeChar c < 0x80 := by
  unfold canonicalSchemeChar
  split_ifs <;> omega

theorem canonScheme_allASCII (sch : List Nat) : allASCII (canonScheme sch).2 = true := by
  rw [allASCII_iff]
  intro c hc
  unfold canonScheme at hc
  simp only [List.mem_filter, List.mem_map] at hc
  obtain ⟨⟨b, _, hb⟩, _⟩ := hc
  rw [← hb]
  exact canonicalSchemeChar_lt b

theorem spanNotB_fst_subset (p : Nat → Bool) (l : List Nat) :
    ∀ c ∈ (spanNotB p l).1, c ∈ l :=
  fun _ hc => (List.takeWhile_sublist _).subset hc

theorem spanNotB_snd_subset (p : Nat → Bool) (l : List Nat) :
    ∀ c ∈ (spanNotB p l).2, c ∈ l :=
  fun _ hc => (List.dropWhile_sublist _).subset hc

theorem trimURL_subset (S : List Nat) : ∀ c ∈ (trimURL S).2, c ∈ S := by
  intro c hc
  unfold trimURL at hc
  simp only [] at hc
  rw [List.mem_reverse] at hc
  have h1 := (List.dropWhile_sublist _).subset hc
  rw [List.mem_reverse] at h1
  exact (List.dropWhile_sublist _).subset h1

theorem parseQueryRef_ref_subset (l rb : List Nat)
    (h : (parseQueryRef l).2 = some rb) : ∀ c ∈ rb, c ∈ l := by
  unfold parseQueryRef at h
  by_cases h1 : l.headD 0 = 0x3f
  · rw [if_pos h1] at h
    simp only [] at h
    by_cases h3 : (spanNotB (fun c => c == 0x23) (l.drop 1)).2 = []
    · rw [if_pos h3] at h
      cases h
    · rw [if_neg h3] at h
      have hrb : rb = (spanNotB (fun c => c == 0x23) (l.drop 1)).2.drop 1 :=
        (Option.some_injective _ h).symm
      subst hrb
      intro c hc
      have hc2 := List.drop_subset _ _ hc
      have hc3 := spanNotB_snd_subset _ _ c hc2
      exact List.drop_subset _ _ hc3
  · rw [if_neg h1] at h
    by_cases h2 : l.headD 0 = 0x23 ∧ l ≠ []
    · rw [if_pos h2] at h
      simp only [Option.some.injEq] at h
      rw [← h]
      intro c hc
      exact List.drop_subset _ _ hc
    · rw [if_neg h2] at h
      cases h

theorem parseNoSlashDrop_ref_subset (l rb : List Nat)
    (h : (parseNoSlashDrop l).ref = some rb) : ∀ c ∈ rb, c ∈ l := by
  simp only [parseNoSlashDrop] at h
  intro c hc
  have h1 := parseQueryRef_ref_subset _ rb h c hc
  have h2 := spanNotB_snd_subset _ _ c h1
  exact spanNotB_snd_subset _ _ c h2

theorem parseAfterScheme_ref_subset (l rb : List Nat)
    (h : (parseAfterScheme l).ref = some rb) : ∀ c ∈ rb, c ∈ l := by
  intro c hc
  have h1 := parseNoSlashDrop_ref_subset _ rb h c hc
  exact (List.dropWhile_sublist _).subset h1

theorem canonFromParts_allASCII (pc hc : List Nat → Bool × List Nat)
    (dp : List Nat → Int) (so : List Nat) (sp : StdParts)
    (hpc : ∀ p, allASCII (pc p).2 = true) (hhc : ∀ h, allASCII (hc h).2 = true)
    (href : ∀ rb, sp.ref = some rb → allASCII rb = true) :
    allASCII (canonFromParts pc hc dp so sp).2 = true := by
  simp only [canonFromParts]
  rw [allASCII_append, allASCII_append, allASCII_append, allASCII_append,
    allASCII_append, allASCII_append]
  rw [renderUserinfo_allASCII, hhc, renderPort_allASCII, hpc, renderQuery_allASCII,
    renderRef_allASCII _ href]
  rfl

theorem canonAuthorityBody_allASCII (dp : List Nat → Int) (so rest : List Nat)
    (h : allASCII rest = true) :
    allASCII (canonAuthorityBody dp so rest).2 = true := by
  unfold canonAuthorityBody
  refine canonFromParts_allASCII _ _ _ _ _ canonPath_allASCII canonHost_allASCII ?_
  intro rb hrb
  exact allASCII_of_subset rest rb (parseAfterScheme_ref_subset rest rb hrb) h

theorem canonFileHost_allASCII (h : List Nat) : allASCII (canonFileHost h).2 = true := by
  unfold canonFileHost
  split_ifs
  · rfl
  · exact canonHost_allASCII h

theorem canonFileLocalBody_allASCII (tail : List Nat) (h : allASCII tail = true) :
    allASCII (canonFileLocalBody tail).2 = true := by
  simp only [canonFileLocalBody]
  rw [allASCII_append, allASCII_append, allASCII_append]
  rw [canonPath_allASCII, renderQuery_allASCII]
  rw [renderRef_allASCII _ ?href]
  · rfl
  case href =>
    intro rb hrb
    refine allASCII_of_subset tail rb ?_ h
    intro c hcm
    have h1 := parseQueryRef_ref_subset _ rb hrb c hcm
    exact spanNotB_snd_subset _ _ c h1

theorem canonFileBody_allASCII (dp : List Nat → Int) (so rest : List Nat)
    (h : allASCII rest = true) :
    allASCII (canonFileBody dp so rest).2 = true := by
  simp only [canonFileBody]
  split_ifs
  · simp only [canonFileAuthBody]
    rw [allASCII_append, allASCII_append, allASCII_append, allASCII_append]
    rw [canonFileHost_allASCII, canonPath_allASCII, renderQuery_allASCII]
    rw [renderRef_allASCII _ ?href]
    · rfl
    case href =>
      intro rb hrb
      refine allASCII_of_subset rest rb ?_ h
      intro c hcm
      have h1 := parseNoSlashDrop_ref_subset _ rb hrb c hcm
      exact List.drop_subset _ _ h1
  · exact canonFileLocalBody_allASCII _
      (allASCII_of_subset rest _ (fun c hc => List.drop_subset _ _ hc) h)

/-- C2 counterexample: a URL whose ref carries the UTF-8 bytes of é
canonicalizes successfully, yet the output keeps those bytes above
0x7f — the ref passes non-ASCII through raw rather than escaping it. -/
theorem canonicalize_ascii_counterexample :
    (canonicalize kStandardURLSchemes testDefaultPort
      (strBytes "http://a/#" ++ [0xc3, 0xa9])).1 = true ∧
    allASCII (canonicalize kStandardURLSchemes testDefaultPort
      (strBytes "http://a/#" ++ [0xc3, 0xa9])).2 = false := by
  decide

/-- C2 (amended): for every all-ASCII input the canonical output is
all-ASCII; non-ASCII input bytes reach the output only through the ref
component, which passes UTF-8 through raw (every other component
percent-escapes or, for hosts, rejects them). -/
theorem canonicalize_allASCII (schemes : List (List Nat)) (dp : List Nat → Int)
    (S : List Nat) (h : allASCII S = true) :
    allASCII (canonicalize schemes dp S).2 = true := by
  simp only [canonicalize]
  have ht : allASCII (trimURL S).2 = true := allASCII_of_subset S _ (trimURL_subset S) h
  cases hex : extractScheme (trimURL S).2 with
  | none => rfl
  | some sch =>
    simp only []
    have hrest : allASCII ((trimURL S).2.drop (sch.length + 1)) = true :=
      allASCII_of_subset _ _ (fun c hc => List.drop_subset _ _ hc) ht
    split_ifs with h1 h2
    · rw [allASCII_append, canonScheme_allASCII,
        allASCII_cons _ _ (by omega) (canonFileBody_allASCII dp _ _ hrest)]
      rfl
    · rw [allASCII_append, canonScheme_allASCII,
        allASCII_cons _ _ (by omega) (canonAuthorityBody_allASCII dp _ _ hrest)]
      rfl
    · rw [allASCII_append, canonScheme_allASCII,
        allASCII_cons _ _ (by omega) (canonOpaqueBody_allASCII _)]
      rfl

/-- C2 witness: a concrete all-ASCII URL whose canonical output is
all-ASCII. -/
theorem canonicalize_allASCII_witness :
    allASCII (strBytes "HTTP://www.Google.COM/foo/../bar?q#r") = true ∧
    allASCII (canonicalize kStandardURLSchemes testDefaultPort
      (strBytes "HTTP://www.Google.COM/foo/../bar?q#r")).2 = true :=
  ⟨by decide, canonicalize_allASCII kStandardURLSchemes testDefaultPort _ (by decide)⟩

example : canonicalize kStandardURLSchemes testDefaultPort
    (strBytes "file:.//x") = (true, strBytes "file:////x") := by decide

example : canonicalize kStandardURLSchemes testDefaultPort
    (strBytes "file://///x") = (true, strBytes "file://///x") := by decide

/-! ## Claim C1: idempotence — walker normal forms -/

theorem isUpperHexDigit_isHex (d : Nat) (h : isUpperHexDigit d = true) :
    isHexChar d = true := by
  unfold isUpperHexDigit at h
  unfold isHexChar
  simp only [Bool.or_eq_true, Bool.and_eq_true, decide_eq_true_eq] at h ⊢
  omega

theorem hexCharToValue_lt_of_upper (d : Nat) (h : isUpperHexDigit d = true) :
    hexCharToValue d < 16 := by
  have hb : 0x30 ≤ d ∧ d ≤ 0x46 := by
    unfold isUpperHexDigit at h
    simp only [Bool.or_eq_true, Bool.and_eq_true, decide_eq_true_eq] at h
    omega
  obtain ⟨h1, h2⟩ := hb
  interval_cases d <;> revert h <;> decide

theorem hexCharAt_hexCharToValue (d : Nat) (h : isUpperHexDigit d = true) :
    hexCharAt (hexCharToValue d) = d := by
  have hb : 0x30 ≤ d ∧ d ≤ 0x46 := by
    unfold isUpperHexDigit at h
    simp only [Bool.or_eq_true, Bool.and_eq_true, decide_eq_true_eq] at h
    omega
  obtain ⟨h1, h2⟩ := hb
  interval_cases d <;> revert h <;> decide

/-- `CanonicalizeEscaped` reproduces an escape that is already two
uppercase hex digits. -/
theorem canonicalizeEscaped_upper (d1 d2 : Nat) (t : List Nat)
    (h1 : isUpperHexDigit d1 = true) (h2 : isUpperHexDigit d2 = true) :
    canonicalizeEscaped (d1 :: d2 :: t) = (true, [0x25, d1, d2], t) := by
  unfold canonicalizeEscaped decodeEscaped
  simp only []
  rw [if_pos (by rw [isUpperHexDigit_isHex d1 h1, isUpperHexDigit_isHex d2 h2]; rfl)]
  simp only [appendEscapedChar]
  have hv1 := hexCharToValue_lt_of_upper d1 h1
  have hv2 := hexCharToValue_lt_of_upper d2 h2
  have e1 : (hexCharToValue d1 * 16 + hexCharToValue d2) / 16 % 16 = hexCharToValue d1 := by
    omega
  have e2 : (hexCharToValue d1 * 16 + hexCharToValue d2) % 16 = hexCharToValue d2 := by
    omega
  rw [e1, e2, hexCharAt_hexCharToValue d1 h1, hexCharAt_hexCharToValue d2 h2]

theorem appendUTF8_head (cp : Nat) (h : 0x80 ≤ cp) :
    ∃ c0 r0, appendUTF8 cp = c0 :: r0 ∧ 0xc0 ≤ c0 := by
  unfold appendUTF8
  split_ifs with h1 h2 h3
  · omega
  · exact ⟨_, _, rfl, by omega⟩
  · exact ⟨_, _, rfl, by omega⟩
  · exact ⟨_, _, rfl, by omega⟩

theorem appendUTF8_bytes_ge (cp : Nat) (h : 0x80 ≤ cp) :
    ∀ b ∈ appendUTF8 cp, 0x80 ≤ b := by
  unfold appendUTF8
  split_ifs with h1 h2 h3
  · omega
  · intro b hb
    have hd : cp / 0x40 ≥ 2 := by omega
    fin_cases hb <;> omega
  · intro b hb
    fin_cases hb <;> omega
  · intro b hb
    fin_cases hb <;> omega

/-- Normal forms of the spec-modelled component walk: sequences of safe
bytes the per-component function passes through unchanged, uppercase
escapes (when escape normalization is on), and raw UTF-8 encodings of
valid non-ASCII code points (when raw pass-through is on).  A walk
reproduces exactly the lists of this shape. -/
inductive WalkNF (ha : Nat → Bool × List Nat) (ne ru : Bool) : List Nat → Prop
  | nil : WalkNF ha ne ru []
  | safe (c : Nat) (t : List Nat) (h80 : c < 0x80) (hha : ha c = (true, [c]))
      (hpc : ne = true → c ≠ 0x25) (ht : WalkNF ha ne ru t) : WalkNF ha ne ru (c :: t)
  | esc (d1 d2 : Nat) (t : List Nat) (hne : ne = true) (h1 : isUpperHexDigit d1 = true)
      (h2 : isUpperHexDigit d2 = true) (ht : WalkNF ha ne ru t) :
      WalkNF ha ne ru (0x25 :: d1 :: d2 :: t)
  | utf8 (cp : Nat) (t : List Nat) (hru : ru = true) (hv : isValidCodePoint cp = true)
      (hcp : 0x80 ≤ cp) (ht : WalkNF ha ne ru t) : WalkNF ha ne ru (appendUTF8 cp ++ t)

/-- A normal form walks to itself, successfully. -/
theorem walkNF_sound (ha : Nat → Bool × List Nat) (ne ru : Bool) :
    ∀ l, WalkNF ha ne ru l → canonWalk ha ne ru l = (true, l) := by
  intro l h
  induction h with
  | nil => exact canonWalk_nil ha ne ru
  | safe c t h80 hha hpc ht ih =>
    rw [canonWalk_cons]
    rw [if_neg (fun hand => hpc hand.2 hand.1), if_pos h80, hha, ih]
    rfl
  | esc d1 d2 t hne h1 h2 ht ih =>
    rw [canonWalk_cons]
    rw [if_pos ⟨rfl, hne⟩, canonicalizeEscaped_upper d1 d2 t h1 h2, ih]
    rfl
  | utf8 cp t hru hv hcp ht ih =>
    obtain ⟨c0, r0, happ, hc0⟩ := appendUTF8_head cp hcp
    rw [happ, List.cons_append, canonWalk_cons]
    rw [if_neg (fun hand => by omega)]
    rw [if_neg (by omega)]
    rw [← List.cons_append, ← happ, readUTF8_appendUTF8 cp t hv]
    simp only []
    rw [if_pos hru, ih]
    rfl

theorem isContByte_bounds (b : Nat) (h : isContByte b = true) : 0x80 ≤ b ∧ b ≤ 0xbf := by
  unfold isContByte at h
  simp only [Bool.and_eq_true, decide_eq_true_eq] at h
  exact h

theorem isValidCodePoint_of (cp : Nat) (hle : cp ≤ 0x10ffff)
    (hs : cp < 0xd800 ∨ 0xdfff < cp) : isValidCodePoint cp = true := by
  unfold isValidCodePoint
  rcases hs with h | h <;> simp [hle] <;> omega

/-- A successful UTF-8 read that starts at a non-ASCII byte yields a
valid non-ASCII code point. -/
theorem readUTF8_success_big (c : Nat) (t : List Nat) (h80 : ¬ c < 0x80)
    (h : (readUTF8 (c :: t)).1 = true) :
    isValidCodePoint (readUTF8 (c :: t)).2.1 = true ∧ 0x80 ≤ (readUTF8 (c :: t)).2.1 := by
  rcases t with _ | ⟨c1, _ | ⟨c2, _ | ⟨c3, t3⟩⟩⟩ <;>
    simp only [readUTF8] at h ⊢ <;>
    split_ifs at h ⊢ <;>
    simp only [isContByte, Bool.and_eq_true, decide_eq_true_eq] at * <;>
    first
      | exact Bool.noConfusion h
      | exact ⟨isValidCodePoint_of _ (by omega) (by omega), by omega⟩

theorem walkNF_escapeBytes (ha : Nat → Bool × List Nat) (ne ru : Bool)
    (H2 : ∀ v t, WalkNF ha ne ru t → WalkNF ha ne ru (appendEscapedChar v ++ t)) :
    ∀ bs t, WalkNF ha ne ru t → WalkNF ha ne ru (escapeBytes bs ++ t) := by
  intro bs
  induction bs with
  | nil => intro t ht; exact ht
  | cons b bs ih =>
    intro t ht
    show WalkNF ha ne ru ((appendEscapedChar b ++ escapeBytes bs) ++ t)
    rw [List.append_assoc]
    exact H2 b _ (ih t ht)

/-- A successful walk produces a normal form, given that the
per-component function fixes safe bytes and escapes the rest. -/
theorem walkNF_complete (ha : Nat → Bool × List Nat) (ne ru : Bool)
    (H1 : ∀ c, c < 0x80 → (ha c).1 = true →
      ∀ t, WalkNF ha ne ru t → WalkNF ha ne ru ((ha c).2 ++ t))
    (H2 : ∀ v t, WalkNF ha ne ru t → WalkNF ha ne ru (appendEscapedChar v ++ t)) :
    ∀ fuel l, (canonEngine ha ne ru fuel l).1 = true →
      WalkNF ha ne ru (canonEngine ha ne ru fuel l).2 := by
  intro fuel
  induction fuel with
  | zero => intro l _; exact WalkNF.nil
  | succ f ih =>
    intro l hl
    cases l with
    | nil => exact WalkNF.nil
    | cons c t =>
      simp only [canonEngine] at hl ⊢
      by_cases hc : c = 0x25 ∧ ne = true
      · rw [if_pos hc] at hl ⊢
        simp only [Bool.and_eq_true] at hl
        obtain ⟨v, t2, hv⟩ : ∃ v t2, canonicalizeEscaped t = (true, appendEscapedChar v, t2) := by
          cases hd : decodeEscaped t with
          | none =>
            exfalso
            have : (canonicalizeEscaped t).1 = false := by
              unfold canonicalizeEscaped
              rw [hd]
            rw [this] at hl
            exact Bool.noConfusion hl.1
          | some p =>
            exact ⟨p.1, p.2, by unfold canonicalizeEscaped; rw [hd]⟩
        rw [hv] at hl ⊢
        simp only [] at hl ⊢
        exact H2 v _ (ih _ hl.2)
      · rw [if_neg hc] at hl ⊢
        by_cases h80 : c < 0x80
        · rw [if_pos h80] at hl ⊢
          simp only [Bool.and_eq_true] at hl
          exact H1 c h80 hl.1 _ (ih t hl.2)
        · rw [if_neg h80] at hl ⊢
          simp only [Bool.and_eq_true] at hl
          have hread := readUTF8_success_big c t h80 hl.1
          by_cases hru : ru = true
          · rw [if_pos hru]
            exact WalkNF.utf8 _ _ hru hread.1 hread.2 (ih _ hl.2)
          · rw [if_neg hru]
            exact walkNF_escapeBytes ha ne ru H2 _ _ (ih _ hl.2)

/-- `walkNF_complete` at the walk level. -/
theorem canonWalk_NF (ha : Nat → Bool × List Nat) (ne ru : Bool)
    (H1 : ∀ c, c < 0x80 → (ha c).1 = true →
      ∀ t, WalkNF ha ne ru t → WalkNF ha ne ru ((ha c).2 ++ t))
    (H2 : ∀ v t, WalkNF ha ne ru t → WalkNF ha ne ru (appendEscapedChar v ++ t))
    (l : List Nat) (h : (canonWalk ha ne ru l).1 = true) :
    WalkNF ha ne ru (canonWalk ha ne ru l).2 :=
  walkNF_complete ha ne ru H1 H2 _ l h

/-- Byte-level facts about normal forms. -/
theorem walkNF_mem (ha : Nat → Bool × List Nat) (ne ru : Bool) (P : Nat → Prop)
    (hsafe : ∀ c, c < 0x80 → ha c = (true, [c]) → P c)
    (hpct : ne = true → P 0x25)
    (hhex : ne = true → ∀ d, isUpperHexDigit d = true → P d)
    (hhigh : ru = true → ∀ c, 0x80 ≤ c → P c) :
    ∀ l, WalkNF ha ne ru l → ∀ c ∈ l, P c := by
  intro l h
  induction h with
  | nil => intro c hc; cases hc
  | safe c t h80 hha hpc ht ih =>
    intro b hb
    rcases List.mem_cons.mp hb with h | h
    · subst h; exact hsafe b h80 hha
    · exact ih b h
  | esc d1 d2 t hne h1 h2 ht ih =>
    intro b hb
    rcases List.mem_cons.mp hb with h | hb2
    · subst h; exact hpct hne
    rcases List.mem_cons.mp hb2 with h | hb3
    · subst h; exact hhex hne _ h1
    rcases List.mem_cons.mp hb3 with h | hb4
    · subst h; exact hhex hne _ h2
    · exact ih b hb4
  | utf8 cp t hru hv hcp ht ih =>
    intro b hb
    rcases List.mem_append.mp hb with h | h
    · exact hhigh hru b (appendUTF8_bytes_ge cp hcp b h)
    · exact ih b h

/-- With escape normalization on, an emitted escape is a normal form. -/
theorem walkNF_appendEscaped_ne (ha : Nat → Bool × List Nat) (ru : Bool) :
    ∀ v t, WalkNF ha true ru t → WalkNF ha true ru (appendEscapedChar v ++ t) := by
  intro v t ht
  show WalkNF ha true ru (0x25 :: hexCharAt (v / 16 % 16) :: hexCharAt (v % 16) :: t)
  exact WalkNF.esc _ _ t rfl (hexCharAt_isUpper _ (Nat.mod_lt _ (by omega)))
    (hexCharAt_isUpper _ (Nat.mod_lt _ (by omega))) ht

theorem userinfoAscii_eq_safe (c : Nat) (h : isUserinfoSafe c = true) :
    userinfoAscii c = (true, [c]) := by
  unfold userinfoAscii
  rw [if_pos h]

theorem userinfoAscii_H1 : ∀ c, c < 0x80 → (userinfoAscii c).1 = true →
    ∀ t, WalkNF userinfoAscii true false t →
      WalkNF userinfoAscii true false ((userinfoAscii c).2 ++ t) := by
  intro c h80 _ t ht
  unfold userinfoAscii
  split_ifs with hs
  · refine WalkNF.safe c t h80 (userinfoAscii_eq_safe c hs) ?_ ht
    intro _ hceq
    rw [hceq] at hs
    exact absurd hs (by decide)
  · exact walkNF_appendEscaped_ne _ _ c t ht

theorem pathAscii_eq_safe (c : Nat) (h : isPathSafe c = true) :
    pathAscii c = (true, [c]) := by
  unfold pathAscii
  rw [if_pos h]

theorem pathAscii_H1 : ∀ c, c < 0x80 → (pathAscii c).1 = true →
    ∀ t, WalkNF pathAscii true false t →
      WalkNF pathAscii true false ((pathAscii c).2 ++ t) := by
  intro c h80 _ t ht
  unfold pathAscii
  split_ifs with hs
  · refine WalkNF.safe c t h80 (pathAscii_eq_safe c hs) ?_ ht
    intro _ hceq
    rw [hceq] at hs
    exact absurd hs (by decide)
  · exact walkNF_appendEscaped_ne _ _ c t ht

theorem queryAscii_eq_safe (c : Nat) (h : isQueryChar c = true) :
    queryAscii c = (true, [c]) := by
  unfold queryAscii
  rw [if_pos h]

theorem isUpperHexDigit_query (d : Nat) (h : isUpperHexDigit d = true) :
    isQueryChar d = true := by
  unfold isUpperHexDigit at h
  unfold isQueryChar
  simp only [Bool.or_eq_true, Bool.and_eq_true, decide_eq_true_eq, beq_iff_eq] at h ⊢
  omega

theorem walkNF_appendEscaped_query :
    ∀ v t, WalkNF queryAscii false false t →
      WalkNF queryAscii false false (appendEscapedChar v ++ t) := by
  intro v t ht
  show WalkNF queryAscii false false
    (0x25 :: hexCharAt (v / 16 % 16) :: hexCharAt (v % 16) :: t)
  refine WalkNF.safe _ _ (by omega) (queryAscii_eq_safe _ (by decide))
    (fun h => nomatch h) ?_
  refine WalkNF.safe _ _ (hexCharAt_lt _ (Nat.mod_lt _ (by omega)))
    (queryAscii_eq_safe _ (isUpperHexDigit_query _
      (hexCharAt_isUpper _ (Nat.mod_lt _ (by omega))))) (fun h => nomatch h) ?_
  exact WalkNF.safe _ _ (hexCharAt_lt _ (Nat.mod_lt _ (by omega)))
    (queryAscii_eq_safe _ (isUpperHexDigit_query _
      (hexCharAt_isUpper _ (Nat.mod_lt _ (by omega))))) (fun h => nomatch h) ht

theorem queryAscii_H1 : ∀ c, c < 0x80 → (queryAscii c).1 = true →
    ∀ t, WalkNF queryAscii false false t →
      WalkNF queryAscii false false ((queryAscii c).2 ++ t) := by
  intro c h80 _ t ht
  unfold queryAscii
  split_ifs with hs
  · exact WalkNF.safe c t h80 (queryAscii_eq_safe c hs) (fun h => nomatch h) ht
  · exact walkNF_appendEscaped_query c t ht

theorem refAscii_eq_safe (c : Nat) (h : (c < 0x20 || c == 0x7f) = false) :
    refAscii c = (true, [c]) := by
  unfold refAscii
  rw [if_neg (by rw [h]; exact fun hx => nomatch hx)]

theorem walkNF_appendEscaped_ref :
    ∀ v t, WalkNF refAscii false true t →
      WalkNF refAscii false true (appendEscapedChar v ++ t) := by
  intro v t ht
  have hhex : ∀ n, n < 16 → refAscii (hexCharAt n) = (true, [hexCharAt n]) := by
    intro n hn
    refine refAscii_eq_safe _ ?_
    have := hexCharAt_isUpper n hn
    unfold isUpperHexDigit at this
    simp only [Bool.or_eq_true, Bool.and_eq_true, decide_eq_true_eq] at this
    simp only [Bool.or_eq_false_iff, decide_eq_false_iff_not, not_lt, beq_eq_false_iff_ne,
      ne_eq]
    omega
  show WalkNF refAscii false true
    (0x25 :: hexCharAt (v / 16 % 16) :: hexCharAt (v % 16) :: t)
  refine WalkNF.safe _ _ (by omega) (refAscii_eq_safe _ (by decide))
    (fun h => nomatch h) ?_
  refine WalkNF.safe _ _ (hexCharAt_lt _ (Nat.mod_lt _ (by omega)))
    (hhex _ (Nat.mod_lt _ (by omega))) (fun h => nomatch h) ?_
  exact WalkNF.safe _ _ (hexCharAt_lt _ (Nat.mod_lt _ (by omega)))
    (hhex _ (Nat.mod_lt _ (by omega))) (fun h => nomatch h) ht

theorem refAscii_H1 : ∀ c, c < 0x80 → (refAscii c).1 = true →
    ∀ t, WalkNF refAscii false true t →
      WalkNF refAscii false true ((refAscii c).2 ++ t) := by
  intro c h80 _ t ht
  unfold refAscii
  split_ifs with hs
  · exact walkNF_appendEscaped_ref c t ht
  · refine WalkNF.safe c t h80 ?_ (fun h => nomatch h) ht
    rw [if_neg hs]

theorem opaqueAscii_H1 : ∀ c, c < 0x80 → (opaqueAscii c).1 = true →
    ∀ t, WalkNF opaqueAscii false false t →
      WalkNF opaqueAscii false false ((opaqueAscii c).2 ++ t) := by
  intro c h80 _ t ht
  exact WalkNF.safe c t h80 rfl (fun h => nomatch h) ht

theorem walkNF_appendEscaped_opaque :
    ∀ v t, WalkNF opaqueAscii false false t →
      WalkNF opaqueAscii false false (appendEscapedChar v ++ t) := by
  intro v t ht
  show WalkNF opaqueAscii false false
    (0x25 :: hexCharAt (v / 16 % 16) :: hexCharAt (v % 16) :: t)
  refine WalkNF.safe _ _ (by omega) rfl (fun h => nomatch h) ?_
  refine WalkNF.safe _ _ (hexCharAt_lt _ (Nat.mod_lt _ (by omega))) rfl
    (fun h => nomatch h) ?_
  exact WalkNF.safe _ _ (hexCharAt_lt _ (Nat.mod_lt _ (by omega))) rfl
    (fun h => nomatch h) ht

/-- Normal form of each walker output, packaged. -/
theorem canonUserinfoPart_NF (l : List Nat) (h : (canonUserinfoPart l).1 = true) :
    WalkNF userinfoAscii true false (canonUserinfoPart l).2 :=
  canonWalk_NF _ _ _ userinfoAscii_H1 (walkNF_appendEscaped_ne _ _) l h

theorem canonPathSeg_NF (l : List Nat) (h : (canonPathSeg l).1 = true) :
    WalkNF pathAscii true false (canonPathSeg l).2 :=
  canonWalk_NF _ _ _ pathAscii_H1 (walkNF_appendEscaped_ne _ _) l h

theorem canonQueryBody_NF (l : List Nat) (h : (canonQueryBody l).1 = true) :
    WalkNF queryAscii false false (canonQueryBody l).2 :=
  canonWalk_NF _ _ _ queryAscii_H1 walkNF_appendEscaped_query l h

theorem canonRefBody_NF (l : List Nat) (h : (canonRefBody l).1 = true) :
    WalkNF refAscii false true (canonRefBody l).2 :=
  canonWalk_NF _ _ _ refAscii_H1 walkNF_appendEscaped_ref l h

theorem canonOpaqueBody_NF (l : List Nat) (h : (canonOpaqueBody l).1 = true) :
    WalkNF opaqueAscii false false (canonOpaqueBody l).2 :=
  canonWalk_NF _ _ _ opaqueAscii_H1 walkNF_appendEscaped_opaque l h

/-- Walker stability: a successful walk's output walks to itself. -/
theorem canonUserinfoPart_stable (l : List Nat) (h : (canonUserinfoPart l).1 = true) :
    canonUserinfoPart ((canonUserinfoPart l).2) = (true, (canonUserinfoPart l).2) :=
  walkNF_sound _ _ _ _ (canonUserinfoPart_NF l h)

theorem canonPathSeg_stable (l : List Nat) (h : (canonPathSeg l).1 = true) :
    canonPathSeg ((canonPathSeg l).2) = (true, (canonPathSeg l).2) :=
  walkNF_sound _ _ _ _ (canonPathSeg_NF l h)

theorem canonQueryBody_stable (l : List Nat) (h : (canonQueryBody l).1 = true) :
    canonQueryBody ((canonQueryBody l).2) = (true, (canonQueryBody l).2) :=
  walkNF_sound _ _ _ _ (canonQueryBody_NF l h)

theorem canonRefBody_stable (l : List Nat) (h : (canonRefBody l).1 = true) :
    canonRefBody ((canonRefBody l).2) = (true, (canonRefBody l).2) :=
  walkNF_sound _ _ _ _ (canonRefBody_NF l h)

theorem canonOpaqueBody_stable (l : List Nat) (h : (canonOpaqueBody l).1 = true) :
    canonOpaqueBody ((canonOpaqueBody l).2) = (true, (canonOpaqueBody l).2) :=
  walkNF_sound _ _ _ _ (canonOpaqueBody_NF l h)

/-! ## Path canonicalization stability -/

/-- Join segments with forward slashes (the shape `renderSegs` emits). -/
def joinSegs : List (List Nat) → List Nat
  | [] => []
  | [s] => s
  | s :: s2 :: r => s ++ 0x2f :: joinSegs (s2 :: r)

theorem renderSegs_shape : ∀ segs, (renderSegs segs).2 =
    joinSegs (segs.map fun s => (canonPathSeg s).2)
  | [] => rfl
  | [s] => rfl
  | s :: s2 :: r => by
    show (canonPathSeg s).2 ++ 0x2f :: (renderSegs (s2 :: r)).2 = _
    rw [renderSegs_shape (s2 :: r)]
    rfl

theorem renderSegs_flag : ∀ segs, (renderSegs segs).1 = true →
    ∀ s ∈ segs, (canonPathSeg s).1 = true
  | [] => by intro _ s hs; cases hs
  | [s] => by
    intro h s2 hs2
    rw [List.mem_singleton.mp hs2]
    exact h
  | s :: s2 :: r => by
    intro h b hb
    have h2 : ((canonPathSeg s).1 && (renderSegs (s2 :: r)).1) = true := h
    simp only [Bool.and_eq_true] at h2
    rcases List.mem_cons.mp hb with he | he
    · rw [he]; exact h2.1
    · exact renderSegs_flag (s2 :: r) h2.2 b he

theorem renderSegs_of_stable : ∀ segs, (∀ s ∈ segs, canonPathSeg s = (true, s)) →
    renderSegs segs = (true, joinSegs segs)
  | [] => by intro _; rfl
  | [s] => by
    intro h
    show canonPathSeg s = (true, joinSegs [s])
    exact h s (List.mem_singleton_self s)
  | s :: s2 :: r => by
    intro h
    show ((canonPathSeg s).1 && (renderSegs (s2 :: r)).1,
      (canonPathSeg s).2 ++ 0x2f :: (renderSegs (s2 :: r)).2) = _
    rw [h s (List.mem_cons_self _ _),
      renderSegs_of_stable (s2 :: r) (fun b hb => h b (List.mem_cons_of_mem _ hb))]
    rfl

theorem splitSlashesCore_noslash (s : List Nat) (hs : ∀ c ∈ s, isURLSlash c = false) :
    splitSlashesCore s = (s, []) := by
  induction s with
  | nil => rfl
  | cons c t ih =>
    simp only [splitSlashesCore]
    rw [if_neg (by rw [hs c (List.mem_cons_self _ _)]; exact fun hx => nomatch hx)]
    rw [ih (fun b hb => hs b (List.mem_cons_of_mem _ hb))]

theorem splitSlashesCore_append (s r : List Nat)
    (hs : ∀ c ∈ s, isURLSlash c = false) :
    splitSlashesCore (s ++ 0x2f :: r) =
      (s, (splitSlashesCore r).1 :: (splitSlashesCore r).2) := by
  induction s with
  | nil =>
    simp only [List.nil_append, splitSlashesCore]
    rw [if_pos (by rfl)]
  | cons c t ih =>
    simp only [List.cons_append, splitSlashesCore]
    rw [if_neg (by rw [hs c (List.mem_cons_self _ _)]; exact fun hx => nomatch hx)]
    rw [show splitSlashesCore (t.append (0x2f :: r)) =
      (t, (splitSlashesCore r).1 :: (splitSlashesCore r).2) from
      ih (fun b hb => hs b (List.mem_cons_of_mem _ hb))]

theorem splitSlashes_join : ∀ segs, segs ≠ [] →
    (∀ s ∈ segs, ∀ c ∈ s, isURLSlash c = false) →
    splitSlashes (joinSegs segs) = segs
  | [], h, _ => absurd rfl h
  | [s], _, hs => by
    show splitSlashes s = [s]
    unfold splitSlashes
    rw [splitSlashesCore_noslash s (hs s (List.mem_singleton_self s))]
  | s :: s2 :: r, _, hs => by
    show splitSlashes (s ++ 0x2f :: joinSegs (s2 :: r)) = s :: s2 :: r
    unfold splitSlashes
    rw [splitSlashesCore_append s (joinSegs (s2 :: r)) (hs s (List.mem_cons_self _ _))]
    have ih := splitSlashes_join (s2 :: r) (List.cons_ne_nil s2 r)
      (fun b hb c hc => hs b (List.mem_cons_of_mem _ hb) c hc)
    unfold splitSlashes at ih
    rw [ih]

theorem resolveSegs_nodots : ∀ segs acc,
    (∀ s ∈ segs, s ≠ [0x2e] ∧ s ≠ [0x2e, 0x2e]) →
    resolveSegs segs acc = acc ++ segs := by
  intro segs
  induction segs with
  | nil => intro acc _; simp [resolveSegs]
  | cons s rest ih =>
    intro acc h
    have hd := h s (List.mem_cons_self _ _)
    simp only [resolveSegs]
    rw [if_neg hd.1, if_neg hd.2]
    rw [ih (acc ++ [s]) (fun b hb => h b (List.mem_cons_of_mem _ hb))]
    simp

theorem resolveSegs_mem : ∀ segs acc s, s ∈ resolveSegs segs acc →
    s ∈ acc ∨ s = [] ∨ (s ∈ segs ∧ s ≠ [0x2e] ∧ s ≠ [0x2e, 0x2e]) := by
  intro segs
  induction segs with
  | nil => intro acc s h; exact Or.inl h
  | cons hd rest ih =>
    intro acc s h
    simp only [resolveSegs] at h
    by_cases h1 : hd = [0x2e]
    · rw [if_pos h1] at h
      by_cases h2 : rest = []
      · rw [if_pos h2] at h
        rcases List.mem_append.mp h with h3 | h3
        · exact Or.inl h3
        · exact Or.inr (Or.inl (List.mem_singleton.mp h3))
      · rw [if_neg h2] at h
        rcases ih acc s h with h3 | h3 | ⟨h3, h4⟩
        · exact Or.inl h3
        · exact Or.inr (Or.inl h3)
        · exact Or.inr (Or.inr ⟨List.mem_cons_of_mem _ h3, h4⟩)
    · rw [if_neg h1] at h
      by_cases h2 : hd = [0x2e, 0x2e]
      · rw [if_pos h2] at h
        by_cases h3 : rest = []
        · rw [if_pos h3] at h
          rcases List.mem_append.mp h with h4 | h4
          · exact Or.inl ((List.dropLast_sublist acc).subset h4)
          · exact Or.inr (Or.inl (List.mem_singleton.mp h4))
        · rw [if_neg h3] at h
          rcases ih acc.dropLast s h with h4 | h4 | ⟨h4, h5⟩
          · exact Or.inl ((List.dropLast_sublist acc).subset h4)
          · exact Or.inr (Or.inl h4)
          · exact Or.inr (Or.inr ⟨List.mem_cons_of_mem _ h4, h5⟩)
      · rw [if_neg h2] at h
        rcases ih (acc ++ [hd]) s h with h3 | h3 | ⟨h3, h4⟩
        · rcases List.mem_append.mp h3 with h4 | h4
          · exact Or.inl h4
          · have hse : s = hd := List.mem_singleton.mp h4
            subst hse
            exact Or.inr (Or.inr ⟨List.mem_cons_self _ _, h1, h2⟩)
        · exact Or.inr (Or.inl h3)
        · exact Or.inr (Or.inr ⟨List.mem_cons_of_mem _ h3, h4⟩)

theorem canonicalizeEscaped_out_head (t : List Nat) :
    ∃ x, (canonicalizeEscaped t).2.1 = 0x25 :: x := by
  unfold canonicalizeEscaped
  cases decodeEscaped t with
  | none => exact ⟨[], rfl⟩
  | some p => exact ⟨_, rfl⟩

theorem appendUTF8_ne_nil (cp : Nat) : appendUTF8 cp ≠ [] := by
  unfold appendUTF8
  split_ifs <;> simp

theorem escapeBytes_head (l : List Nat) (h : l ≠ []) :
    ∃ x, escapeBytes l = 0x25 :: x := by
  cases l with
  | nil => exact absurd rfl h
  | cons b bs => exact ⟨_, rfl⟩

/-- A nonempty input walks to a nonempty output, provided the
per-component function never emits nothing for an ASCII byte. -/
theorem canonWalk_out_ne (ha : Nat → Bool × List Nat) (ne ru : Bool)
    (H : ∀ c, c < 0x80 → (ha c).2 ≠ []) :
    ∀ l, l ≠ [] → (canonWalk ha ne ru l).2 ≠ [] := by
  intro l hl
  cases l with
  | nil => exact absurd rfl hl
  | cons c t =>
    rw [canonWalk_cons]
    split_ifs with h1 h2 h3
    · intro hcontra
      rcases List.append_eq_nil.mp hcontra with ⟨ha1, _⟩
      obtain ⟨x, hx⟩ := canonicalizeEscaped_out_head t
      rw [hx] at ha1
      cases ha1
    · intro hcontra
      rcases List.append_eq_nil.mp hcontra with ⟨ha1, _⟩
      exact H c h2 ha1
    · intro hcontra
      rcases List.append_eq_nil.mp hcontra with ⟨ha1, _⟩
      exact appendUTF8_ne_nil _ ha1
    · intro hcontra
      rcases List.append_eq_nil.mp hcontra with ⟨ha1, _⟩
      obtain ⟨x, hx⟩ := escapeBytes_head _ (appendUTF8_ne_nil (readUTF8 (c :: t)).2.1)
      rw [hx] at ha1
      cases ha1

theorem pathAscii_out_ne (c : Nat) (h : c < 0x80) : (pathAscii c).2 ≠ [] := by
  unfold pathAscii
  split_ifs <;> simp [appendEscapedChar]

/-- Unfolding of the path-segment walk on a nonempty list. -/
theorem canonPathSeg_cons (c : Nat) (t : List Nat) :
    canonPathSeg (c :: t) =
      (if c = 0x25 then
        ((canonicalizeEscaped t).1 && (canonPathSeg (canonicalizeEscaped t).2.2).1,
         (canonicalizeEscaped t).2.1 ++ (canonPathSeg (canonicalizeEscaped t).2.2).2)
      else if c < 0x80 then
        ((pathAscii c).1 && (canonPathSeg t).1, (pathAscii c).2 ++ (canonPathSeg t).2)
      else
        ((readUTF8 (c :: t)).1 && (canonPathSeg (readUTF8 (c :: t)).2.2).1,
         escapeBytes (appendUTF8 (readUTF8 (c :: t)).2.1) ++
           (canonPathSeg (readUTF8 (c :: t)).2.2).2)) := by
  show canonWalk pathAscii true false (c :: t) = _
  rw [canonWalk_cons]
  by_cases hc : c = 0x25
  · rw [if_pos ⟨hc, rfl⟩, if_pos hc]
    rfl
  · rw [if_neg (fun hand => hc hand.1), if_neg hc]
    by_cases h80 : c < 0x80
    · rw [if_pos h80, if_pos h80]
      rfl
    · rw [if_neg h80, if_neg h80, if_neg (fun h => nomatch h)]
      rfl

/-- A successful path-segment walk yields a lone dot only from a lone
dot. -/
theorem canonPathSeg_out_dot (s : List Nat) (hs : (canonPathSeg s).1 = true)
    (h : (canonPathSeg s).2 = [0x2e]) : s = [0x2e] := by
  cases s with
  | nil => exact absurd h (by decide)
  | cons c t =>
    rw [canonPathSeg_cons] at hs h
    split_ifs at hs h with h1 h2
    · exfalso
      obtain ⟨x, hx⟩ := canonicalizeEscaped_out_head t
      rw [hx] at h
      simp at h
    · simp only [] at hs h
      unfold pathAscii at hs h
      split_ifs at hs h with hsafe
      · simp only [] at hs h
        rw [List.singleton_append] at h
        rw [List.cons.injEq] at h
        have ht : t = [] := by
          by_contra hne
          exact canonWalk_out_ne pathAscii true false pathAscii_out_ne t hne h.2
        rw [h.1, ht]
      · exfalso
        simp only [appendEscapedChar, List.cons_append] at h
        simp at h
    · exfalso
      obtain ⟨x, hx⟩ := escapeBytes_head _ (appendUTF8_ne_nil _)
      rw [hx] at h
      simp at h

/-- A successful path-segment walk yields a double dot only from a
double dot. -/
theorem canonPathSeg_out_dotdot (s : List Nat) (hs : (canonPathSeg s).1 = true)
    (h : (canonPathSeg s).2 = [0x2e, 0x2e]) : s = [0x2e, 0x2e] := by
  cases s with
  | nil => exact absurd h (by decide)
  | cons c t =>
    rw [canonPathSeg_cons] at hs h
    split_ifs at hs h with h1 h2
    · exfalso
      obtain ⟨x, hx⟩ := canonicalizeEscaped_out_head t
      rw [hx] at h
      simp at h
    · simp only [] at hs h
      unfold pathAscii at hs h
      split_ifs at hs h with hsafe
      · simp only [] at hs h
        rw [List.singleton_append] at h
        rw [List.cons.injEq] at h
        simp only [Bool.true_and] at hs
        have ht : t = [0x2e] := canonPathSeg_out_dot t hs h.2
        rw [h.1, ht]
      · exfalso
        simp only [appendEscapedChar, List.cons_append] at h
        simp at h
    · exfalso
      obtain ⟨x, hx⟩ := escapeBytes_head _ (appendUTF8_ne_nil _)
      rw [hx] at h
      simp at h

theorem pathAscii_safe_of_eq (c : Nat) (h : pathAscii c = (true, [c])) :
    isPathSafe c = true := by
  by_cases hs : isPathSafe c = true
  · exact hs
  · exfalso
    unfold pathAscii at h
    rw [if_neg hs] at h
    have := congrArg (fun p => p.2.length) h
    simp [appendEscapedChar] at this

theorem isPathSafe_facts (c : Nat) (h : isPathSafe c = true) :
    isURLSlash c = false ∧ c ≠ 0x3f ∧ c ≠ 0x23 ∧ c < 0x80 := by
  unfold isPathSafe at h
  simp at h
  unfold isURLSlash
  simp
  omega

/-- Bytes of a successful path-segment output: never a slash, question
mark or hash, and always ASCII. -/
theorem canonPathSeg_byteclass (s : List Nat) (h : (canonPathSeg s).1 = true) :
    ∀ c ∈ (canonPathSeg s).2,
      isURLSlash c = false ∧ c ≠ 0x3f ∧ c ≠ 0x23 ∧ c < 0x80 := by
  refine walkNF_mem pathAscii true false _ ?_ ?_ ?_ ?_ _ (canonPathSeg_NF s h)
  · intro c h80 hha
    exact isPathSafe_facts c (pathAscii_safe_of_eq c hha)
  · intro _
    refine ⟨by decide, by decide, by decide, by decide⟩
  · intro _ d hd
    unfold isUpperHexDigit at hd
    simp only [Bool.or_eq_true, Bool.and_eq_true, decide_eq_true_eq] at hd
    unfold isURLSlash
    simp only [Bool.or_eq_false_iff, beq_eq_false_iff_ne, ne_eq]
    omega
  · intro hru
    exact absurd hru (by decide)

/-- Path stability: a successfully canonicalized path re-canonicalizes
to itself. -/
theorem canonPath_stable (p : List Nat) (h : (canonPath p).1 = true) :
    canonPath ((canonPath p).2) = (true, (canonPath p).2) := by
  by_cases hp : p = []
  · subst hp
    rw [show (canonPath ([] : List Nat)).2 = [0x2f] from rfl]
    decide
  · have hflag : (renderSegs (resolveSegs (splitSlashes (p.drop 1)) [])).1 = true := by
      have h2 := h
      simp only [canonPath, if_neg hp] at h2
      exact h2
    have hout : (canonPath p).2 =
        0x2f :: (renderSegs (resolveSegs (splitSlashes (p.drop 1)) [])).2 := by
      simp only [canonPath, if_neg hp]
    have hsegs := renderSegs_flag _ hflag
    have hnd : ∀ s ∈ resolveSegs (splitSlashes (p.drop 1)) [],
        s ≠ [0x2e] ∧ s ≠ [0x2e, 0x2e] := by
      intro s hs
      rcases resolveSegs_mem _ _ s hs with hacc | hnil | ⟨_, hd⟩
      · cases hacc
      · subst hnil
        exact ⟨by decide, by decide⟩
      · exact hd
    have hshape := renderSegs_shape (resolveSegs (splitSlashes (p.drop 1)) [])
    rw [hout, hshape]
    by_cases hOSnil :
        (resolveSegs (splitSlashes (p.drop 1)) []).map (fun s => (canonPathSeg s).2) = []
    · rw [hOSnil]
      decide
    · have hossf : ∀ s ∈ (resolveSegs (splitSlashes (p.drop 1)) []).map
          (fun s => (canonPathSeg s).2), ∀ c ∈ s, isURLSlash c = false := by
        intro s hsmem c hc
        obtain ⟨r, hrmem, hreq⟩ := List.mem_map.mp hsmem
        rw [← hreq] at hc
        exact (canonPathSeg_byteclass r (hsegs r hrmem) c hc).1
      have hosnd : ∀ s ∈ (resolveSegs (splitSlashes (p.drop 1)) []).map
          (fun s => (canonPathSeg s).2), s ≠ [0x2e] ∧ s ≠ [0x2e, 0x2e] := by
        intro s hsmem
        obtain ⟨r, hrmem, hreq⟩ := List.mem_map.mp hsmem
        constructor
        · intro he
          rw [← hreq] at he
          exact (hnd r hrmem).1 (canonPathSeg_out_dot r (hsegs r hrmem) he ▸ rfl)
        · intro he
          rw [← hreq] at he
          exact (hnd r hrmem).2 (canonPathSeg_out_dotdot r (hsegs r hrmem) he ▸ rfl)
      have hstab : ∀ s ∈ (resolveSegs (splitSlashes (p.drop 1)) []).map
          (fun s => (canonPathSeg s).2), canonPathSeg s = (true, s) := by
        intro s hsmem
        obtain ⟨r, hrmem, hreq⟩ := List.mem_map.mp hsmem
        rw [← hreq]
        exact canonPathSeg_stable r (hsegs r hrmem)
      have hne2 : (0x2f :: joinSegs ((resolveSegs (splitSlashes (p.drop 1)) []).map
          (fun s => (canonPathSeg s).2)) : List Nat) ≠ [] := by
        simp
      simp only [canonPath, if_neg hne2]
      rw [show (0x2f :: joinSegs ((resolveSegs (splitSlashes (p.drop 1)) []).map
        (fun s => (canonPathSeg s).2))).drop 1 =
        joinSegs ((resolveSegs (splitSlashes (p.drop 1)) []).map
          (fun s => (canonPathSeg s).2)) from rfl]
      rw [splitSlashes_join _ hOSnil hossf]
      rw [resolveSegs_nodots _ [] hosnd, List.nil_append]
      rw [renderSegs_of_stable _ hstab]

theorem joinSegs_mem : ∀ segs (c : Nat), c ∈ joinSegs segs →
    c = 0x2f ∨ ∃ s ∈ segs, c ∈ s
  | [], c, h => by cases h
  | [s], c, h => Or.inr ⟨s, List.mem_singleton_self s, h⟩
  | s :: s2 :: r, c, h => by
    rcases List.mem_append.mp h with h1 | h1
    · exact Or.inr ⟨s, List.mem_cons_self _ _, h1⟩
    · rcases List.mem_cons.mp h1 with h2 | h2
      · exact Or.inl h2
      · rcases joinSegs_mem (s2 :: r) c h2 with h3 | ⟨s3, hs3, hc3⟩
        · exact Or.inl h3
        · exact Or.inr ⟨s3, List.mem_cons_of_mem _ hs3, hc3⟩

/-- The canonical path always starts with a forward slash. -/
theorem canonPath_head (p : List Nat) : ∃ x, (canonPath p).2 = 0x2f :: x := by
  simp only [canonPath]
  split_ifs
  · exact ⟨[], rfl⟩
  · exact ⟨_, rfl⟩

/-- Bytes of a successful canonical path: never a question mark or
hash, and always ASCII. -/
theorem canonPath_bytes (p : List Nat) (h : (canonPath p).1 = true) :
    ∀ c ∈ (canonPath p).2, c ≠ 0x3f ∧ c ≠ 0x23 ∧ c < 0x80 := by
  by_cases hp : p = []
  · subst hp
    intro c hc
    rw [show (canonPath ([] : List Nat)).2 = [0x2f] from rfl] at hc
    rw [List.mem_singleton.mp hc]
    refine ⟨by decide, by decide, by decide⟩
  · have hflag : (renderSegs (resolveSegs (splitSlashes (p.drop 1)) [])).1 = true := by
      have h2 := h
      simp only [canonPath, if_neg hp] at h2
      exact h2
    have hsegs := renderSegs_flag _ hflag
    intro c hc
    simp only [canonPath, if_neg hp] at hc
    rcases List.mem_cons.mp hc with he | he
    · subst he
      refine ⟨by decide, by decide, by decide⟩
    · rw [renderSegs_shape] at he
      rcases joinSegs_mem _ c he with he2 | ⟨s, hsm, hcs⟩
      · subst he2
        refine ⟨by decide, by decide, by decide⟩
      · obtain ⟨r, hrm, hre⟩ := List.mem_map.mp hsm
        rw [← hre] at hcs
        have := canonPathSeg_byteclass r (hsegs r hrm) c hcs
        exact ⟨this.2.1, this.2.2.1, this.2.2.2⟩

/-! ## Port stability -/

theorem isDecChar_iff (d : Nat) : isDecChar d = true ↔ 0x30 ≤ d ∧ d ≤ 0x39 := by
  unfold isDecChar
  simp

theorem decRepr_length_le (k : Nat) : ∀ n, n < 10 ^ k → 1 ≤ k → (decRepr n).length ≤ k := by
  induction k with
  | zero => intro n _ h1; omega
  | succ k2 ih =>
    intro n hn _
    rw [decRepr_eq]
    split_ifs with h10
    · simp only [List.length_singleton]
      omega
    · rw [List.length_append]
      simp only [List.length_singleton]
      have hk2 : 1 ≤ k2 := by
        by_contra hc
        have : k2 = 0 := by omega
        subst this
        simp at hn
        omega
      have := ih (n / 10) (by
        have : 10 ^ (k2 + 1) = 10 ^ k2 * 10 := by ring
        omega) hk2
      omega

/-- `ParsePort` reads back the decimal rendering of an in-range port. -/
theorem parsePort_decRepr (n : Nat) (hn : n ≤ 65535) : parsePort (decRepr n) = (n : Int) := by
  obtain ⟨hne, hdig, hfold, hlz⟩ := decRepr_isDecimalRepr n
  by_cases hz : n = 0
  · subst hz
    decide
  · unfold parsePort
    rw [if_neg hne]
    obtain ⟨c0, t0, hct⟩ : ∃ c0 t0, decRepr n = c0 :: t0 := by
      cases hd : decRepr n with
      | nil => exact absurd hd hne
      | cons a b => exact ⟨a, b, rfl⟩
    have hc0 : c0 ≠ 0x30 := by
      intro he
      have : decRepr n = [0x30] := hlz (by rw [hct, he]; rfl)
      rw [this] at hfold
      simp at hfold
      exact hz hfold.symm
    rw [hct]
    rw [List.dropWhile_cons_of_neg (by simp [hc0])]
    simp only []
    rw [show (c0 :: t0).all isDecChar = true by
      rw [List.all_eq_true]
      intro d hd
      rw [isDecChar_iff]
      exact hdig d (by rw [hct]; exact hd)]
    simp only [Bool.not_true]
    rw [if_neg (fun hx => nomatch hx)]
    have hlen : (c0 :: t0).length ≤ 5 := by
      rw [← hct]
      exact decRepr_length_le 5 n (by omega) (by omega)
    rw [if_neg (by omega)]
    have hpf : portFold (c0 :: t0) = n := by
      unfold portFold
      rw [← hct]
      exact hfold
    rw [if_neg (by rw [hpf]; omega)]
    rw [hpf]

/-- Bytes of the decimal rendering are decimal digits. -/
theorem decRepr_bytes (n : Nat) : ∀ d ∈ decRepr n, 0x30 ≤ d ∧ d ≤ 0x39 :=
  (decRepr_isDecimalRepr n).2.1

theorem decRepr_ne_nil (n : Nat) : decRepr n ≠ [] :=
  (decRepr_isDecimalRepr n).1

/-! ## Scheme stability -/

/-- Bytes a canonical scheme may contain: lowercase letters, digits,
plus, minus, period. -/
def schemeByteOK (b : Nat) : Bool :=
  (0x61 ≤ b && b ≤ 0x7a) || (0x30 ≤ b && b ≤ 0x39) || b == 0x2b || b == 0x2d || b == 0x2e

theorem canonicalSchemeChar_valid (c : Nat) (h : canonicalSchemeChar c ≠ 0) :
    canonicalSchemeChar c = toLowerASCII c ∧ schemeByteOK (canonicalSchemeChar c) = true := by
  unfold canonicalSchemeChar at h ⊢
  split_ifs at h ⊢ with h1 h2
  · refine ⟨?_, ?_⟩
    · unfold toLowerASCII
      rw [if_pos h1]
    · unfold schemeByteOK
      simp only [Bool.or_eq_true, Bool.and_eq_true, decide_eq_true_eq, beq_iff_eq]
      omega
  · refine ⟨?_, ?_⟩
    · unfold toLowerASCII
      rw [if_neg h1]
    · unfold schemeByteOK
      simp only [Bool.or_eq_true, Bool.and_eq_true, decide_eq_true_eq, beq_iff_eq]
      omega
  · exact absurd rfl h

theorem canonicalSchemeChar_idem (b : Nat) (h : schemeByteOK b = true) :
    canonicalSchemeChar b = b := by
  unfold schemeByteOK at h
  simp only [Bool.or_eq_true, Bool.and_eq_true, decide_eq_true_eq, beq_iff_eq] at h
  unfold canonicalSchemeChar
  rw [if_neg (by omega), if_pos (by omega)]

theorem schemeByteOK_ne0 (b : Nat) (h : schemeByteOK b = true) :
    canonicalSchemeChar b ≠ 0 := by
  rw [canonicalSchemeChar_idem b h]
  unfold schemeByteOK at h
  simp only [Bool.or_eq_true, Bool.and_eq_true, decide_eq_true_eq, beq_iff_eq] at h
  omega

theorem canonScheme_valid (sch : List Nat) (h : (canonScheme sch).1 = true) :
    (canonScheme sch).2 = sch.map canonicalSchemeChar := by
  show (sch.map canonicalSchemeChar).filter (fun c => decide (c ≠ 0)) =
    sch.map canonicalSchemeChar
  rw [List.filter_eq_self]
  intro a ha
  obtain ⟨b, hb, hbe⟩ := List.mem_map.mp ha
  have h2 : sch.all (fun c => canonicalSchemeChar c != 0) = true := h
  rw [List.all_eq_true] at h2
  have h3 := h2 b hb
  simp only [bne_iff_ne, ne_eq] at h3
  rw [← hbe]
  simp [h3]

theorem canonScheme_bytesOK (sch : List Nat) (h : (canonScheme sch).1 = true) :
    ∀ b ∈ (canonScheme sch).2, schemeByteOK b = true := by
  rw [canonScheme_valid sch h]
  intro b hb
  obtain ⟨a, ha, hae⟩ := List.mem_map.mp hb
  have h2 : sch.all (fun c => canonicalSchemeChar c != 0) = true := h
  rw [List.all_eq_true] at h2
  have h3 := h2 a ha
  simp only [bne_iff_ne, ne_eq] at h3
  rw [← hae]
  exact (canonicalSchemeChar_valid a h3).2

theorem canonScheme_toLower (sch : List Nat) (h : (canonScheme sch).1 = true) :
    (canonScheme sch).2 = sch.map toLowerASCII := by
  rw [canonScheme_valid sch h]
  apply List.map_congr_left
  intro a ha
  have h2 : sch.all (fun c => canonicalSchemeChar c != 0) = true := h
  rw [List.all_eq_true] at h2
  have h3 := h2 a ha
  simp only [bne_iff_ne, ne_eq] at h3
  exact (canonicalSchemeChar_valid a h3).1

theorem canonScheme_stable (sch : List Nat) (h : (canonScheme sch).1 = true) :
    canonScheme ((canonScheme sch).2) = (true, (canonScheme sch).2) := by
  have hok := canonScheme_bytesOK sch h
  have hmap : ((canonScheme sch).2).map canonicalSchemeChar = (canonScheme sch).2 := by
    conv_rhs => rw [← List.map_id ((canonScheme sch).2)]
    exact List.map_congr_left (fun b hb => canonicalSchemeChar_idem b (hok b hb))
  have hflag : ((canonScheme sch).2).all (fun c => canonicalSchemeChar c != 0) = true := by
    rw [List.all_eq_true]
    intro b hb
    simp only [bne_iff_ne, ne_eq]
    exact schemeByteOK_ne0 b (hok b hb)
  show ((canonScheme sch).2.all (fun c => canonicalSchemeChar c != 0),
    ((canonScheme sch).2.map canonicalSchemeChar).filter (fun c => decide (c ≠ 0))) = _
  rw [hflag, hmap]
  rw [List.filter_eq_self.mpr]
  intro a ha
  simp only [decide_eq_true_eq, ne_eq]
  have := schemeByteOK_ne0 a (hok a ha)
  rw [canonicalSchemeChar_idem a (hok a ha)] at this
  exact this

theorem schemeByteOK_not_term (c : Nat) (h : schemeByteOK c = true) :
    ¬(c == 0x3a) = true ∧
    ¬(c ≤ 0x20 || c == 0x2f || c == 0x5c || c == 0x3f || c == 0x23) = true := by
  unfold schemeByteOK at h
  simp only [Bool.or_eq_true, Bool.and_eq_true, decide_eq_true_eq, beq_iff_eq] at h ⊢
  omega

/-- `ExtractScheme` recovers a canonical scheme placed before a colon. -/
theorem extractSchemeAux_append (body : List Nat) : ∀ sch acc,
    (∀ c ∈ sch, schemeByteOK c = true) →
    extractSchemeAux (sch ++ 0x3a :: body) acc = some (acc.reverse ++ sch) := by
  intro sch
  induction sch with
  | nil =>
    intro acc _
    show extractSchemeAux (0x3a :: body) acc = _
    unfold extractSchemeAux
    rw [if_pos (by rfl)]
    simp
  | cons c t ih =>
    intro acc h
    have hc := schemeByteOK_not_term c (h c (List.mem_cons_self _ _))
    show extractSchemeAux (c :: (t ++ 0x3a :: body)) acc = _
    unfold extractSchemeAux
    rw [if_neg hc.1, if_neg hc.2]
    rw [ih (c :: acc) (fun b hb => h b (List.mem_cons_of_mem _ hb))]
    simp

theorem trimURL_noop (c : Nat) (t : List Nat) (hh : ¬ c ≤ 0x20)
    (hl : ∀ x, (c :: t).getLast? = some x → ¬ x ≤ 0x20) :
    trimURL (c :: t) = (0, c :: t) := by
  unfold trimURL
  rw [List.takeWhile_cons, if_neg (by simpa using hh)]
  rw [List.dropWhile_cons, if_neg (by simpa using hh)]
  cases hrev : (c :: t).reverse with
  | nil => simp at hrev
  | cons y ys =>
    have hy : (c :: t).getLast? = some y := by
      rw [← List.head?_reverse, hrev]
      rfl
    rw [List.dropWhile_cons, if_neg (by simpa using hl y hy)]
    rw [← hrev, List.reverse_reverse]
    rfl

/-! ## IPv4 canonicalization is case-insensitive -/

theorem toLowerASCII_eq_dot (c : Nat) : toLowerASCII c = 0x2e ↔ c = 0x2e := by
  unfold toLowerASCII
  split_ifs <;> omega

theorem toLowerASCII_ge (c : Nat) : 0x80 ≤ toLowerASCII c ↔ 0x80 ≤ c := by
  unfold toLowerASCII
  split_ifs <;> omega

theorem isIPv4Char_toLower (c : Nat) : isIPv4Char (toLowerASCII c) = isIPv4Char c := by
  unfold toLowerASCII
  split_ifs with h
  · obtain ⟨h1, h2⟩ := h
    interval_cases c <;> rfl
  · rfl

theorem isHexChar_toLower (c : Nat) : isHexChar (toLowerASCII c) = isHexChar c := by
  unfold toLowerASCII
  split_ifs with h
  · obtain ⟨h1, h2⟩ := h
    interval_cases c <;> rfl
  · rfl

theorem isOctChar_toLower (c : Nat) : isOctChar (toLowerASCII c) = isOctChar c := by
  unfold toLowerASCII
  split_ifs with h
  · obtain ⟨h1, h2⟩ := h
    interval_cases c <;> rfl
  · rfl

theorem isDecChar_toLower (c : Nat) : isDecChar (toLowerASCII c) = isDecChar c := by
  unfold toLowerASCII
  split_ifs with h
  · obtain ⟨h1, h2⟩ := h
    interval_cases c <;> rfl
  · rfl

theorem isCharOfTypeBase_toLower (d base : Nat) :
    isCharOfTypeBase (toLowerASCII d) base = isCharOfTypeBase d base := by
  unfold isCharOfTypeBase
  split_ifs
  · exact isHexChar_toLower d
  · exact isOctChar_toLower d
  · exact isDecChar_toLower d

theorem toLower_x_iff (r1 : Nat) :
    (toLowerASCII r1 = 0x58 ∨ toLowerASCII r1 = 0x78) ↔ (r1 = 0x58 ∨ r1 = 0x78) := by
  unfold toLowerASCII
  split_ifs <;> omega

theorem toLowerASCII_eq_zero_digit (c : Nat) : toLowerASCII c = 0x30 ↔ c = 0x30 := by
  unfold toLowerASCII
  split_ifs <;> omega

theorem findIPv4Aux_toLower : ∀ t cur acc,
    findIPv4Aux (t.map toLowerASCII) (cur.map toLowerASCII)
      (acc.map (List.map toLowerASCII)) =
    (findIPv4Aux t cur acc).map (List.map (List.map toLowerASCII)) := by
  intro t
  induction t with
  | nil =>
    intro cur acc
    simp only [List.map_nil, findIPv4Aux, List.length_map]
    split_ifs
    · rfl
    · simp
  | cons c t2 ih =>
    intro cur acc
    simp only [List.map_cons, findIPv4Aux]
    by_cases hc : c = 0x2e
    · rw [if_pos ((toLowerASCII_eq_dot c).mpr hc), if_pos hc]
      rw [List.length_map]
      by_cases h1 : cur.length = 0
      · rw [if_pos h1, if_pos h1]
        rfl
      · rw [if_neg h1, if_neg h1]
        rw [List.length_map]
        by_cases h2 : acc.length + 1 = 4
        · rw [if_pos h2, if_pos h2]
          by_cases h3 : t2 = []
          · rw [if_pos (by rw [h3]; rfl), if_pos h3]
            simp
          · rw [if_neg (by
              intro he
              exact h3 (List.map_eq_nil.mp he)), if_neg h3]
            rfl
        · rw [if_neg h2, if_neg h2]
          have := ih [] (acc ++ [cur])
          simp only [List.map_nil, List.map_append, List.map_cons] at this
          simpa using this
    · rw [if_neg (fun he => hc ((toLowerASCII_eq_dot c).mp he)), if_neg hc]
      by_cases hbad : 0x80 ≤ c ∨ isIPv4Char c = false
      · rw [if_pos (by
          rcases hbad with h | h
          · exact Or.inl ((toLowerASCII_ge c).mpr h)
          · exact Or.inr (by rw [isIPv4Char_toLower]; exact h)), if_pos hbad]
        rfl
      · rw [if_neg (by
          intro hb
          rcases hb with h | h
          · exact hbad (Or.inl ((toLowerASCII_ge c).mp h))
          · exact hbad (Or.inr (by rw [isIPv4Char_toLower] at h; exact h))), if_neg hbad]
        have := ih (cur ++ [c]) acc
        simp only [List.map_append, List.map_cons, List.map_nil] at this
        simpa using this

theorem findIPv4Components_toLower (h : List Nat) :
    findIPv4Components (h.map toLowerASCII) =
      (findIPv4Components h).map (List.map (List.map toLowerASCII)) := by
  have := findIPv4Aux_toLower h [] []
  simpa [findIPv4Components] using this

theorem baseDigitValue_toLower (d : Nat) (h : isHexChar d = true) :
    baseDigitValue (toLowerASCII d) = baseDigitValue d := by
  unfold isHexChar at h
  simp only [Bool.or_eq_true, Bool.and_eq_true, decide_eq_true_eq] at h
  have hb : 0x30 ≤ d ∧ d ≤ 0x66 := by omega
  obtain ⟨h1, h2⟩ := hb
  interval_cases d <;> first | rfl | omega

theorem isCharOfTypeBase_hex (d base : Nat) (h : isCharOfTypeBase d base = true) :
    isHexChar d = true := by
  unfold isCharOfTypeBase at h
  split_ifs at h
  · exact h
  · unfold isOctChar at h
    unfold isHexChar
    simp only [Bool.or_eq_true, Bool.and_eq_true, decide_eq_true_eq] at h ⊢
    omega
  · unfold isDecChar at h
    unfold isHexChar
    simp only [Bool.or_eq_true, Bool.and_eq_true, decide_eq_true_eq] at h ⊢
    omega

theorem foldl_digits_congr (base : Nat) : ∀ (digits : List Nat) (a : Nat),
    (∀ d ∈ digits, isCharOfTypeBase d base = true) →
    digits.foldl (fun a d => a * base + baseDigitValue (toLowerASCII d)) a =
      digits.foldl (fun a d => a * base + baseDigitValue d) a := by
  intro digits
  induction digits with
  | nil => intro a _; rfl
  | cons d ds ih =>
    intro a h
    simp only [List.foldl_cons]
    rw [baseDigitValue_toLower d (isCharOfTypeBase_hex d base (h d (List.mem_cons_self _ _)))]
    exact ih _ (fun b hb => h b (List.mem_cons_of_mem _ hb))

theorem parseInBase_toLower (digits : List Nat) (base : Nat)
    (hd : ∀ d ∈ digits, isCharOfTypeBase d base = true) :
    parseInBase (digits.map toLowerASCII) base = parseInBase digits base := by
  unfold parseInBase
  rw [List.foldl_map]
  exact foldl_digits_congr base digits 0 hd

theorem all_isCharOfTypeBase_toLower (digits : List Nat) (base : Nat) :
    (digits.map toLowerASCII).all (fun d => isCharOfTypeBase d base) =
      digits.all (fun d => isCharOfTypeBase d base) := by
  induction digits with
  | nil => rfl
  | cons d ds ih =>
    simp only [List.map_cons, List.all_cons]
    rw [isCharOfTypeBase_toLower, ih]

theorem iPv4ComponentToNumber_core (digits : List Nat) (base : Nat) :
    (if 16 < (digits.map toLowerASCII).length then Option.none
     else if (digits.map toLowerASCII).all (fun d => isCharOfTypeBase d base) then
       some (parseInBase (digits.map toLowerASCII) base % 2 ^ 32)
     else Option.none) =
    (if 16 < digits.length then Option.none
     else if digits.all (fun d => isCharOfTypeBase d base) then
       some (parseInBase digits base % 2 ^ 32)
     else Option.none) := by
  rw [List.length_map, all_isCharOfTypeBase_toLower]
  split_ifs with h1 h2
  · rfl
  · rw [parseInBase_toLower digits base (List.all_eq_true.mp h2)]
  · rfl

theorem iPv4ComponentToNumber_toLower (comp : List Nat) :
    iPv4ComponentToNumber (comp.map toLowerASCII) = iPv4ComponentToNumber comp := by
  cases comp with
  | nil => rfl
  | cons c0 rest =>
    show iPv4ComponentToNumber (toLowerASCII c0 :: rest.map toLowerASCII) = _
    simp only [iPv4ComponentToNumber]
    by_cases h0 : c0 = 0x30
    · rw [if_pos ((toLowerASCII_eq_zero_digit c0).mpr h0), if_pos h0]
      cases rest with
      | nil =>
        simp only [List.map_nil]
        have := iPv4ComponentToNumber_core [c0] 10
        simpa [h0] using this
      | cons r1 rs =>
        simp only [List.map_cons]
        by_cases hx : r1 = 0x58 ∨ r1 = 0x78
        · rw [if_pos ((toLower_x_iff r1).mpr hx), if_pos hx]
          have := iPv4ComponentToNumber_core rs 16
          simpa using this
        · rw [if_neg (fun hc => hx ((toLower_x_iff r1).mp hc)), if_neg hx]
          have := iPv4ComponentToNumber_core (r1 :: rs) 8
          simpa using this
    · rw [if_neg (fun hc => h0 ((toLowerASCII_eq_zero_digit c0).mp hc)), if_neg h0]
      have := iPv4ComponentToNumber_core (c0 :: rest) 10
      simpa using this

theorem mapM_components_toLower (L : List (List Nat)) :
    (L.map (List.map toLowerASCII)).mapM iPv4ComponentToNumber =
      L.mapM iPv4ComponentToNumber := by
  induction L with
  | nil => rfl
  | cons a l ih =>
    simp only [List.map_cons, List.mapM_cons]
    rw [iPv4ComponentToNumber_toLower, ih]

theorem filter_isEmpty_toLower (L : List (List Nat)) :
    (L.map (List.map toLowerASCII)).filter (fun p => !p.isEmpty) =
      (L.filter (fun p => !p.isEmpty)).map (List.map toLowerASCII) := by
  induction L with
  | nil => rfl
  | cons a l ih =>
    simp only [List.map_cons, List.filter_cons]
    have he : (a.map toLowerASCII).isEmpty = a.isEmpty := by
      cases a <;> rfl
    rw [he]
    split_ifs
    · rw [List.map_cons, ih]
    · exact ih

/-- `DoCanonicalizeIPv4Address` ignores ASCII case. -/
theorem canonicalizeIPv4Address_toLower (h : List Nat) :
    canonicalizeIPv4Address (h.map toLowerASCII) = canonicalizeIPv4Address h := by
  unfold canonicalizeIPv4Address
  rw [findIPv4Components_toLower]
  cases hf : findIPv4Components h with
  | none => rfl
  | some comps =>
    rw [show (some comps).map (List.map (List.map toLowerASCII)) =
      some (comps.map (List.map toLowerASCII)) from rfl]
    simp only []
    rw [filter_isEmpty_toLower, mapM_components_toLower]

/-! ## IPv4 canonical output stability -/

theorem findIPv4Aux_pass (r : List Nat) : ∀ (s cur : List Nat) (acc : List (List Nat)),
    (∀ c ∈ s, isIPv4Char c = true ∧ c ≠ 0x2e ∧ c < 0x80) →
    findIPv4Aux (s ++ r) cur acc = findIPv4Aux r (cur ++ s) acc := by
  intro s
  induction s with
  | nil => intro cur acc _; simp
  | cons c t ih =>
    intro cur acc h
    obtain ⟨h1, h2, h3⟩ := h c (List.mem_cons_self _ _)
    show findIPv4Aux (c :: (t ++ r)) cur acc = _
    simp only [findIPv4Aux]
    rw [if_neg h2, if_neg (by
      intro hb
      rcases hb with hb | hb
      · omega
      · rw [h1] at hb; exact Bool.noConfusion hb)]
    rw [ih (cur ++ [c]) acc (fun b hb => h b (List.mem_cons_of_mem _ hb))]
    simp

theorem decRepr_ipv4Chars (v : Nat) : ∀ c ∈ decRepr v,
    isIPv4Char c = true ∧ c ≠ 0x2e ∧ c < 0x80 := by
  intro c hc
  have := decRepr_bytes v c hc
  unfold isIPv4Char
  simp only [Bool.or_eq_true, Bool.and_eq_true, decide_eq_true_eq, beq_iff_eq, ne_eq]
  omega

/-- The component scan of a canonically rendered address. -/
theorem findIPv4Components_render (a b c d : Nat) :
    findIPv4Components (appendIPv4Address a b c d) =
      some [decRepr a, decRepr b, decRepr c, decRepr d] := by
  unfold findIPv4Components appendIPv4Address
  have hne : ∀ v : Nat, (decRepr v).length ≠ 0 := by
    intro v hv
    exact decRepr_ne_nil v (List.length_eq_zero.mp hv)
  rw [show decRepr a ++ [0x2e] ++ decRepr b ++ [0x2e] ++ decRepr c ++ [0x2e] ++ decRepr d =
    decRepr a ++ (0x2e :: (decRepr b ++ (0x2e :: (decRepr c ++ (0x2e :: decRepr d)))))
    from by simp]
  rw [findIPv4Aux_pass _ _ _ _ (decRepr_ipv4Chars a)]
  show findIPv4Aux (0x2e :: _) _ _ = _
  simp only [findIPv4Aux]
  rw [if_pos trivial, if_neg (by simpa using hne a), if_neg (by simp)]
  rw [findIPv4Aux_pass _ _ _ _ (decRepr_ipv4Chars b)]
  show findIPv4Aux (0x2e :: _) _ _ = _
  simp only [findIPv4Aux]
  rw [if_pos trivial, if_neg (by simpa using hne b), if_neg (by simp)]
  rw [findIPv4Aux_pass _ _ _ _ (decRepr_ipv4Chars c)]
  show findIPv4Aux (0x2e :: _) _ _ = _
  simp only [findIPv4Aux]
  rw [if_pos trivial, if_neg (by simpa using hne c), if_neg (by simp)]
  rw [show decRepr d = decRepr d ++ [] from (List.append_nil _).symm]
  rw [findIPv4Aux_pass [] _ _ _ (decRepr_ipv4Chars d)]
  show findIPv4Aux [] _ _ = _
  simp only [findIPv4Aux]
  rw [if_neg (by simpa using hne d)]
  simp

theorem parseInBase10_eq_fold (digits : List Nat)
    (hd : ∀ c ∈ digits, 0x30 ≤ c ∧ c ≤ 0x39) :
    parseInBase digits 10 = digits.foldl (fun a d => a * 10 + (d - 0x30)) 0 := by
  unfold parseInBase
  have : ∀ (a : Nat) (l : List Nat), (∀ c ∈ l, 0x30 ≤ c ∧ c ≤ 0x39) →
      l.foldl (fun a d => a * 10 + baseDigitValue d) a =
        l.foldl (fun a d => a * 10 + (d - 0x30)) a := by
    intro a l
    induction l generalizing a with
    | nil => intro _; rfl
    | cons x xs ih =>
      intro h
      simp only [List.foldl_cons]
      have hx := h x (List.mem_cons_self _ _)
      rw [show baseDigitValue x = x - 0x30 by unfold baseDigitValue; rw [if_pos (by omega)]]
      exact ih _ (fun b hb => h b (List.mem_cons_of_mem _ hb))
  exact this 0 digits hd

/-- The number conversion reads back a decimal rendering. -/
theorem iPv4ComponentToNumber_decRepr (v : Nat) (hv : v < 2 ^ 32) :
    iPv4ComponentToNumber (decRepr v) = some v := by
  obtain ⟨hne, hdig, hfold, hlz⟩ := decRepr_isDecimalRepr v
  by_cases hz : v = 0
  · subst hz
    decide
  · obtain ⟨c0, t0, hct⟩ : ∃ c0 t0, decRepr v = c0 :: t0 := by
      cases hd : decRepr v with
      | nil => exact absurd hd hne
      | cons x y => exact ⟨x, y, rfl⟩
    have hc0 : c0 ≠ 0x30 := by
      intro he
      have : decRepr v = [0x30] := hlz (by rw [hct, he]; rfl)
      rw [this] at hfold
      simp at hfold
      exact hz hfold.symm
    rw [hct]
    simp only [iPv4ComponentToNumber]
    rw [if_neg hc0]
    have hlen : (c0 :: t0).length ≤ 16 := by
      rw [← hct]
      calc (decRepr v).length ≤ 10 := decRepr_length_le 10 v (by omega) (by omega)
      _ ≤ 16 := by omega
    rw [if_neg (by simp only [List.drop_zero]; omega)]
    rw [show ((c0 :: t0).drop 0) = c0 :: t0 from rfl]
    rw [if_pos (by
      rw [List.all_eq_true]
      intro x hx
      have := hdig x (by rw [hct]; exact hx)
      unfold isCharOfTypeBase isDecChar
      rw [if_neg (by omega), if_neg (by omega)]
      simp only [Bool.and_eq_true, decide_eq_true_eq]
      omega)]
    rw [parseInBase10_eq_fold _ (fun x hx => hdig x (by rw [hct]; exact hx))]
    rw [← hct, hfold, Nat.mod_eq_of_lt hv]

theorem assembleAddress_small (a b c d : Nat) (ha : a < 256) (hb : b < 256)
    (hc : c < 256) (hd : d < 256) :
    assembleAddress [a, b, c, d] = some (a, b, c, d) := by
  show some (a &&& 0xFF, b &&& 0xFF, c &&& 0xFF, d &&& 0xFF) = _
  rw [nat_and_255, nat_and_255, nat_and_255, nat_and_255]
  rw [Nat.mod_eq_of_lt ha, Nat.mod_eq_of_lt hb, Nat.mod_eq_of_lt hc, Nat.mod_eq_of_lt hd]

/-- A canonically rendered IPv4 address re-canonicalizes to itself. -/
theorem canonicalizeIPv4Address_render (a b c d : Nat) (ha : a < 256) (hb : b < 256)
    (hc : c < 256) (hd : d < 256) :
    canonicalizeIPv4Address (appendIPv4Address a b c d) =
      some (appendIPv4Address a b c d) := by
  unfold canonicalizeIPv4Address
  rw [findIPv4Components_render]
  simp only []
  rw [show ([decRepr a, decRepr b, decRepr c, decRepr d].filter fun p => !p.isEmpty) =
    [decRepr a, decRepr b, decRepr c, decRepr d] from by
    rw [List.filter_eq_self]
    intro x hx
    fin_cases hx <;> simp [List.isEmpty_iff, decRepr_ne_nil]]
  rw [show ([decRepr a, decRepr b, decRepr c, decRepr d].mapM iPv4ComponentToNumber) =
    some [a, b, c, d] from by
    simp only [List.mapM_cons, List.mapM_nil]
    rw [iPv4ComponentToNumber_decRepr a (by omega), iPv4ComponentToNumber_decRepr b (by omega),
      iPv4ComponentToNumber_decRepr c (by omega), iPv4ComponentToNumber_decRepr d (by omega)]
    rfl]
  simp only []
  rw [assembleAddress_small a b c d ha hb hc hd]

theorem assembleAddress_bounds (vals : List Nat) (a b c d : Nat)
    (h : assembleAddress vals = some (a, b, c, d)) :
    a < 256 ∧ b < 256 ∧ c < 256 ∧ d < 256 := by
  have h255 : ∀ v : Nat, v &&& 0xFF < 256 := by
    intro v
    rw [nat_and_255]
    exact Nat.mod_lt _ (by omega)
  have hshift : ∀ v k : Nat, (v &&& (255 * 2 ^ k)) >>> k < 256 := by
    intro v k
    rw [nat_and_shift_eq]
    exact Nat.mod_lt _ (by omega)
  match vals with
  | [] => cases h
  | [v] =>
    simp only [assembleAddress, Option.some.injEq, Prod.mk.injEq] at h
    obtain ⟨h1, h2, h3, h4⟩ := h
    refine ⟨h1 ▸ ?_, h2 ▸ ?_, h3 ▸ ?_, h4 ▸ ?_⟩
    · exact hshift v 24
    · exact hshift v 16
    · exact hshift v 8
    · exact h255 v
  | [v0, v] =>
    simp only [assembleAddress, Option.some.injEq, Prod.mk.injEq] at h
    obtain ⟨h1, h2, h3, h4⟩ := h
    refine ⟨h1 ▸ h255 v0, h2 ▸ hshift v 16, h3 ▸ hshift v 8, h4 ▸ h255 v⟩
  | [v0, v1, v] =>
    simp only [assembleAddress, Option.some.injEq, Prod.mk.injEq] at h
    obtain ⟨h1, h2, h3, h4⟩ := h
    refine ⟨h1 ▸ h255 v0, h2 ▸ h255 v1, h3 ▸ hshift v 8, h4 ▸ h255 v⟩
  | [v0, v1, v2, v] =>
    simp only [assembleAddress, Option.some.injEq, Prod.mk.injEq] at h
    obtain ⟨h1, h2, h3, h4⟩ := h
    refine ⟨h1 ▸ h255 v0, h2 ▸ h255 v1, h3 ▸ h255 v2, h4 ▸ h255 v⟩
  | v0 :: v1 :: v2 :: v3 :: v4 :: rest => cases h

/-- The shape of a successful IPv4 canonicalization. -/
theorem canonicalizeIPv4Address_shape (h out : List Nat)
    (he : canonicalizeIPv4Address h = some out) :
    ∃ a b c d, a < 256 ∧ b < 256 ∧ c < 256 ∧ d < 256 ∧
      out = appendIPv4Address a b c d := by
  unfold canonicalizeIPv4Address at he
  cases h1 : findIPv4Components h with
  | none => rw [h1] at he; cases he
  | some comps =>
    rw [h1] at he
    simp only [] at he
    cases h2 : (comps.filter fun p => !p.isEmpty).mapM iPv4ComponentToNumber with
    | none => rw [h2] at he; cases he
    | some vals =>
      rw [h2] at he
      simp only [] at he
      cases h3 : assembleAddress vals with
      | none => rw [h3] at he; cases he
      | some q =>
        obtain ⟨a, b, c, d⟩ := q
        rw [h3] at he
        simp only [Option.some.injEq] at he
        obtain ⟨ha, hb, hc, hd⟩ := assembleAddress_bounds vals a b c d h3
        exact ⟨a, b, c, d, ha, hb, hc, hd, he.symm⟩

/-- A successful IPv4 canonical output re-canonicalizes to itself. -/
theorem canonicalizeIPv4Address_stable (h out : List Nat)
    (he : canonicalizeIPv4Address h = some out) :
    canonicalizeIPv4Address out = some out := by
  obtain ⟨a, b, c, d, ha, hb, hc, hd, hsh⟩ := canonicalizeIPv4Address_shape h out he
  rw [hsh]
  exact canonicalizeIPv4Address_render a b c d ha hb hc hd

/-! ## Registered host stability -/

/-- A byte the registered-name walk accepts. -/
def hostByteOK (c : Nat) : Bool :=
  decide (c < 0x80) && !(c == 0x25) && !(isHostDisallowed c)

theorem hostByteOK_iff (c : Nat) : hostByteOK c = true ↔
    c < 0x80 ∧ c ≠ 0x25 ∧ 0x20 < c ∧ c ≠ 0x7f ∧ c ≠ 0x23 ∧ c ≠ 0x2f ∧ c ≠ 0x5c ∧
    c ≠ 0x3f ∧ c ≠ 0x40 ∧ c ≠ 0x3a ∧ c ≠ 0x5b ∧ c ≠ 0x5d ∧ c ≠ 0x7c := by
  unfold hostByteOK isHostDisallowed
  simp only [Bool.and_eq_true, Bool.not_eq_true', Bool.or_eq_false_iff,
    beq_eq_false_iff_ne, ne_eq, decide_eq_true_eq, decide_eq_false_iff_not, not_le]
  omega

theorem hostWalk_flag : ∀ l : List Nat,
    (hostWalk l).1 = true ↔ ∀ c ∈ l, hostByteOK c = true := by
  intro l
  induction l with
  | nil =>
    constructor
    · intro _ c hc
      cases hc
    · intro _
      rfl
  | cons c t ih =>
    rw [hostWalk_cons]
    by_cases hc : c = 0x25
    · rw [if_pos hc]
      cases hdec : decodeEscaped t with
      | none =>
        simp only []
        constructor
        · intro h
          exact absurd h (by simp)
        · intro hall
          exfalso
          have := (hostByteOK_iff c).mp (hall c (List.mem_cons_self _ _))
          exact this.2.1 hc
      | some p =>
        obtain ⟨v, t2⟩ := p
        simp only []
        constructor
        · intro h
          exact absurd h (by simp)
        · intro hall
          exfalso
          have := (hostByteOK_iff c).mp (hall c (List.mem_cons_self _ _))
          exact this.2.1 hc
    · rw [if_neg hc]
      by_cases h80 : c < 0x80
      · rw [if_pos h80]
        simp only [Bool.and_eq_true, Bool.not_eq_true']
        constructor
        · intro ⟨hdis, hrec⟩
          intro b hb
          rcases List.mem_cons.mp hb with he | he
          · subst he
            unfold hostByteOK
            simp only [Bool.and_eq_true, Bool.not_eq_true', decide_eq_true_eq,
              beq_eq_false_iff_ne, ne_eq]
            exact ⟨⟨h80, hc⟩, hdis⟩
          · exact (ih.mp hrec) b he
        · intro hall
          have hcok := (hostByteOK_iff c).mp (hall c (List.mem_cons_self _ _))
          constructor
          · unfold isHostDisallowed
            simp only [Bool.or_eq_false_iff, beq_eq_false_iff_ne, ne_eq,
              decide_eq_false_iff_not, not_le]
            omega
          · exact ih.mpr (fun b hb => hall b (List.mem_cons_of_mem _ hb))
      · rw [if_neg h80]
        simp only []
        constructor
        · intro h
          exact absurd h (by simp)
        · intro hall
          exfalso
          exact h80 ((hostByteOK_iff c).mp (hall c (List.mem_cons_self _ _))).1

theorem hostWalk_out : ∀ l : List Nat, (∀ c ∈ l, hostByteOK c = true) →
    (hostWalk l).2 = l.map toLowerASCII := by
  intro l
  induction l with
  | nil => intro _; rfl
  | cons c t ih =>
    intro hall
    have hcok := (hostByteOK_iff c).mp (hall c (List.mem_cons_self _ _))
    rw [hostWalk_cons]
    rw [if_neg hcok.2.1, if_pos hcok.1]
    simp only [List.map_cons]
    rw [ih (fun b hb => hall b (List.mem_cons_of_mem _ hb))]

theorem toLowerASCII_idem (c : Nat) : toLowerASCII (toLowerASCII c) = toLowerASCII c := by
  unfold toLowerASCII
  split_ifs <;> omega

theorem hostByteOK_toLower (c : Nat) (h : hostByteOK c = true) :
    hostByteOK (toLowerASCII c) = true := by
  rw [hostByteOK_iff] at h ⊢
  unfold toLowerASCII
  split_ifs <;> omega

/-- The IPv6 canonicalizer copies the host verbatim. -/
theorem canonicalizeIPv6Address_out (h out : List Nat)
    (he : canonicalizeIPv6Address h = some out) : out = h := by
  unfold canonicalizeIPv6Address at he
  cases h with
  | nil => cases he
  | cons c t =>
    simp only [] at he
    by_cases h1 : c ≠ 0x5b
    · rw [if_pos h1] at he; cases he
    · rw [if_neg h1] at he
      by_cases h2 : (c :: t).getLast? ≠ some 0x5d
      · rw [if_pos h2] at he; cases he
      · rw [if_neg h2] at he
        cases hscan : ipv6ScanAux t.dropLast 0 0 0 with
        | none => rw [hscan] at he; cases he
        | some p =>
          obtain ⟨nc, nd⟩ := p
          rw [hscan] at he
          simp only [] at he
          split_ifs at he <;> cases he <;> rfl

/-- Without a leading bracket the IPv6 canonicalizer fails. -/
theorem canonicalizeIPv6Address_nonbracket (h : List Nat) (hh : h.headD 0 ≠ 0x5b) :
    canonicalizeIPv6Address h = Option.none := by
  unfold canonicalizeIPv6Address
  cases h with
  | nil => rfl
  | cons c t =>
    simp only [] 
    rw [if_pos (by simpa using hh)]

/-- A bracketed host is never a valid IPv4 address. -/
theorem canonicalizeIPv4Address_bracket (t : List Nat) :
    canonicalizeIPv4Address (0x5b :: t) = Option.none := by
  unfold canonicalizeIPv4Address findIPv4Components
  rw [show findIPv4Aux (0x5b :: t) [] [] = Option.none from by
    simp only [findIPv4Aux]
    rw [if_neg (by omega), if_pos (Or.inr (by rfl))]]

/-- The canonical host re-canonicalizes to itself. -/
theorem canonHost_stable (h : List Nat) (hs : (canonHost h).1 = true) :
    canonHost ((canonHost h).2) = (true, (canonHost h).2) := by
  unfold canonHost at hs ⊢
  by_cases h0 : h = []
  · rw [if_pos h0] at hs
    exact absurd hs (by simp)
  · rw [if_neg h0] at hs ⊢
    cases h4 : canonicalizeIPv4Address h with
    | some out =>
      simp only [] at hs ⊢
      have hne : out ≠ [] := by
        obtain ⟨a, b, c, d, _, _, _, _, hsh⟩ := canonicalizeIPv4Address_shape h out h4
        rw [hsh]
        unfold appendIPv4Address
        intro hx
        rcases List.append_eq_nil.mp hx with ⟨hx1, _⟩
        rcases List.append_eq_nil.mp hx1 with ⟨hx2, _⟩
        rcases List.append_eq_nil.mp hx2 with ⟨hx3, _⟩
        rcases List.append_eq_nil.mp hx3 with ⟨hx4, _⟩
        rcases List.append_eq_nil.mp hx4 with ⟨hx5, _⟩
        rcases List.append_eq_nil.mp hx5 with ⟨hx6, _⟩
        exact decRepr_ne_nil a hx6
      rw [if_neg hne]
      rw [canonicalizeIPv4Address_stable h out h4]
    | none =>
      rw [h4] at hs
      simp only [] at hs
      cases h6 : canonicalizeIPv6Address h with
      | some out =>
        rw [h6] at hs
        simp only [] at hs ⊢
        have hout : out = h := canonicalizeIPv6Address_out h out h6
        rw [if_neg (by rw [hout]; exact h0)]
        rw [hout, h4]
        simp only []
        rw [h6]
        simp only []
        rw [hout]
      | none =>
        rw [h6] at hs
        simp only [] at hs ⊢
        have hall : ∀ c ∈ h, hostByteOK c = true := (hostWalk_flag h).mp hs
        have hout : (hostWalk h).2 = h.map toLowerASCII := hostWalk_out h hall
        have hallout : ∀ c ∈ (hostWalk h).2, hostByteOK c = true := by
          rw [hout]
          intro c hc
          obtain ⟨b, hb, hbe⟩ := List.mem_map.mp hc
          rw [← hbe]
          exact hostByteOK_toLower b (hall b hb)
        have houtne : (hostWalk h).2 ≠ [] := by
          rw [hout]
          intro hx
          exact h0 (List.map_eq_nil.mp hx)
        rw [if_neg houtne]
        have hip4 : canonicalizeIPv4Address (hostWalk h).2 = Option.none := by
          rw [hout, canonicalizeIPv4Address_toLower, h4]
        rw [hip4]
        simp only []
        have hip6 : canonicalizeIPv6Address (hostWalk h).2 = Option.none := by
          apply canonicalizeIPv6Address_nonbracket
          rw [hout]
          cases hhead : h with
          | nil => exact absurd hhead h0
          | cons c t =>
            simp only [List.map_cons, List.headD_cons]
            have := (hostByteOK_iff c).mp (hall c (by rw [hhead]; exact List.mem_cons_self _ _))
            unfold toLowerASCII
            split_ifs <;> omega
        rw [hip6]
        simp only []
        have hflag2 : (hostWalk ((hostWalk h).2)).1 = true :=
          (hostWalk_flag _).mpr hallout
        have hout2 : (hostWalk ((hostWalk h).2)).2 = (hostWalk h).2 := by
          rw [hostWalk_out _ hallout, hout]
          rw [List.map_map]
          apply List.map_congr_left
          intro a _
          exact toLowerASCII_idem a
        rw [show hostWalk ((hostWalk h).2) =
          ((hostWalk ((hostWalk h).2)).1, (hostWalk ((hostWalk h).2)).2) from rfl]
        rw [hflag2, hout2]

/-! ## Authority inversion -/

theorem spanNotB_all (p : Nat → Bool) (l : List Nat) (h : ∀ c ∈ l, p c = false) :
    spanNotB p l = (l, []) := by
  unfold spanNotB
  induction l with
  | nil => rfl
  | cons c t ih =>
    rw [List.takeWhile_cons, List.dropWhile_cons]
    rw [show (!p c) = true by rw [h c (List.mem_cons_self _ _)]; rfl]
    rw [if_pos rfl, if_pos rfl]
    have := ih (fun b hb => h b (List.mem_cons_of_mem _ hb))
    rw [Prod.mk.injEq] at this
    rw [this.1, this.2]

theorem spanNotB_append (p : Nat → Bool) (a b : List Nat)
    (ha : ∀ c ∈ a, p c = false) (hb : b ≠ [] → p (b.headD 0) = true) :
    spanNotB p (a ++ b) = (a, b) := by
  unfold spanNotB
  induction a with
  | nil =>
    simp only [List.nil_append]
    cases b with
    | nil => rfl
    | cons y ys =>
      rw [List.takeWhile_cons, List.dropWhile_cons]
      rw [show (!p y) = false by
        have := hb (List.cons_ne_nil y ys)
        simp only [List.headD_cons] at this
        rw [this]
        rfl]
      rw [if_neg (fun hx => nomatch hx), if_neg (fun hx => nomatch hx)]
  | cons c t ih =>
    rw [List.cons_append, List.takeWhile_cons, List.dropWhile_cons]
    rw [show (!p c) = true by rw [ha c (List.mem_cons_self _ _)]; rfl]
    rw [if_pos rfl, if_pos rfl]
    have := ih (fun x hx => ha x (List.mem_cons_of_mem _ hx))
    rw [Prod.mk.injEq] at this
    rw [this.1, this.2]

theorem parseAuthority_noat (auth : List Nat) (h : ∀ c ∈ auth, (c == 0x40) = false) :
    parseAuthority auth = parseAuthorityHP [] auth := by
  unfold parseAuthority
  rw [spanNotB_all _ _ (fun c hc => h c (List.mem_reverse.mp hc))]
  rfl

theorem parseAuthority_at (U hostport : List Nat)
    (hhp : ∀ c ∈ hostport, (c == 0x40) = false) :
    parseAuthority (U ++ 0x40 :: hostport) = parseAuthorityHP U hostport := by
  unfold parseAuthority
  rw [show (U ++ 0x40 :: hostport).reverse = hostport.reverse ++ 0x40 :: U.reverse from by
    rw [List.reverse_append, List.reverse_cons]
    simp]
  rw [spanNotB_append _ _ _ (fun c hc => hhp c (List.mem_reverse.mp hc))
    (fun _ => by rfl)]
  simp only []
  rw [if_neg (List.cons_ne_nil _ _), if_neg (List.cons_ne_nil _ _)]
  rw [show ((0x40 :: U.reverse).drop 1).reverse = U from by simp]
  rw [List.reverse_reverse]

theorem parseAuthorityHP_hostport (userinfo hostport : List Nat) :
    (parseAuthorityHP userinfo hostport).host = (parseAuthorityHP [] hostport).host ∧
    (parseAuthorityHP userinfo hostport).port = (parseAuthorityHP [] hostport).port := by
  unfold parseAuthorityHP
  simp only []
  split_ifs <;> exact ⟨rfl, rfl⟩

theorem parseAuthorityHP_userinfo (userinfo hostport : List Nat) :
    (parseAuthorityHP userinfo hostport).user =
      (spanNotB (fun c => c == 0x3a) userinfo).1 ∧
    (parseAuthorityHP userinfo hostport).pass =
      (spanNotB (fun c => c == 0x3a) userinfo).2.drop 1 := by
  unfold parseAuthorityHP
  simp only []
  split_ifs <;> exact ⟨rfl, rfl⟩

/-- Host/port split for a bracket-free, colon-free host. -/
theorem parseAuthorityHP_plain (userinfo host portTail : List Nat)
    (hh1 : host.headD 0 ≠ 0x5b)
    (hh2 : ∀ c ∈ host, (c == 0x3a) = false)
    (hpt : portTail ≠ [] → portTail.headD 0 = 0x3a) :
    (parseAuthorityHP userinfo (host ++ portTail)).host = host ∧
    (parseAuthorityHP userinfo (host ++ portTail)).port =
      (if portTail = [] then Option.none else some (portTail.drop 1)) := by
  unfold parseAuthorityHP
  have hhead : ((host ++ portTail).headD 0 == 0x5b) = false := by
    cases host with
    | nil =>
      cases portTail with
      | nil => rfl
      | cons y ys =>
        have := hpt (List.cons_ne_nil y ys)
        simp only [List.nil_append, List.headD_cons] at this ⊢
        rw [this]
        rfl
    | cons x xs =>
      simp only [List.cons_append, List.headD_cons]
      simpa using hh1
  rw [if_neg (by rw [hhead]; exact fun hx => nomatch hx)]
  rw [spanNotB_append _ host portTail hh2 (fun hne => by rw [hpt hne]; rfl)]
  constructor
  · rfl
  · rfl

/-- Host/port split for a bracketed IPv6 host. -/
theorem parseAuthorityHP_bracket (userinfo interior portTail : List Nat)
    (hi : ∀ c ∈ interior, (c == 0x5d) = false)
    (hpt : portTail ≠ [] → portTail.headD 0 = 0x3a) :
    (parseAuthorityHP userinfo ((0x5b :: interior ++ [0x5d]) ++ portTail)).host =
      0x5b :: interior ++ [0x5d] ∧
    (parseAuthorityHP userinfo ((0x5b :: interior ++ [0x5d]) ++ portTail)).port =
      (if portTail = [] then Option.none else some (portTail.drop 1)) := by
  unfold parseAuthorityHP
  rw [if_pos (by simp)]
  have hsp : spanNotB (fun c => c == 0x5d) ((0x5b :: interior ++ [0x5d]) ++ portTail) =
      (0x5b :: interior, 0x5d :: portTail) := by
    rw [show (0x5b :: interior ++ [0x5d]) ++ portTail =
      (0x5b :: interior) ++ (0x5d :: portTail) from by simp]
    refine spanNotB_append _ _ _ ?_ (fun _ => by rfl)
    intro c hc
    rcases List.mem_cons.mp hc with he | he
    · subst he; rfl
    · exact hi c he
  rw [hsp]
  rw [if_neg (List.cons_ne_nil _ _)]
  refine ⟨by simp, ?_⟩
  show (if (0x5d :: portTail).drop 1 = [] then Option.none
    else if ((0x5d :: portTail).drop 1).headD 0 = 0x3a
    then some (((0x5d :: portTail).drop 1).drop 1) else some ((0x5d :: portTail).drop 1)) = _
  rw [show (0x5d :: portTail).drop 1 = portTail from rfl]
  cases hp : portTail with
  | nil => rfl
  | cons y ys =>
    rw [if_neg (List.cons_ne_nil y ys)]
    have hy : y = 0x3a := by
      have := hpt (by rw [hp]; exact List.cons_ne_nil y ys)
      rw [hp] at this
      simpa using this
    rw [if_pos (by rw [List.headD_cons, hy])]
    rw [if_neg (List.cons_ne_nil y ys)]

/-! ## Component byte classes and render stability -/

theorem userinfoAscii_safe_of_eq (c : Nat) (h : userinfoAscii c = (true, [c])) :
    isUserinfoSafe c = true := by
  by_cases hs : isUserinfoSafe c = true
  · exact hs
  · exfalso
    unfold userinfoAscii at h
    rw [if_neg hs] at h
    have := congrArg (fun p => p.2.length) h
    simp [appendEscapedChar] at this

theorem isUserinfoSafe_facts (c : Nat) (h : isUserinfoSafe c = true) :
    (c == 0x40) = false ∧ (c == 0x3a) = false ∧ isAuthorityTerminator c = false ∧
      c < 0x80 := by
  unfold isUserinfoSafe at h
  unfold isAuthorityTerminator isURLSlash
  simp only [Bool.or_eq_true, Bool.and_eq_true, decide_eq_true_eq, beq_iff_eq] at h
  simp only [Bool.or_eq_false_iff, beq_eq_false_iff_ne, ne_eq]
  omega

theorem canonUserinfoPart_byteclass (l : List Nat) (h : (canonUserinfoPart l).1 = true) :
    ∀ c ∈ (canonUserinfoPart l).2,
      (c == 0x40) = false ∧ (c == 0x3a) = false ∧ isAuthorityTerminator c = false ∧
        c < 0x80 := by
  refine walkNF_mem userinfoAscii true false _ ?_ ?_ ?_ ?_ _ (canonUserinfoPart_NF l h)
  · intro c h80 hha
    exact isUserinfoSafe_facts c (userinfoAscii_safe_of_eq c hha)
  · intro _
    refine ⟨by decide, by decide, by decide, by decide⟩
  · intro _ d hd
    unfold isUpperHexDigit at hd
    unfold isAuthorityTerminator isURLSlash
    simp only [Bool.or_eq_true, Bool.and_eq_true, decide_eq_true_eq] at hd
    simp only [Bool.or_eq_false_iff, beq_eq_false_iff_ne, ne_eq]
    omega
  · intro hru
    exact absurd hru (by decide)

theorem queryAscii_safe_of_eq (c : Nat) (h : queryAscii c = (true, [c])) :
    isQueryChar c = true := by
  by_cases hs : isQueryChar c = true
  · exact hs
  · exfalso
    unfold queryAscii at h
    rw [if_neg hs] at h
    have := congrArg (fun p => p.2.length) h
    simp [appendEscapedChar] at this

theorem canonQueryBody_byteclass (l : List Nat) (h : (canonQueryBody l).1 = true) :
    ∀ c ∈ (canonQueryBody l).2, (c == 0x23) = false ∧ c < 0x80 := by
  refine walkNF_mem queryAscii false false _ ?_ ?_ ?_ ?_ _ (canonQueryBody_NF l h)
  · intro c h80 hha
    have := queryAscii_safe_of_eq c hha
    unfold isQueryChar at this
    simp only [Bool.or_eq_true, Bool.and_eq_true, decide_eq_true_eq, beq_iff_eq] at this
    simp only [beq_eq_false_iff_ne, ne_eq]
    omega
  · intro h
    exact absurd h (by decide)
  · intro h
    exact absurd h (by decide)
  · intro h
    exact absurd h (by decide)

theorem userinfoAscii_out_ne (c : Nat) (h : c < 0x80) : (userinfoAscii c).2 ≠ [] := by
  unfold userinfoAscii
  split_ifs <;> simp [appendEscapedChar]

theorem canonUserinfoPart_ne_nil (l : List Nat) (h : l ≠ []) :
    (canonUserinfoPart l).2 ≠ [] :=
  canonWalk_out_ne userinfoAscii true false userinfoAscii_out_ne l h

theorem parsePort_cases (pl : List Nat) :
    parsePort pl = -1 ∨ parsePort pl = -2 ∨
    ∃ n : Nat, n ≤ 65535 ∧ parsePort pl = (n : Int) := by
  unfold parsePort
  simp only []
  split_ifs with q1 q2 q3 q4
  · exact Or.inl rfl
  · exact Or.inr (Or.inl rfl)
  · exact Or.inr (Or.inl rfl)
  · exact Or.inr (Or.inl rfl)
  · refine Or.inr (Or.inr ⟨portFold (pl.dropWhile fun c => c == 0x30), by omega, rfl⟩)

/-- The port render is empty or a colon followed by decimal digits that
parse back to the same non-default value. -/
theorem renderPort_shape (dp : List Nat → Int) (so : List Nat) (p : Option (List Nat))
    (h : (renderPort dp so p).1 = true) :
    (renderPort dp so p).2 = [] ∨
    ∃ n : Nat, n ≤ 65535 ∧ (n : Int) ≠ dp so ∧
      (renderPort dp so p).2 = 0x3a :: decRepr n := by
  unfold renderPort at h ⊢
  cases p with
  | none => exact Or.inl rfl
  | some pl =>
    simp only [] at h ⊢
    split_ifs at h ⊢ with h1 h2 h3
    · exact Or.inl rfl
    · exact Or.inl rfl
    · rcases parsePort_cases pl with hc | hc | ⟨n, hn, hc⟩
      · exact absurd hc h1
      · exact absurd hc h2
      · refine Or.inr ⟨n, hn, ?_, ?_⟩
        · rw [← hc]
          exact h3
        · rw [hc]
          rw [show ((n : Int)).toNat = n from rfl]
  
/-- Re-rendering a rendered port reproduces it. -/
theorem renderPort_stable (dp : List Nat → Int) (so : List Nat) (n : Nat)
    (hn : n ≤ 65535) (hd : (n : Int) ≠ dp so) :
    renderPort dp so (some (decRepr n)) = (true, 0x3a :: decRepr n) := by
  unfold renderPort
  simp only []
  rw [parsePort_decRepr n hn]
  rw [if_neg (by omega), if_neg (by omega), if_neg hd]
  rw [show ((n : Int)).toNat = n from rfl]

/-! ## Canonical host byte facts -/

theorem validIPv6Char_facts (c : Nat) (h : validIPv6Char c = true) :
    (c == 0x40) = false ∧ isAuthorityTerminator c = false ∧ c ≠ 0x5d ∧ c ≠ 0x5b := by
  unfold validIPv6Char isHexChar at h
  unfold isAuthorityTerminator isURLSlash
  simp only [Bool.or_eq_true, Bool.and_eq_true, decide_eq_true_eq, beq_iff_eq] at h
  simp only [Bool.or_eq_false_iff, beq_eq_false_iff_ne, ne_eq]
  omega

theorem appendIPv4Address_bytes (a b c d : Nat) :
    ∀ x ∈ appendIPv4Address a b c d, (0x30 ≤ x ∧ x ≤ 0x39) ∨ x = 0x2e := by
  intro x hx
  unfold appendIPv4Address at hx
  simp only [List.append_assoc, List.mem_append, List.mem_singleton] at hx
  rcases hx with h1 | h1 | h1 | h1 | h1 | h1 | h1
  · exact Or.inl (decRepr_bytes a x h1)
  · exact Or.inr h1
  · exact Or.inl (decRepr_bytes b x h1)
  · exact Or.inr h1
  · exact Or.inl (decRepr_bytes c x h1)
  · exact Or.inr h1
  · exact Or.inl (decRepr_bytes d x h1)

/-- Shape of a successful IPv6 canonicalization: brackets around valid
interior characters. -/
theorem canonicalizeIPv6Address_bytes (h out : List Nat)
    (he : canonicalizeIPv6Address h = some out) :
    ∃ interior, out = 0x5b :: interior ++ [0x5d] ∧
      ∀ c ∈ interior, validIPv6Char c = true := by
  unfold canonicalizeIPv6Address at he
  cases h with
  | nil => cases he
  | cons x t =>
    simp only [] at he
    by_cases hx : x ≠ 0x5b
    · rw [if_pos hx] at he; cases he
    · rw [if_neg hx] at he
      push_neg at hx
      by_cases hlast : (x :: t).getLast? ≠ some 0x5d
      · rw [if_pos hlast] at he; cases he
      · rw [if_neg hlast] at he
        push_neg at hlast
        cases hscan : ipv6ScanAux t.dropLast 0 0 0 with
        | none => rw [hscan] at he; cases he
        | some p =>
          obtain ⟨nc, nd⟩ := p
          rw [hscan] at he
          simp only [] at he
          split_ifs at he
          cases he
          have htne : t ≠ [] := by
            intro hemp
            subst hemp
            simp at hlast
            omega
          have hdec : t.dropLast ++ [t.getLast htne] = t :=
            List.dropLast_append_getLast htne
          have hlast2 : t.getLast htne = 0x5d := by
            have he2 : (x :: t).getLast? = t.getLast? := by
              cases t with
              | nil => exact absurd rfl htne
              | cons z zs => simp [List.getLast?_cons_cons]
            rw [he2, List.getLast?_eq_getLast t htne] at hlast
            exact Option.some_injective _ hlast
          refine ⟨t.dropLast, ?_, ?_⟩
          · rw [hx, List.cons_append]
            rw [show t.dropLast ++ [0x5d] = t from by rw [← hlast2]; exact hdec]
          · intro c hc
            exact ipv6ScanAux_valid _ _ _ _ _ hscan c hc

/-- Authority-level byte facts about a successful canonical host: no
at-sign and no authority terminator. -/
theorem canonHost_bytes (h : List Nat) (hs : (canonHost h).1 = true) :
    ∀ c ∈ (canonHost h).2, (c == 0x40) = false ∧ isAuthorityTerminator c = false := by
  unfold canonHost at hs ⊢
  by_cases h0 : h = []
  · rw [if_pos h0] at hs
    exact absurd hs (by simp)
  · rw [if_neg h0] at hs ⊢
    cases h4 : canonicalizeIPv4Address h with
    | some out =>
      simp only []
      intro c hc
      obtain ⟨a, b, cc, d, _, _, _, _, hsh⟩ := canonicalizeIPv4Address_shape h out h4
      rw [hsh] at hc
      have := appendIPv4Address_bytes a b cc d c hc
      unfold isAuthorityTerminator isURLSlash
      simp only [Bool.or_eq_false_iff, beq_eq_false_iff_ne, ne_eq]
      omega
    | none =>
      simp only []
      cases h6 : canonicalizeIPv6Address h with
      | some out =>
        simp only []
        intro c hc
        obtain ⟨interior, hsh, hval⟩ := canonicalizeIPv6Address_bytes h out h6
        rw [hsh] at hc
        rcases List.mem_cons.mp hc with he | he
        · subst he
          refine ⟨by decide, by decide⟩
        · rcases List.mem_append.mp he with he2 | he2
          · have := validIPv6Char_facts c (hval c he2)
            exact ⟨this.1, this.2.1⟩
          · rw [List.mem_singleton.mp he2]
            refine ⟨by decide, by decide⟩
      | none =>
        rw [h4] at hs
        simp only [] at hs
        rw [h6] at hs
        simp only [] at hs
        have hall := (hostWalk_flag h).mp hs
        rw [hostWalk_out h hall]
        intro c hc
        obtain ⟨b, hb, hbe⟩ := List.mem_map.mp hc
        have hbok := (hostByteOK_iff b).mp (hall b hb)
        rw [← hbe]
        unfold toLowerASCII isAuthorityTerminator isURLSlash
        simp only [Bool.or_eq_false_iff, beq_eq_false_iff_ne, ne_eq]
        split_ifs <;> omega

/-- A successful canonical host either has the bracket shape of an IPv6
literal or is bracket-free and colon-free. -/
theorem canonHost_split_shape (h : List Nat) (hs : (canonHost h).1 = true) :
    (∃ interior, (canonHost h).2 = 0x5b :: interior ++ [0x5d] ∧
      ∀ c ∈ interior, (c == 0x5d) = false) ∨
    ((canonHost h).2.headD 0 ≠ 0x5b ∧ ∀ c ∈ (canonHost h).2, (c == 0x3a) = false) := by
  unfold canonHost at hs ⊢
  by_cases h0 : h = []
  · rw [if_pos h0] at hs
    exact absurd hs (by simp)
  · rw [if_neg h0] at hs ⊢
    cases h4 : canonicalizeIPv4Address h with
    | some out =>
      simp only []
      refine Or.inr ⟨?_, ?_⟩
      · obtain ⟨a, b, cc, d, _, _, _, _, hsh⟩ := canonicalizeIPv4Address_shape h out h4
        rw [hsh]
        unfold appendIPv4Address
        obtain ⟨x, t0, hct⟩ : ∃ x t0, decRepr a = x :: t0 := by
          cases hd : decRepr a with
          | nil => exact absurd hd (decRepr_ne_nil a)
          | cons x y => exact ⟨x, y, rfl⟩
        have := decRepr_bytes a x (by rw [hct]; exact List.mem_cons_self _ _)
        rw [hct]
        simp only [List.append_assoc, List.cons_append, List.headD_cons]
        omega
      · intro c hc
        obtain ⟨a, b, cc, d, _, _, _, _, hsh⟩ := canonicalizeIPv4Address_shape h out h4
        rw [hsh] at hc
        have := appendIPv4Address_bytes a b cc d c hc
        simp only [beq_eq_false_iff_ne, ne_eq]
        omega
    | none =>
      simp only []
      cases h6 : canonicalizeIPv6Address h with
      | some out =>
        simp only []
        left
        obtain ⟨interior, hsh, hval⟩ := canonicalizeIPv6Address_bytes h out h6
        refine ⟨interior, hsh, ?_⟩
        intro c hc
        have := (validIPv6Char_facts c (hval c hc)).2.2.1
        simp only [beq_eq_false_iff_ne, ne_eq]
        exact this
      | none =>
        rw [h4] at hs
        simp only [] at hs
        rw [h6] at hs
        simp only [] at hs
        right
        have hall := (hostWalk_flag h).mp hs
        rw [hostWalk_out h hall]
        constructor
        · cases hh : h with
          | nil => exact absurd hh h0
          | cons b t =>
            simp only [List.map_cons, List.headD_cons]
            have := (hostByteOK_iff b).mp (hall b (by rw [hh]; exact List.mem_cons_self _ _))
            unfold toLowerASCII
            split_ifs <;> omega
        · intro c hc
          obtain ⟨b, hb, hbe⟩ := List.mem_map.mp hc
          have hbok := (hostByteOK_iff b).mp (hall b hb)
          rw [← hbe]
          unfold toLowerASCII
          simp only [beq_eq_false_iff_ne, ne_eq]
          split_ifs <;> omega

/-! ## Body parse inversion -/

/-- Parsing back a rendered body: authority, slash-led path, optional
query and ref split exactly as they were rendered. -/
theorem parseNoSlashDrop_inv (auth pa qtail rtail : List Nat)
    (hauth : ∀ c ∈ auth, isAuthorityTerminator c = false)
    (hpa0 : ∃ x, pa = 0x2f :: x)
    (hpab : ∀ c ∈ pa, c ≠ 0x3f ∧ c ≠ 0x23)
    (hq : qtail = [] ∨ ∃ qb, qtail = 0x3f :: qb ∧ ∀ c ∈ qb, (c == 0x23) = false)
    (hr : rtail = [] ∨ ∃ rb, rtail = 0x23 :: rb) :
    parseNoSlashDrop (auth ++ pa ++ qtail ++ rtail) =
      { auth := auth, path := pa,
        query := if qtail = [] then Option.none else some (qtail.drop 1),
        ref := if rtail = [] then Option.none else some (rtail.drop 1) } := by
  obtain ⟨pax, hpax⟩ := hpa0
  unfold parseNoSlashDrop
  rw [show auth ++ pa ++ qtail ++ rtail = auth ++ (pa ++ qtail ++ rtail) from by simp]
  rw [spanNotB_append _ auth (pa ++ qtail ++ rtail) hauth (fun _ => by
    rw [show (pa ++ qtail ++ rtail).headD 0 = 0x2f from by rw [hpax]; rfl]
    rfl)]
  simp only []
  rw [show pa ++ qtail ++ rtail = pa ++ (qtail ++ rtail) from by simp]
  rw [spanNotB_append _ pa (qtail ++ rtail)
    (fun c hc => by
      have := hpab c hc
      simp only [Bool.or_eq_false_iff, beq_eq_false_iff_ne, ne_eq]
      exact this)
    (fun hne => by
      rcases hq with hq0 | ⟨qb, hqb, _⟩
      · rcases hr with hr0 | ⟨rb, hrb⟩
        · rw [hq0, hr0] at hne
          exact absurd rfl hne
        · rw [hq0, hrb]
          rfl
      · rw [hqb]
        rfl)]
  simp only []
  rcases hq with hq0 | ⟨qb, hqb, hqfree⟩
  · subst hq0
    simp only [List.nil_append]
    rcases hr with hr0 | ⟨rb, hrb⟩
    · subst hr0
      rfl
    · subst hrb
      rw [show parseQueryRef (0x23 :: rb) = (Option.none, some rb) from by
        unfold parseQueryRef
        rw [if_neg (by simp), if_pos (by simp)]
        rfl]
      rw [if_neg (List.cons_ne_nil _ _)]
      rfl
  · subst hqb
    rw [show parseQueryRef ((0x3f :: qb) ++ rtail) = (some qb,
      if rtail = [] then Option.none else some (rtail.drop 1)) from by
      unfold parseQueryRef
      rw [if_pos (by simp)]
      simp only []
      rw [show ((0x3f :: qb) ++ rtail).drop 1 = qb ++ rtail from rfl]
      rw [spanNotB_append _ qb rtail hqfree (fun hne => by
        rcases hr with hr0 | ⟨rb, hrb⟩
        · exact absurd hr0 hne
        · rw [hrb]
          rfl)]]
    rw [if_neg (List.cons_ne_nil _ _)]
    rfl

/-! ## Render shapes -/

theorem renderQuery_shape (q : Option (List Nat)) (h : (renderQuery q).1 = true) :
    (renderQuery q).2 = [] ∨
    ∃ qb, (renderQuery q).2 = 0x3f :: qb ∧ (∀ c ∈ qb, (c == 0x23) = false) ∧
      renderQuery (some qb) = (true, 0x3f :: qb) := by
  cases q with
  | none => exact Or.inl rfl
  | some body =>
    right
    refine ⟨(canonQueryBody body).2, rfl, ?_, ?_⟩
    · intro c hc
      exact (canonQueryBody_byteclass body h c hc).1
    · show ((canonQueryBody ((canonQueryBody body).2)).1,
        0x3f :: (canonQueryBody ((canonQueryBody body).2)).2) = _
      rw [canonQueryBody_stable body h]

theorem renderRef_shape (r : Option (List Nat)) (h : (renderRef r).1 = true) :
    (renderRef r).2 = [] ∨
    ∃ rb, (renderRef r).2 = 0x23 :: rb ∧ renderRef (some rb) = (true, 0x23 :: rb) := by
  cases r with
  | none => exact Or.inl rfl
  | some body =>
    right
    refine ⟨(canonRefBody body).2, rfl, ?_⟩
    show ((canonRefBody ((canonRefBody body).2)).1,
      0x23 :: (canonRefBody ((canonRefBody body).2)).2) = _
    rw [canonRefBody_stable body h]

theorem renderUserinfo_shape (user pass : List Nat)
    (h : (renderUserinfo user pass).1 = true) :
    (renderUserinfo user pass).2 = [] ∨
    ∃ U, (renderUserinfo user pass).2 = U ++ [0x40] ∧
      (∀ c ∈ U, (c == 0x40) = false ∧ isAuthorityTerminator c = false) ∧
      renderUserinfo ((spanNotB (fun c => c == 0x3a) U).1)
        ((spanNotB (fun c => c == 0x3a) U).2.drop 1) =
        (true, (renderUserinfo user pass).2) := by
  unfold renderUserinfo at h ⊢
  split_ifs at h ⊢ with hboth hpe
  · exact Or.inl rfl
  · simp only [Bool.and_true] at h
    right
    have huser_ne : user ≠ [] := fun hue => hboth ⟨hue, hpe⟩
    have hout_ne := canonUserinfoPart_ne_nil user huser_ne
    have hcolonfree : ∀ c ∈ (canonUserinfoPart user).2,
        ((fun c => c == 0x3a) c) = false := fun c hc =>
      (canonUserinfoPart_byteclass user h c hc).2.1
    refine ⟨(canonUserinfoPart user).2, by simp, ?_, ?_⟩
    · intro c hc
      have := canonUserinfoPart_byteclass user h c hc
      exact ⟨this.1, this.2.2.1⟩
    · rw [spanNotB_all _ _ hcolonfree]
      simp [hout_ne, canonUserinfoPart_stable user h]
  · simp only [Bool.and_eq_true] at h
    obtain ⟨hu, hp⟩ := h
    right
    have hpass_ne := canonUserinfoPart_ne_nil pass hpe
    have hcolonfree : ∀ c ∈ (canonUserinfoPart user).2,
        ((fun c => c == 0x3a) c) = false := fun c hc =>
      (canonUserinfoPart_byteclass user hu c hc).2.1
    refine ⟨(canonUserinfoPart user).2 ++ 0x3a :: (canonUserinfoPart pass).2,
      by simp, ?_, ?_⟩
    · intro c hc
      rcases List.mem_append.mp hc with he | he
      · have := canonUserinfoPart_byteclass user hu c he
        exact ⟨this.1, this.2.2.1⟩
      · rcases List.mem_cons.mp he with he2 | he2
        · subst he2
          exact ⟨by decide, by decide⟩
        · have := canonUserinfoPart_byteclass pass hp c he2
          exact ⟨this.1, this.2.2.1⟩
    · rw [spanNotB_append _ _ (0x3a :: (canonUserinfoPart pass).2) hcolonfree (fun _ => rfl)]
      simp [hpass_ne, canonUserinfoPart_stable user hu,
        canonUserinfoPart_stable pass hp]

/-! ## Authority of a rendered body -/

/-- Parsing the rendered authority recovers its pieces: the userinfo
bytes end at the at-sign, the host is whole, and a rendered port sits
after its colon. -/
theorem parseAuthority_render (uibytes hb pt : List Nat)
    (hui : uibytes = [] ∨ ∃ U, uibytes = U ++ [0x40] ∧ ∀ c ∈ U, (c == 0x40) = false)
    (hhb : ∀ c ∈ hb, (c == 0x40) = false)
    (hshape : (∃ interior, hb = 0x5b :: interior ++ [0x5d] ∧
        ∀ c ∈ interior, (c == 0x5d) = false) ∨
      (hb.headD 0 ≠ 0x5b ∧ ∀ c ∈ hb, (c == 0x3a) = false))
    (hpt : pt = [] ∨ ∃ n : Nat, pt = 0x3a :: decRepr n) :
    (parseAuthority (uibytes ++ hb ++ pt)).user =
      (spanNotB (fun c => c == 0x3a) uibytes.dropLast).1 ∧
    (parseAuthority (uibytes ++ hb ++ pt)).pass =
      ((spanNotB (fun c => c == 0x3a) uibytes.dropLast).2).drop 1 ∧
    (parseAuthority (uibytes ++ hb ++ pt)).host = hb ∧
    (parseAuthority (uibytes ++ hb ++ pt)).port =
      (if pt = [] then Option.none else some (pt.drop 1)) := by
  have hptc : pt ≠ [] → pt.headD 0 = 0x3a := by
    rcases hpt with he | ⟨n, he⟩
    · intro hne
      exact absurd he hne
    · intro _
      rw [he]
      rfl
  have hptat : ∀ c ∈ pt, (c == 0x40) = false := by
    rcases hpt with he | ⟨n, he⟩
    · subst he
      intro c hcm
      exact absurd hcm (List.not_mem_nil c)
    · subst he
      intro c hcm
      rcases List.mem_cons.mp hcm with he2 | he2
      · subst he2
        decide
      · have := decRepr_bytes n c he2
        simp only [beq_eq_false_iff_ne, ne_eq]
        omega
  have hhpat : ∀ c ∈ hb ++ pt, (c == 0x40) = false := by
    intro c hcm
    rcases List.mem_append.mp hcm with he | he
    · exact hhb c he
    · exact hptat c he
  have hHP : ∀ uinfo : List Nat,
      (parseAuthorityHP uinfo (hb ++ pt)).host = hb ∧
      (parseAuthorityHP uinfo (hb ++ pt)).port =
        (if pt = [] then Option.none else some (pt.drop 1)) := by
    intro uinfo
    rcases hshape with ⟨interior, hbe, hint⟩ | ⟨hh1, hh2⟩
    · subst hbe
      exact parseAuthorityHP_bracket uinfo interior pt hint hptc
    · exact parseAuthorityHP_plain uinfo hb pt hh1 hh2 hptc
  rcases hui with he | ⟨U, he, hU⟩
  · subst he
    simp only [List.nil_append]
    rw [parseAuthority_noat _ hhpat]
    refine ⟨?_, ?_, (hHP []).1, (hHP []).2⟩
    · rw [(parseAuthorityHP_userinfo [] (hb ++ pt)).1]
      rfl
    · rw [(parseAuthorityHP_userinfo [] (hb ++ pt)).2]
      rfl
  · subst he
    rw [show (U ++ [0x40]) ++ hb ++ pt = U ++ 0x40 :: (hb ++ pt) from by simp]
    rw [parseAuthority_at U (hb ++ pt) hhpat]
    refine ⟨?_, ?_, (hHP U).1, (hHP U).2⟩
    · rw [(parseAuthorityHP_userinfo U (hb ++ pt)).1]
      simp
    · rw [(parseAuthorityHP_userinfo U (hb ++ pt)).2]
      simp

/-! ## Reassembling a rendered standard body -/

/-- Re-parsing and re-canonicalizing the concatenated canonical
components of a standard body reproduces them byte for byte. -/
theorem canonBody_reassemble (dp : List Nat → Int) (so : List Nat)
    (U2 H2 P2 PA2 Q2 R2 : List Nat)
    (hU : U2 = [] ∨ ∃ U, U2 = U ++ [0x40] ∧
      (∀ c ∈ U, (c == 0x40) = false ∧ isAuthorityTerminator c = false) ∧
      renderUserinfo ((spanNotB (fun c => c == 0x3a) U).1)
        ((spanNotB (fun c => c == 0x3a) U).2.drop 1) = (true, U2))
    (hH1 : ∀ c ∈ H2, (c == 0x40) = false ∧ isAuthorityTerminator c = false)
    (hHs : (∃ interior, H2 = 0x5b :: interior ++ [0x5d] ∧
        ∀ c ∈ interior, (c == 0x5d) = false) ∨
      (H2.headD 0 ≠ 0x5b ∧ ∀ c ∈ H2, (c == 0x3a) = false))
    (hH3 : canonHost H2 = (true, H2))
    (hP : P2 = [] ∨ ∃ n : Nat, n ≤ 65535 ∧ (n : Int) ≠ dp so ∧ P2 = 0x3a :: decRepr n)
    (hPA1 : ∃ x, PA2 = 0x2f :: x)
    (hPA2 : ∀ c ∈ PA2, c ≠ 0x3f ∧ c ≠ 0x23)
    (hPA3 : canonPath PA2 = (true, PA2))
    (hQ : Q2 = [] ∨ ∃ qb, Q2 = 0x3f :: qb ∧ (∀ c ∈ qb, (c == 0x23) = false) ∧
      renderQuery (some qb) = (true, Q2))
    (hR : R2 = [] ∨ ∃ rb, R2 = 0x23 :: rb ∧ renderRef (some rb) = (true, R2)) :
    canonFromParts canonPath canonHost dp so
      (parseNoSlashDrop ((U2 ++ H2 ++ P2) ++ PA2 ++ Q2 ++ R2)) =
      (true, [0x2f, 0x2f] ++ U2 ++ H2 ++ P2 ++ PA2 ++ Q2 ++ R2) := by
  have hauth : ∀ c ∈ U2 ++ H2 ++ P2, isAuthorityTerminator c = false := by
    intro c hcm
    rcases List.mem_append.mp hcm with hcm1 | hcm3
    · rcases List.mem_append.mp hcm1 with hcm1 | hcm2
      · rcases hU with he | ⟨U, he, hUb, _⟩
        · subst he
          exact absurd hcm1 (List.not_mem_nil c)
        · subst he
          rcases List.mem_append.mp hcm1 with hcm | hcm
          · exact (hUb c hcm).2
          · rw [List.mem_singleton.mp hcm]
            decide
      · exact (hH1 c hcm2).2
    · rcases hP with he | ⟨n, _, _, he⟩
      · subst he
        exact absurd hcm3 (List.not_mem_nil c)
      · subst he
        rcases List.mem_cons.mp hcm3 with hcm | hcm
        · subst hcm
          decide
        · have := decRepr_bytes n c hcm
          unfold isAuthorityTerminator isURLSlash
          simp only [Bool.or_eq_false_iff, beq_eq_false_iff_ne, ne_eq]
          omega
  have hqinv : Q2 = [] ∨ ∃ qb, Q2 = 0x3f :: qb ∧ ∀ c ∈ qb, (c == 0x23) = false := by
    rcases hQ with he | ⟨qb, he, hqb, _⟩
    · exact Or.inl he
    · exact Or.inr ⟨qb, he, hqb⟩
  have hrinv : R2 = [] ∨ ∃ rb, R2 = 0x23 :: rb := by
    rcases hR with he | ⟨rb, he, _⟩
    · exact Or.inl he
    · exact Or.inr ⟨rb, he⟩
  rw [parseNoSlashDrop_inv (U2 ++ H2 ++ P2) PA2 Q2 R2 hauth hPA1 hPA2 hqinv hrinv]
  have huiat : U2 = [] ∨ ∃ U, U2 = U ++ [0x40] ∧ ∀ c ∈ U, (c == 0x40) = false := by
    rcases hU with he | ⟨U, he, hUb, _⟩
    · exact Or.inl he
    · exact Or.inr ⟨U, he, fun c hc => (hUb c hc).1⟩
  have hptform : P2 = [] ∨ ∃ n : Nat, P2 = 0x3a :: decRepr n := by
    rcases hP with he | ⟨n, _, _, he⟩
    · exact Or.inl he
    · exact Or.inr ⟨n, he⟩
  obtain ⟨hu', hp', hh', hpo'⟩ := parseAuthority_render U2 H2 P2 huiat
    (fun c hc => (hH1 c hc).1) hHs hptform
  have e1 : renderUserinfo ((spanNotB (fun c => c == 0x3a) U2.dropLast).1)
      (((spanNotB (fun c => c == 0x3a) U2.dropLast).2).drop 1) = (true, U2) := by
    rcases hU with he | ⟨U, he, _, hre⟩
    · subst he
      rfl
    · subst he
      have hdl : List.dropLast (U ++ [0x40]) = U := by simp
      rw [hdl]
      exact hre
  have e3 : renderPort dp so (if P2 = [] then Option.none else some (P2.drop 1)) =
      (true, P2) := by
    rcases hP with he | ⟨n, hn, hd, he⟩
    · subst he
      rfl
    · subst he
      rw [if_neg (List.cons_ne_nil _ _)]
      rw [show ((0x3a :: decRepr n).drop 1) = decRepr n from rfl]
      exact renderPort_stable dp so n hn hd
  have e5 : renderQuery (if Q2 = [] then Option.none else some (Q2.drop 1)) =
      (true, Q2) := by
    rcases hQ with he | ⟨qb, he, _, hre⟩
    · subst he
      rfl
    · subst he
      rw [if_neg (List.cons_ne_nil _ _)]
      rw [show ((0x3f :: qb).drop 1) = qb from rfl]
      exact hre
  have e6 : renderRef (if R2 = [] then Option.none else some (R2.drop 1)) =
      (true, R2) := by
    rcases hR with he | ⟨rb, he, hre⟩
    · subst he
      rfl
    · subst he
      rw [if_neg (List.cons_ne_nil _ _)]
      rw [show ((0x23 :: rb).drop 1) = rb from rfl]
      exact hre
  simp only [canonFromParts]
  rw [hu', hp', hh', hpo']
  rw [e1, hH3, e3, hPA3, e5, e6]
  rfl

/-! ## Head and emptiness facts for the authority reparse -/

theorem isURLSlash_false_of_notTerm (c : Nat) (h : isAuthorityTerminator c = false) :
    isURLSlash c = false := by
  unfold isAuthorityTerminator at h
  simp only [Bool.or_eq_false_iff] at h
  exact h.1.1

theorem dropWhile_noop (p : Nat → Bool) (l : List Nat) (h : p (l.headD 0) = false) :
    l.dropWhile p = l := by
  cases l with
  | nil => rfl
  | cons c t =>
    rw [List.dropWhile_cons]
    rw [List.headD_cons] at h
    simp [h]

/-- A successful host canonicalization never produces empty bytes. -/
theorem canonHost_ne_nil (h : List Nat) (hs : (canonHost h).1 = true) :
    (canonHost h).2 ≠ [] := by
  unfold canonHost at hs ⊢
  by_cases h0 : h = []
  · rw [if_pos h0] at hs
    exact absurd hs (by simp)
  · rw [if_neg h0] at hs ⊢
    cases h4 : canonicalizeIPv4Address h with
    | some out =>
      simp only []
      obtain ⟨a, b, cc, d, _, _, _, _, hsh⟩ := canonicalizeIPv4Address_shape h out h4
      rw [hsh]
      unfold appendIPv4Address
      obtain ⟨x, t0, hct⟩ : ∃ x t0, decRepr a = x :: t0 := by
        cases hd : decRepr a with
        | nil => exact absurd hd (decRepr_ne_nil a)
        | cons x y => exact ⟨x, y, rfl⟩
      rw [hct]
      simp
    | none =>
      simp only []
      cases h6 : canonicalizeIPv6Address h with
      | some out =>
        simp only []
        obtain ⟨interior, hsh, _⟩ := canonicalizeIPv6Address_bytes h out h6
        rw [hsh]
        exact List.cons_ne_nil _ _
      | none =>
        rw [h4] at hs
        simp only [] at hs
        rw [h6] at hs
        simp only [] at hs
        have hall := (hostWalk_flag h).mp hs
        rw [hostWalk_out h hall]
        simp [h0]

/-! ## Standard body stability -/

/-- Re-parsing and re-canonicalizing a successful standard body output
reproduces it byte for byte. -/
theorem canonFromParts_stable (dp : List Nat → Int) (so : List Nat) (sp : StdParts)
    (h : (canonFromParts canonPath canonHost dp so sp).1 = true) :
    canonFromParts canonPath canonHost dp so
      (parseAfterScheme ((canonFromParts canonPath canonHost dp so sp).2)) =
      (true, (canonFromParts canonPath canonHost dp so sp).2) := by
  have hflags : (renderUserinfo (parseAuthority sp.auth).user
        (parseAuthority sp.auth).pass).1 = true ∧
      (canonHost (parseAuthority sp.auth).host).1 = true ∧
      (renderPort dp so (parseAuthority sp.auth).port).1 = true ∧
      (canonPath sp.path).1 = true ∧
      (renderQuery sp.query).1 = true ∧ (renderRef sp.ref).1 = true := by
    have h2 := h
    simp only [canonFromParts, Bool.and_eq_true] at h2
    exact ⟨h2.1.1.1.1.1, h2.1.1.1.1.2, h2.1.1.1.2, h2.1.1.2, h2.1.2, h2.2⟩
  obtain ⟨hui, hh, hpr, hpa, hq, hr⟩ := hflags
  have hUs := renderUserinfo_shape _ _ hui
  have hH1 := canonHost_bytes _ hh
  have hHs := canonHost_split_shape _ hh
  have hH3 := canonHost_stable _ hh
  have hH2ne := canonHost_ne_nil _ hh
  have hPs := renderPort_shape dp so _ hpr
  have hPA1 := canonPath_head sp.path
  have hPA2 : ∀ c ∈ (canonPath sp.path).2, c ≠ 0x3f ∧ c ≠ 0x23 :=
    fun c hc => ⟨(canonPath_bytes sp.path hpa c hc).1,
      (canonPath_bytes sp.path hpa c hc).2.1⟩
  have hPA3 := canonPath_stable sp.path hpa
  have hQs := renderQuery_shape sp.query hq
  have hRs := renderRef_shape sp.ref hr
  have hout : (canonFromParts canonPath canonHost dp so sp).2 =
      [0x2f, 0x2f] ++
        (renderUserinfo (parseAuthority sp.auth).user (parseAuthority sp.auth).pass).2 ++
        (canonHost (parseAuthority sp.auth).host).2 ++
        (renderPort dp so (parseAuthority sp.auth).port).2 ++
        (canonPath sp.path).2 ++ (renderQuery sp.query).2 ++ (renderRef sp.ref).2 := rfl
  rw [hout]
  generalize hg1 : (renderUserinfo (parseAuthority sp.auth).user
    (parseAuthority sp.auth).pass).2 = U2 at hUs ⊢
  generalize hg2 : (canonHost (parseAuthority sp.auth).host).2 = H2
    at hH1 hHs hH3 hH2ne ⊢
  generalize hg3 : (renderPort dp so (parseAuthority sp.auth).port).2 = P2 at hPs ⊢
  generalize hg4 : (canonPath sp.path).2 = PA2 at hPA1 hPA2 hPA3 ⊢
  generalize hg5 : (renderQuery sp.query).2 = Q2 at hQs ⊢
  generalize hg6 : (renderRef sp.ref).2 = R2 at hRs ⊢
  have hheadA : isURLSlash (((U2 ++ H2 ++ P2) ++ PA2 ++ Q2 ++ R2).headD 0) = false := by
    rcases hUs with hU2nil | ⟨U, hU2eq, hUb, _⟩
    · rw [hU2nil]
      simp only [List.nil_append]
      cases hH2c : H2 with
      | nil => exact absurd hH2c hH2ne
      | cons c t =>
        simp only [List.cons_append, List.headD_cons]
        have := (hH1 c (by rw [hH2c]; exact List.mem_cons_self _ _)).2
        exact isURLSlash_false_of_notTerm c this
    · rw [hU2eq]
      cases U with
      | nil =>
        simp only [List.nil_append, List.cons_append, List.headD_cons]
        decide
      | cons c t =>
        simp only [List.cons_append, List.headD_cons]
        have := (hUb c (List.mem_cons_self _ _)).2
        exact isURLSlash_false_of_notTerm c this
  have hA : ([0x2f, 0x2f] : List Nat) ++ U2 ++ H2 ++ P2 ++ PA2 ++ Q2 ++ R2 =
      0x2f :: 0x2f :: ((U2 ++ H2 ++ P2) ++ PA2 ++ Q2 ++ R2) := by
    simp only [List.append_assoc, List.cons_append, List.nil_append]
  have hdw : (([0x2f, 0x2f] : List Nat) ++ U2 ++ H2 ++ P2 ++ PA2 ++ Q2 ++
      R2).dropWhile isURLSlash = (U2 ++ H2 ++ P2) ++ PA2 ++ Q2 ++ R2 := by
    rw [hA]
    rw [show ((0x2f :: 0x2f :: ((U2 ++ H2 ++ P2) ++ PA2 ++ Q2 ++
        R2)).dropWhile isURLSlash) =
      (((U2 ++ H2 ++ P2) ++ PA2 ++ Q2 ++ R2).dropWhile isURLSlash) from rfl]
    exact dropWhile_noop _ _ hheadA
  rw [show parseAfterScheme (([0x2f, 0x2f] : List Nat) ++ U2 ++ H2 ++ P2 ++ PA2 ++
      Q2 ++ R2) = parseNoSlashDrop ((U2 ++ H2 ++ P2) ++ PA2 ++ Q2 ++ R2) from by
    unfold parseAfterScheme
    rw [hdw]]
  have hQs2 : Q2 = [] ∨ ∃ qb, Q2 = 0x3f :: qb ∧ (∀ c ∈ qb, (c == 0x23) = false) ∧
      renderQuery (some qb) = (true, Q2) := by
    rcases hQs with he | ⟨qb, he, hb, hre⟩
    · exact Or.inl he
    · exact Or.inr ⟨qb, he, hb, by rw [he]; exact hre⟩
  have hRs2 : R2 = [] ∨ ∃ rb, R2 = 0x23 :: rb ∧ renderRef (some rb) = (true, R2) := by
    rcases hRs with he | ⟨rb, he, hre⟩
    · exact Or.inl he
    · exact Or.inr ⟨rb, he, by rw [he]; exact hre⟩
  exact canonBody_reassemble dp so U2 H2 P2 PA2 Q2 R2 hUs hH1 hHs hH3 hPs hPA1
    hPA2 hPA3 hQs2 hRs2

/-- Standard-strategy body stability. -/
theorem canonAuthorityBody_stable (dp : List Nat → Int) (so rest : List Nat)
    (h : (canonAuthorityBody dp so rest).1 = true) :
    canonAuthorityBody dp so ((canonAuthorityBody dp so rest).2) =
      (true, (canonAuthorityBody dp so rest).2) := by
  unfold canonAuthorityBody at h ⊢
  exact canonFromParts_stable dp so (parseAfterScheme rest) h

/-! ## File body stability: helpers -/

theorem parseQueryRef_render (Q2 R2 : List Nat)
    (hQ : Q2 = [] ∨ ∃ qb, Q2 = 0x3f :: qb ∧ ∀ c ∈ qb, (c == 0x23) = false)
    (hR : R2 = [] ∨ ∃ rb, R2 = 0x23 :: rb) :
    parseQueryRef (Q2 ++ R2) =
      (if Q2 = [] then Option.none else some (Q2.drop 1),
       if R2 = [] then Option.none else some (R2.drop 1)) := by
  rcases hQ with hq0 | ⟨qb, hqe, hqb⟩
  · subst hq0
    simp only [List.nil_append]
    rcases hR with hr0 | ⟨rb, hre⟩
    · subst hr0
      rfl
    · subst hre
      unfold parseQueryRef
      rw [if_neg (by simp)]
      rw [if_pos ⟨by simp, List.cons_ne_nil _ _⟩]
      simp
  · subst hqe
    unfold parseQueryRef
    simp only [List.cons_append, List.headD_cons]
    rw [if_pos trivial]
    rw [show ((0x3f :: (qb ++ R2)).drop 1) = qb ++ R2 from rfl]
    have hRhead : R2 ≠ [] → ((fun c => c == 0x23) (R2.headD 0)) = true := by
      rcases hR with hr0 | ⟨rb, hre⟩
      · intro hne
        exact absurd hr0 hne
      · intro _
        rw [hre]
        rfl
    rw [spanNotB_append _ qb R2 hqb hRhead]
    rcases hR with hr0 | ⟨rb, hre⟩
    · subst hr0
      simp
    · subst hre
      simp

/-- A canonical host never contains a pipe. -/
theorem canonHost_no_pipe (h : List Nat) (hs : (canonHost h).1 = true) :
    ∀ c ∈ (canonHost h).2, (c == 0x7c) = false := by
  unfold canonHost at hs ⊢
  by_cases h0 : h = []
  · rw [if_pos h0] at hs
    exact absurd hs (by simp)
  · rw [if_neg h0] at hs ⊢
    cases h4 : canonicalizeIPv4Address h with
    | some out =>
      simp only []
      intro c hc
      obtain ⟨a, b, cc, d, _, _, _, _, hsh⟩ := canonicalizeIPv4Address_shape h out h4
      rw [hsh] at hc
      have := appendIPv4Address_bytes a b cc d c hc
      simp only [beq_eq_false_iff_ne, ne_eq]
      omega
    | none =>
      simp only []
      cases h6 : canonicalizeIPv6Address h with
      | some out =>
        simp only []
        intro c hc
        obtain ⟨interior, hsh, hval⟩ := canonicalizeIPv6Address_bytes h out h6
        rw [hsh] at hc
        rcases List.mem_cons.mp hc with he | he
        · subst he
          decide
        · rcases List.mem_append.mp he with he2 | he2
          · have hv := hval c he2
            unfold validIPv6Char isHexChar at hv
            simp only [Bool.or_eq_true, Bool.and_eq_true, decide_eq_true_eq,
              beq_iff_eq] at hv
            simp only [beq_eq_false_iff_ne, ne_eq]
            omega
          · rw [List.mem_singleton.mp he2]
            decide
      | none =>
        rw [h4] at hs
        simp only [] at hs
        rw [h6] at hs
        simp only [] at hs
        have hall := (hostWalk_flag h).mp hs
        rw [hostWalk_out h hall]
        intro c hc
        obtain ⟨b, hb, hbe⟩ := List.mem_map.mp hc
        have hbok := (hostByteOK_iff b).mp (hall b hb)
        rw [← hbe]
        unfold toLowerASCII
        simp only [beq_eq_false_iff_ne, ne_eq]
        split_ifs <;> omega

theorem takeWhile_nil_of_headD (p : Nat → Bool) (l : List Nat)
    (h : p (l.headD 0) = false) : l.takeWhile p = [] := by
  cases l with
  | nil => rfl
  | cons c t =>
    rw [List.takeWhile_cons]
    rw [List.headD_cons] at h
    simp [h]

theorem countConsecutiveSlashes_two (A : List Nat)
    (h : isURLSlash (A.headD 0) = false) :
    countConsecutiveSlashes (0x2f :: 0x2f :: A) = 2 := by
  unfold countConsecutiveSlashes
  rw [List.takeWhile_cons, List.takeWhile_cons]
  rw [show (isURLSlash 0x2f) = true from rfl]
  simp only [if_pos rfl]
  rw [takeWhile_nil_of_headD _ _ h]
  rfl

theorem countConsecutiveSlashes_three (Y : List Nat) :
    countConsecutiveSlashes (0x2f :: 0x2f :: 0x2f :: Y) =
      3 + countConsecutiveSlashes Y := by
  unfold countConsecutiveSlashes
  simp [List.takeWhile_cons, show isURLSlash 0x2f = true from rfl]
  omega

theorem renderQuery_roundtrip (Q2 : List Nat)
    (hQ : Q2 = [] ∨ ∃ qb, Q2 = 0x3f :: qb ∧ (∀ c ∈ qb, (c == 0x23) = false) ∧
      renderQuery (some qb) = (true, Q2)) :
    renderQuery (if Q2 = [] then Option.none else some (Q2.drop 1)) = (true, Q2) := by
  rcases hQ with he | ⟨qb, he, _, hre⟩
  · subst he
    rfl
  · subst he
    rw [if_neg (List.cons_ne_nil _ _)]
    rw [show ((0x3f :: qb).drop 1) = qb from rfl]
    exact hre

theorem renderRef_roundtrip (R2 : List Nat)
    (hR : R2 = [] ∨ ∃ rb, R2 = 0x23 :: rb ∧ renderRef (some rb) = (true, R2)) :
    renderRef (if R2 = [] then Option.none else some (R2.drop 1)) = (true, R2) := by
  rcases hR with he | ⟨rb, he, hre⟩
  · subst he
    rfl
  · subst he
    rw [if_neg (List.cons_ne_nil _ _)]
    rw [show ((0x23 :: rb).drop 1) = rb from rfl]
    exact hre

/-- Reassembling the canonical host, path, query and ref of a file
authority reproduces them. -/
theorem fileAuth_reassemble (H2 PA2 Q2 R2 : List Nat)
    (hH1 : ∀ c ∈ H2, (c == 0x40) = false ∧ isAuthorityTerminator c = false)
    (hHs : (∃ interior, H2 = 0x5b :: interior ++ [0x5d] ∧
        ∀ c ∈ interior, (c == 0x5d) = false) ∨
      (H2.headD 0 ≠ 0x5b ∧ ∀ c ∈ H2, (c == 0x3a) = false))
    (hH3 : canonFileHost H2 = (true, H2))
    (hPA1 : ∃ x, PA2 = 0x2f :: x)
    (hPA2 : ∀ c ∈ PA2, c ≠ 0x3f ∧ c ≠ 0x23)
    (hPA3 : canonPath PA2 = (true, PA2))
    (hQ : Q2 = [] ∨ ∃ qb, Q2 = 0x3f :: qb ∧ (∀ c ∈ qb, (c == 0x23) = false) ∧
      renderQuery (some qb) = (true, Q2))
    (hR : R2 = [] ∨ ∃ rb, R2 = 0x23 :: rb ∧ renderRef (some rb) = (true, R2)) :
    canonFileAuthBody (parseNoSlashDrop (H2 ++ PA2 ++ Q2 ++ R2)) =
      (true, [0x2f, 0x2f] ++ H2 ++ PA2 ++ Q2 ++ R2) := by
  have hauth : ∀ c ∈ H2, isAuthorityTerminator c = false := fun c hc => (hH1 c hc).2
  have hqinv : Q2 = [] ∨ ∃ qb, Q2 = 0x3f :: qb ∧ ∀ c ∈ qb, (c == 0x23) = false := by
    rcases hQ with he | ⟨qb, he, hqb, _⟩
    · exact Or.inl he
    · exact Or.inr ⟨qb, he, hqb⟩
  have hrinv : R2 = [] ∨ ∃ rb, R2 = 0x23 :: rb := by
    rcases hR with he | ⟨rb, he, _⟩
    · exact Or.inl he
    · exact Or.inr ⟨rb, he⟩
  rw [parseNoSlashDrop_inv H2 PA2 Q2 R2 hauth hPA1 hPA2 hqinv hrinv]
  have hpar := parseAuthority_render [] H2 [] (Or.inl rfl)
    (fun c hc => (hH1 c hc).1) hHs (Or.inl rfl)
  rw [show ([] : List Nat) ++ H2 ++ [] = H2 from by simp] at hpar
  obtain ⟨_, _, hh', _⟩ := hpar
  simp only [canonFileAuthBody]
  rw [hh', hH3, hPA3, renderQuery_roundtrip Q2 hQ, renderRef_roundtrip R2 hR]
  rfl

/-- Reassembling a local file body from its canonical path, query and
ref reproduces them. -/
theorem fileLocal_reassemble (x Q2 R2 : List Nat)
    (hx : ∀ c ∈ x, c ≠ 0x3f ∧ c ≠ 0x23)
    (hPA3 : canonPath (0x2f :: x) = (true, 0x2f :: x))
    (hQ : Q2 = [] ∨ ∃ qb, Q2 = 0x3f :: qb ∧ (∀ c ∈ qb, (c == 0x23) = false) ∧
      renderQuery (some qb) = (true, Q2))
    (hR : R2 = [] ∨ ∃ rb, R2 = 0x23 :: rb ∧ renderRef (some rb) = (true, R2)) :
    canonFileLocalBody (x ++ Q2 ++ R2) =
      (true, [0x2f, 0x2f] ++ (0x2f :: x) ++ Q2 ++ R2) := by
  have hqinv : Q2 = [] ∨ ∃ qb, Q2 = 0x3f :: qb ∧ ∀ c ∈ qb, (c == 0x23) = false := by
    rcases hQ with he | ⟨qb, he, hqb, _⟩
    · exact Or.inl he
    · exact Or.inr ⟨qb, he, hqb⟩
  have hrinv : R2 = [] ∨ ∃ rb, R2 = 0x23 :: rb := by
    rcases hR with he | ⟨rb, he, _⟩
    · exact Or.inl he
    · exact Or.inr ⟨rb, he⟩
  simp only [canonFileLocalBody]
  rw [show x ++ Q2 ++ R2 = x ++ (Q2 ++ R2) from by simp]
  have hxb : ∀ c ∈ x, ((fun c => c == 0x3f || c == 0x23) c) = false := by
    intro c hc
    simp only [Bool.or_eq_false_iff, beq_eq_false_iff_ne, ne_eq]
    exact hx c hc
  have hqr_head : (Q2 ++ R2) ≠ [] →
      ((fun c => c == 0x3f || c == 0x23) ((Q2 ++ R2).headD 0)) = true := by
    intro hne
    rcases hqinv with hq0 | ⟨qb, hqe, _⟩
    · subst hq0
      simp only [List.nil_append] at hne ⊢
      rcases hrinv with hr0 | ⟨rb, hre⟩
      · exact absurd hr0 hne
      · rw [hre]
        rfl
    · rw [hqe]
      rfl
  rw [spanNotB_append _ x (Q2 ++ R2) hxb hqr_head]
  simp only []
  rw [parseQueryRef_render Q2 R2 hqinv hrinv]
  simp only []
  rw [hPA3, renderQuery_roundtrip Q2 hQ, renderRef_roundtrip R2 hR]
  rfl

theorem beginsDriveSpec_nonletter (d : Nat) (w : List Nat)
    (h : isDriveLetter d = false) : beginsDriveSpec (d :: w) = false := by
  cases w with
  | nil => rfl
  | cons s t =>
    unfold beginsDriveSpec
    simp only []
    rw [h]
    rfl

theorem beginsDriveSpec_second (d s : Nat) (w : List Nat)
    (h1 : (s == 0x3a) = false) (h2 : (s == 0x7c) = false) :
    beginsDriveSpec (d :: s :: w) = false := by
  unfold beginsDriveSpec
  simp only []
  rw [h1, h2]
  simp

/-- A file body whose bytes are two slashes followed by a canonical
path, query and ref re-canonicalizes to itself, whichever dispatch
branch the reparse takes. -/
theorem fileEmpty_reparse (dp : List Nat → Int) (so : List Nat) (PA2 Q2 R2 : List Nat)
    (hPA1 : ∃ x, PA2 = 0x2f :: x)
    (hPA2 : ∀ c ∈ PA2, c ≠ 0x3f ∧ c ≠ 0x23)
    (hPA3 : canonPath PA2 = (true, PA2))
    (hQ : Q2 = [] ∨ ∃ qb, Q2 = 0x3f :: qb ∧ (∀ c ∈ qb, (c == 0x23) = false) ∧
      renderQuery (some qb) = (true, Q2))
    (hR : R2 = [] ∨ ∃ rb, R2 = 0x23 :: rb ∧ renderRef (some rb) = (true, R2)) :
    canonFileBody dp so ([0x2f, 0x2f] ++ PA2 ++ Q2 ++ R2) =
      (true, [0x2f, 0x2f] ++ PA2 ++ Q2 ++ R2) := by
  obtain ⟨x, hxe⟩ := hPA1
  subst hxe
  have hx : ∀ c ∈ x, c ≠ 0x3f ∧ c ≠ 0x23 :=
    fun c hc => hPA2 c (List.mem_cons_of_mem _ hc)
  rw [show ([0x2f, 0x2f] : List Nat) ++ (0x2f :: x) ++ Q2 ++ R2 =
      0x2f :: 0x2f :: 0x2f :: (x ++ Q2 ++ R2) from by simp]
  simp only [canonFileBody]
  by_cases hc : (countConsecutiveSlashes (0x2f :: 0x2f :: 0x2f :: (x ++ Q2 ++ R2)) = 2 ∨
      countConsecutiveSlashes (0x2f :: 0x2f :: 0x2f :: (x ++ Q2 ++ R2)) = 3) ∧
      beginsDriveSpec ((0x2f :: 0x2f :: 0x2f ::
        (x ++ Q2 ++ R2)).dropWhile isURLSlash) = false
  · rw [if_pos hc]
    rw [show ((0x2f :: 0x2f :: 0x2f :: (x ++ Q2 ++ R2)).drop 2) =
        (([] : List Nat) ++ (0x2f :: x) ++ Q2 ++ R2) from by simp]
    rw [fileAuth_reassemble [] (0x2f :: x) Q2 R2
      (fun c hc2 => absurd hc2 (List.not_mem_nil c))
      (Or.inr ⟨by decide, fun c hc2 => absurd hc2 (List.not_mem_nil c)⟩)
      rfl ⟨x, rfl⟩ hPA2 hPA3 hQ hR]
    simp
  · rw [if_neg hc]
    rw [countConsecutiveSlashes_three (x ++ Q2 ++ R2)]
    rw [show min (3 + countConsecutiveSlashes (x ++ Q2 ++ R2)) 3 = 3 from by omega]
    rw [show ((0x2f :: 0x2f :: 0x2f :: (x ++ Q2 ++ R2)).drop 3) =
        x ++ Q2 ++ R2 from rfl]
    rw [fileLocal_reassemble x Q2 R2 hx hPA3 hQ hR]
    simp

/-- A file body carrying a nonempty canonical host re-dispatches to the
host branch and re-canonicalizes to itself. -/
theorem fileHost_reparse (dp : List Nat → Int) (so : List Nat)
    (H2 PA2 Q2 R2 : List Nat)
    (hH2ne : H2 ≠ [])
    (hH1 : ∀ c ∈ H2, (c == 0x40) = false ∧ isAuthorityTerminator c = false)
    (hHs : (∃ interior, H2 = 0x5b :: interior ++ [0x5d] ∧
        ∀ c ∈ interior, (c == 0x5d) = false) ∨
      (H2.headD 0 ≠ 0x5b ∧ ∀ c ∈ H2, (c == 0x3a) = false))
    (hpipe : ∀ c ∈ H2, (c == 0x7c) = false)
    (hH3 : canonFileHost H2 = (true, H2))
    (hPA1 : ∃ x, PA2 = 0x2f :: x)
    (hPA2 : ∀ c ∈ PA2, c ≠ 0x3f ∧ c ≠ 0x23)
    (hPA3 : canonPath PA2 = (true, PA2))
    (hQ : Q2 = [] ∨ ∃ qb, Q2 = 0x3f :: qb ∧ (∀ c ∈ qb, (c == 0x23) = false) ∧
      renderQuery (some qb) = (true, Q2))
    (hR : R2 = [] ∨ ∃ rb, R2 = 0x23 :: rb ∧ renderRef (some rb) = (true, R2)) :
    canonFileBody dp so ([0x2f, 0x2f] ++ H2 ++ PA2 ++ Q2 ++ R2) =
      (true, [0x2f, 0x2f] ++ H2 ++ PA2 ++ Q2 ++ R2) := by
  rw [show ([0x2f, 0x2f] : List Nat) ++ H2 ++ PA2 ++ Q2 ++ R2 =
      0x2f :: 0x2f :: (H2 ++ PA2 ++ Q2 ++ R2) from by simp]
  have hheadA : isURLSlash ((H2 ++ PA2 ++ Q2 ++ R2).headD 0) = false := by
    cases hH2c : H2 with
    | nil => exact absurd hH2c hH2ne
    | cons c t =>
      simp only [List.cons_append, List.headD_cons]
      exact isURLSlash_false_of_notTerm c
        (hH1 c (by rw [hH2c]; exact List.mem_cons_self _ _)).2
  have hcount := countConsecutiveSlashes_two (H2 ++ PA2 ++ Q2 ++ R2) hheadA
  have hdw : ((0x2f :: 0x2f :: (H2 ++ PA2 ++ Q2 ++ R2)).dropWhile isURLSlash) =
      H2 ++ PA2 ++ Q2 ++ R2 := by
    rw [show ((0x2f :: 0x2f :: (H2 ++ PA2 ++ Q2 ++ R2)).dropWhile isURLSlash) =
      ((H2 ++ PA2 ++ Q2 ++ R2).dropWhile isURLSlash) from rfl]
    exact dropWhile_noop _ _ hheadA
  have hdrive : beginsDriveSpec (H2 ++ PA2 ++ Q2 ++ R2) = false := by
    rcases hHs with ⟨interior, hbe, _⟩ | ⟨hh1, hcolon⟩
    · rw [hbe]
      simp only [List.cons_append, List.append_assoc]
      exact beginsDriveSpec_nonletter 0x5b _ (by decide)
    · cases hH2c : H2 with
      | nil => exact absurd hH2c hH2ne
      | cons c t =>
        cases ht : t with
        | nil =>
          obtain ⟨x, hxe⟩ := hPA1
          rw [hxe]
          simp only [List.cons_append, List.nil_append, List.append_assoc]
          exact beginsDriveSpec_second c 0x2f _ (by decide) (by decide)
        | cons s t2 =>
          have hsmem : s ∈ H2 := by
            rw [hH2c, ht]
            exact List.mem_cons_of_mem _ (List.mem_cons_self _ _)
          simp only [List.cons_append]
          exact beginsDriveSpec_second c s _ (hcolon s hsmem) (hpipe s hsmem)
  simp only [canonFileBody]
  rw [if_pos ⟨Or.inl hcount, by rw [hdw]; exact hdrive⟩]
  rw [show ((0x2f :: 0x2f :: (H2 ++ PA2 ++ Q2 ++ R2)).drop 2) =
      H2 ++ PA2 ++ Q2 ++ R2 from rfl]
  rw [fileAuth_reassemble H2 PA2 Q2 R2 hH1 hHs hH3 hPA1 hPA2 hPA3 hQ hR]
  simp

theorem renderQuery_pkg (q : Option (List Nat)) (h : (renderQuery q).1 = true) :
    (renderQuery q).2 = [] ∨ ∃ qb, (renderQuery q).2 = 0x3f :: qb ∧
      (∀ c ∈ qb, (c == 0x23) = false) ∧
      renderQuery (some qb) = (true, (renderQuery q).2) := by
  rcases renderQuery_shape q h with he | ⟨qb, he, hb, hre⟩
  · exact Or.inl he
  · exact Or.inr ⟨qb, he, hb, by rw [he]; exact hre⟩

theorem renderRef_pkg (r : Option (List Nat)) (h : (renderRef r).1 = true) :
    (renderRef r).2 = [] ∨ ∃ rb, (renderRef r).2 = 0x23 :: rb ∧
      renderRef (some rb) = (true, (renderRef r).2) := by
  rcases renderRef_shape r h with he | ⟨rb, he, hre⟩
  · exact Or.inl he
  · exact Or.inr ⟨rb, he, by rw [he]; exact hre⟩

theorem canonPath_bytes2 (p : List Nat) (h : (canonPath p).1 = true) :
    ∀ c ∈ (canonPath p).2, c ≠ 0x3f ∧ c ≠ 0x23 :=
  fun c hc => ⟨(canonPath_bytes p h c hc).1, (canonPath_bytes p h c hc).2.1⟩

/-- File-strategy body stability. -/
theorem canonFileBody_stable (dp : List Nat → Int) (so rest : List Nat)
    (h : (canonFileBody dp so rest).1 = true) :
    canonFileBody dp so ((canonFileBody dp so rest).2) =
      (true, (canonFileBody dp so rest).2) := by
  by_cases hcond : (countConsecutiveSlashes rest = 2 ∨
      countConsecutiveSlashes rest = 3) ∧
      beginsDriveSpec (rest.dropWhile isURLSlash) = false
  · have hB : canonFileBody dp so rest =
        canonFileAuthBody (parseNoSlashDrop (rest.drop 2)) := by
      simp only [canonFileBody]
      rw [if_pos hcond]
    rw [hB] at h ⊢
    generalize hspe : parseNoSlashDrop (rest.drop 2) = sp at h ⊢
    have hflags : (canonFileHost (parseAuthority sp.auth).host).1 = true ∧
        (canonPath sp.path).1 = true ∧
        (renderQuery sp.query).1 = true ∧ (renderRef sp.ref).1 = true := by
      have h2 := h
      simp only [canonFileAuthBody, Bool.and_eq_true] at h2
      exact ⟨h2.1.1.1, h2.1.1.2, h2.1.2, h2.2⟩
    obtain ⟨hh, hpa, hq, hr⟩ := hflags
    have hout : (canonFileAuthBody sp).2 =
        [0x2f, 0x2f] ++ (canonFileHost (parseAuthority sp.auth).host).2 ++
        (canonPath sp.path).2 ++ (renderQuery sp.query).2 ++
        (renderRef sp.ref).2 := rfl
    by_cases hhe : (canonFileHost (parseAuthority sp.auth).host).2 = []
    · rw [hout, hhe]
      rw [show ([0x2f, 0x2f] : List Nat) ++ [] ++ (canonPath sp.path).2 ++
          (renderQuery sp.query).2 ++ (renderRef sp.ref).2 =
          [0x2f, 0x2f] ++ (canonPath sp.path).2 ++
          (renderQuery sp.query).2 ++ (renderRef sp.ref).2 from by simp]
      exact fileEmpty_reparse dp so _ _ _ (canonPath_head sp.path)
        (canonPath_bytes2 sp.path hpa) (canonPath_stable sp.path hpa)
        (renderQuery_pkg sp.query hq) (renderRef_pkg sp.ref hr)
    · have hraw_ne : (parseAuthority sp.auth).host ≠ [] := by
        intro he
        apply hhe
        rw [he]
        rfl
      have hfh : canonFileHost (parseAuthority sp.auth).host =
          canonHost (parseAuthority sp.auth).host := by
        unfold canonFileHost
        rw [if_neg hraw_ne]
      rw [hfh] at hh hhe hout
      have hH3 : canonFileHost ((canonHost (parseAuthority sp.auth).host).2) =
          (true, (canonHost (parseAuthority sp.auth).host).2) := by
        unfold canonFileHost
        rw [if_neg hhe]
        exact canonHost_stable _ hh
      rw [hout]
      exact fileHost_reparse dp so _ _ _ _ hhe (canonHost_bytes _ hh)
        (canonHost_split_shape _ hh) (canonHost_no_pipe _ hh) hH3
        (canonPath_head sp.path) (canonPath_bytes2 sp.path hpa)
        (canonPath_stable sp.path hpa) (renderQuery_pkg sp.query hq)
        (renderRef_pkg sp.ref hr)
  · have hB : canonFileBody dp so rest =
        canonFileLocalBody (rest.drop (min (countConsecutiveSlashes rest) 3)) := by
      simp only [canonFileBody]
      rw [if_neg hcond]
    rw [hB] at h ⊢
    generalize hte : rest.drop (min (countConsecutiveSlashes rest) 3) = tail at h ⊢
    have hflags : (canonPath (0x2f ::
        (spanNotB (fun c => c == 0x3f || c == 0x23) tail).1)).1 = true ∧
        (renderQuery (parseQueryRef
          (spanNotB (fun c => c == 0x3f || c == 0x23) tail).2).1).1 = true ∧
        (renderRef (parseQueryRef
          (spanNotB (fun c => c == 0x3f || c == 0x23) tail).2).2).1 = true := by
      have h2 := h
      simp only [canonFileLocalBody, Bool.and_eq_true] at h2
      exact ⟨h2.1.1, h2.1.2, h2.2⟩
    obtain ⟨hpa, hq, hr⟩ := hflags
    have hout : (canonFileLocalBody tail).2 =
        [0x2f, 0x2f] ++ (canonPath (0x2f ::
          (spanNotB (fun c => c == 0x3f || c == 0x23) tail).1)).2 ++
        (renderQuery (parseQueryRef
          (spanNotB (fun c => c == 0x3f || c == 0x23) tail).2).1).2 ++
        (renderRef (parseQueryRef
          (spanNotB (fun c => c == 0x3f || c == 0x23) tail).2).2).2 := rfl
    rw [hout]
    exact fileEmpty_reparse dp so _ _ _ (canonPath_head _)
      (canonPath_bytes2 _ hpa) (canonPath_stable _ hpa)
      (renderQuery_pkg _ hq) (renderRef_pkg _ hr)

/-! ## Last-byte facts: a canonical output never ends in whitespace -/

theorem getLastD_irrel (l : List Nat) (d1 d2 : Nat) (h : l ≠ []) :
    l.getLastD d1 = l.getLastD d2 := by
  cases l with
  | nil => exact absurd rfl h
  | cons c t => rw [List.getLastD_cons, List.getLastD_cons]

theorem getLastD_append_right (a b : List Nat) (h : b ≠ []) :
    (a ++ b).getLastD 0 = b.getLastD 0 := by
  induction a with
  | nil => rfl
  | cons c t ih =>
    rw [List.cons_append, List.getLastD_cons]
    rw [getLastD_irrel (t ++ b) c 0 (by simp [h])]
    exact ih

theorem getLastD_mem (l : List Nat) (h : l ≠ []) : l.getLastD 0 ∈ l := by
  induction l with
  | nil => exact absurd rfl h
  | cons c t ih =>
    rw [List.getLastD_cons]
    cases t with
    | nil => simp
    | cons x y =>
      rw [getLastD_irrel (x :: y) c 0 (List.cons_ne_nil x y)]
      exact List.mem_cons_of_mem _ (ih (List.cons_ne_nil x y))

theorem getLastD_drop (l : List Nat) (k : Nat) (h : l.drop k ≠ []) :
    (l.drop k).getLastD 0 = l.getLastD 0 := by
  conv_rhs => rw [← List.take_append_drop k l]
  rw [getLastD_append_right _ _ h]

theorem hexCharAt_gt20 (n : Nat) (h : n < 16) : 0x20 < hexCharAt n := by
  interval_cases n <;> decide

theorem appendEscapedChar_ne_nil (b : Nat) : appendEscapedChar b ≠ [] := by
  simp [appendEscapedChar]

theorem appendEscapedChar_last (b : Nat) :
    0x20 < (appendEscapedChar b).getLastD 0 := by
  have he : (appendEscapedChar b).getLastD 0 = hexCharAt (b % 16) := rfl
  rw [he]
  exact hexCharAt_gt20 _ (Nat.mod_lt _ (by omega))

theorem escapeBytes_last (l : List Nat) (h : l ≠ []) :
    escapeBytes l ≠ [] ∧ 0x20 < (escapeBytes l).getLastD 0 := by
  induction l with
  | nil => exact absurd rfl h
  | cons b t ih =>
    rw [show escapeBytes (b :: t) = appendEscapedChar b ++ escapeBytes t from rfl]
    cases t with
    | nil =>
      rw [show escapeBytes ([] : List Nat) = [] from rfl, List.append_nil]
      exact ⟨appendEscapedChar_ne_nil b, appendEscapedChar_last b⟩
    | cons x y =>
      obtain ⟨h1, h2⟩ := ih (List.cons_ne_nil x y)
      refine ⟨fun he => h1 (List.append_eq_nil.mp he).2, ?_⟩
      rw [getLastD_append_right _ _ h1]
      exact h2

theorem decodeEscaped_some_rest (t : List Nat) (v : Nat) (rest : List Nat)
    (h : decodeEscaped t = some (v, rest)) : rest = t.drop 2 := by
  rcases t with _ | ⟨h1, _ | ⟨h2, t2⟩⟩
  · simp [decodeEscaped] at h
  · simp [decodeEscaped] at h
  · unfold decodeEscaped at h
    simp only [] at h
    split_ifs at h
    · simp only [Option.some.injEq, Prod.mk.injEq] at h
      rw [← h.2]
      rfl

theorem readUTF8_rest_suffix (c : Nat) (t : List Nat) :
    ∃ k, (readUTF8 (c :: t)).2.2 = t.drop k := by
  rcases t with _ | ⟨c1, t1⟩
  · unfold readUTF8
    simp only []
    split_ifs <;> exact ⟨0, rfl⟩
  · rcases t1 with _ | ⟨c2, t2⟩
    · unfold readUTF8
      simp only []
      split_ifs <;> first | exact ⟨0, rfl⟩ | exact ⟨1, rfl⟩
    · rcases t2 with _ | ⟨c3, t3⟩
      · unfold readUTF8
        simp only []
        split_ifs <;> first | exact ⟨0, rfl⟩ | exact ⟨1, rfl⟩ | exact ⟨2, rfl⟩
      · unfold readUTF8
        simp only []
        split_ifs <;>
          first | exact ⟨0, rfl⟩ | exact ⟨1, rfl⟩ | exact ⟨2, rfl⟩ | exact ⟨3, rfl⟩

theorem getLastD_cons_of_ne (c : Nat) (t : List Nat) (h : t ≠ []) :
    (c :: t).getLastD 0 = t.getLastD 0 := by
  rw [List.getLastD_cons]
  exact getLastD_irrel t c 0 h

/-- A successful component walk of an input whose last byte is above
0x20 produces nonempty output whose last byte is above 0x20. -/
theorem canonWalk_last (ha : Nat → Bool × List Nat) (ne ru : Bool)
    (hha : ∀ c, c < 0x80 → (ha c).2 = [c] ∨ (ha c).2 = appendEscapedChar c) :
    ∀ n, ∀ l : List Nat, l.length ≤ n → l ≠ [] → 0x20 < l.getLastD 0 →
    (canonWalk ha ne ru l).1 = true →
    (canonWalk ha ne ru l).2 ≠ [] ∧ 0x20 < (canonWalk ha ne ru l).2.getLastD 0 := by
  intro n
  induction n with
  | zero =>
    intro l hlen hne _ _
    cases l with
    | nil => exact absurd rfl hne
    | cons c t => simp at hlen
  | succ n ih =>
    intro l hlen hne hlast hflag
    cases l with
    | nil => exact absurd rfl hne
    | cons c t =>
      rw [canonWalk_cons] at hflag ⊢
      by_cases hesc : c = 0x25 ∧ ne = true
      · rw [if_pos hesc] at hflag ⊢
        simp only [Bool.and_eq_true] at hflag
        obtain ⟨hce, hwf⟩ := hflag
        cases hd : decodeEscaped t with
        | none =>
          rw [show canonicalizeEscaped t = (false, [0x25], t) from by
            unfold canonicalizeEscaped; rw [hd]] at hce
          exact absurd hce (by simp)
        | some vt =>
          obtain ⟨v, rest⟩ := vt
          have hcet : canonicalizeEscaped t = (true, appendEscapedChar v, rest) := by
            unfold canonicalizeEscaped
            rw [hd]
          rw [hcet] at hwf ⊢
          simp only []
          have hrest : rest = t.drop 2 := decodeEscaped_some_rest t v rest hd
          by_cases hre : rest = []
          · rw [hre]
            rw [show (canonWalk ha ne ru []).2 = [] from rfl, List.append_nil]
            exact ⟨appendEscapedChar_ne_nil v, appendEscapedChar_last v⟩
          · have htne : t ≠ [] := by
              intro hte
              rw [hte] at hrest
              exact hre (by rw [hrest]; rfl)
            have hlast2 : 0x20 < rest.getLastD 0 := by
              rw [hrest] at hre ⊢
              rw [getLastD_drop t 2 hre]
              rw [getLastD_cons_of_ne c t htne] at hlast
              exact hlast
            have hlen2 : rest.length ≤ n := by
              rw [hrest]
              have := List.length_drop 2 t
              simp at hlen
              omega
            obtain ⟨hwne, hwlast⟩ := ih rest hlen2 hre hlast2 hwf
            refine ⟨fun he => hwne (List.append_eq_nil.mp he).2, ?_⟩
            rw [getLastD_append_right _ _ hwne]
            exact hwlast
      · rw [if_neg hesc] at hflag ⊢
        by_cases h80 : c < 0x80
        · rw [if_pos h80] at hflag ⊢
          simp only [Bool.and_eq_true] at hflag
          obtain ⟨hhc, hwf⟩ := hflag
          cases t with
          | nil =>
            have hcl : 0x20 < c := by simpa using hlast
            rw [show (canonWalk ha ne ru []).2 = [] from rfl, List.append_nil]
            rcases hha c h80 with hch | hch
            · rw [hch]
              exact ⟨by simp, by simpa using hcl⟩
            · rw [hch]
              exact ⟨appendEscapedChar_ne_nil c, appendEscapedChar_last c⟩
          | cons x y =>
            have htne : (x :: y) ≠ [] := List.cons_ne_nil x y
            have hlast2 : 0x20 < (x :: y).getLastD 0 := by
              rw [getLastD_cons_of_ne c (x :: y) htne] at hlast
              exact hlast
            obtain ⟨hwne, hwlast⟩ := ih (x :: y) (by simp at hlen ⊢; omega)
              htne hlast2 hwf
            refine ⟨fun he => hwne (List.append_eq_nil.mp he).2, ?_⟩
            rw [getLastD_append_right _ _ hwne]
            exact hwlast
        · rw [if_neg h80] at hflag ⊢
          simp only [Bool.and_eq_true] at hflag
          obtain ⟨hrf, hwf⟩ := hflag
          have hcp := (readUTF8_success_big c t h80 hrf).2
          have hchunk : (if ru = true then appendUTF8 (readUTF8 (c :: t)).2.1
              else escapeBytes (appendUTF8 (readUTF8 (c :: t)).2.1)) ≠ [] ∧
              0x20 < (if ru = true then appendUTF8 (readUTF8 (c :: t)).2.1
              else escapeBytes (appendUTF8 (readUTF8 (c :: t)).2.1)).getLastD 0 := by
            split_ifs
            · have hne2 := appendUTF8_ne_nil (readUTF8 (c :: t)).2.1
              refine ⟨hne2, ?_⟩
              have hmem := getLastD_mem _ hne2
              have := appendUTF8_bytes_ge _ hcp _ hmem
              omega
            · exact escapeBytes_last _ (appendUTF8_ne_nil _)
          by_cases hre : (readUTF8 (c :: t)).2.2 = []
          · rw [hre]
            rw [show (canonWalk ha ne ru []).2 = [] from rfl, List.append_nil]
            exact hchunk
          · obtain ⟨k, hk⟩ := readUTF8_rest_suffix c t
            have htne : t ≠ [] := by
              intro hte
              rw [hte] at hk hre
              exact hre (by rw [hk]; simp)
            have hlast2 : 0x20 < (readUTF8 (c :: t)).2.2.getLastD 0 := by
              rw [hk] at hre ⊢
              rw [getLastD_drop t k hre]
              rw [getLastD_cons_of_ne c t htne] at hlast
              exact hlast
            have hlen2 : (readUTF8 (c :: t)).2.2.length ≤ n := by
              have := readUTF8_rest_length (c :: t) (List.cons_ne_nil c t)
              simp at hlen this
              omega
            obtain ⟨hwne, hwlast⟩ := ih _ hlen2 hre hlast2 hwf
            refine ⟨fun he => hwne (List.append_eq_nil.mp he).2, ?_⟩
            rw [getLastD_append_right _ _ hwne]
            exact hwlast

/-! ## Canonical bytes above 0x20 for path and query -/

theorem appendEscapedChar_gt20_mem (v : Nat) :
    ∀ b ∈ appendEscapedChar v, 0x20 < b := by
  intro b hb
  unfold appendEscapedChar at hb
  rcases List.mem_cons.mp hb with he | hb2
  · omega
  rcases List.mem_cons.mp hb2 with he | hb3
  · rw [he]
    exact hexCharAt_gt20 _ (Nat.mod_lt _ (by omega))
  · rw [List.mem_singleton.mp hb3]
    exact hexCharAt_gt20 _ (Nat.mod_lt _ (by omega))

theorem escapeBytes_gt20_mem (l : List Nat) :
    ∀ b ∈ escapeBytes l, 0x20 < b := by
  induction l with
  | nil => intro b hb; cases hb
  | cons c t ih =>
    intro b hb
    rw [show escapeBytes (c :: t) = appendEscapedChar c ++ escapeBytes t from rfl] at hb
    rcases List.mem_append.mp hb with he | he
    · exact appendEscapedChar_gt20_mem c b he
    · exact ih b he

theorem canonicalizeEscaped_out_gt20 (t : List Nat) :
    ∀ b ∈ (canonicalizeEscaped t).2.1, 0x20 < b := by
  unfold canonicalizeEscaped
  cases hd : decodeEscaped t with
  | none =>
    intro b hb
    rw [List.mem_singleton.mp hb]
    omega
  | some vt =>
    obtain ⟨v, rest⟩ := vt
    exact appendEscapedChar_gt20_mem v

theorem canonEngine_gt20 (ha : Nat → Bool × List Nat) (ne : Bool)
    (H : ∀ c, c < 0x80 → ∀ b ∈ (ha c).2, 0x20 < b) :
    ∀ fuel l, ∀ b ∈ (canonEngine ha ne false fuel l).2, 0x20 < b := by
  intro fuel
  induction fuel with
  | zero => intro l b hb; cases hb
  | succ f ih =>
    intro l
    cases l with
    | nil => intro b hb; cases hb
    | cons c t =>
      simp only [canonEngine]
      by_cases hc : c = 0x25 ∧ ne = true
      · rw [if_pos hc]
        intro b hb
        rcases List.mem_append.mp hb with he | he
        · exact canonicalizeEscaped_out_gt20 t b he
        · exact ih _ b he
      · rw [if_neg hc]
        by_cases h80 : c < 0x80
        · rw [if_pos h80]
          intro b hb
          rcases List.mem_append.mp hb with he | he
          · exact H c h80 b he
          · exact ih _ b he
        · rw [if_neg h80]
          rw [if_neg (by simp : ¬(false = true))]
          intro b hb
          rcases List.mem_append.mp hb with he | he
          · exact escapeBytes_gt20_mem _ b he
          · exact ih _ b he

theorem canonPathSeg_gt20 (l : List Nat) :
    ∀ b ∈ (canonPathSeg l).2, 0x20 < b := by
  refine canonEngine_gt20 pathAscii true ?_ _ l
  intro c _ b hb
  unfold pathAscii at hb
  split_ifs at hb with hs
  · rw [List.mem_singleton.mp hb]
    unfold isPathSafe at hs
    simp only [Bool.and_eq_true, decide_eq_true_eq] at hs
    omega
  · exact appendEscapedChar_gt20_mem c b hb

theorem canonQueryBody_gt20 (l : List Nat) :
    ∀ b ∈ (canonQueryBody l).2, 0x20 < b := by
  refine canonEngine_gt20 queryAscii false ?_ _ l
  intro c _ b hb
  unfold queryAscii at hb
  split_ifs at hb with hs
  · rw [List.mem_singleton.mp hb]
    unfold isQueryChar at hs
    simp only [Bool.or_eq_true, Bool.and_eq_true, decide_eq_true_eq,
      beq_iff_eq] at hs
    omega
  · exact appendEscapedChar_gt20_mem c b hb

theorem renderSegs_gt20 : ∀ segs, ∀ b ∈ (renderSegs segs).2, 0x20 < b
  | [] => by intro b hb; cases hb
  | [s] => canonPathSeg_gt20 s
  | s :: s2 :: rest => by
    intro b hb
    rw [show (renderSegs (s :: s2 :: rest)).2 =
      (canonPathSeg s).2 ++ 0x2f :: (renderSegs (s2 :: rest)).2 from rfl] at hb
    rcases List.mem_append.mp hb with he | he
    · exact canonPathSeg_gt20 s b he
    · rcases List.mem_cons.mp he with he2 | he2
      · omega
      · exact renderSegs_gt20 (s2 :: rest) b he2

theorem canonPath_gt20 (p : List Nat) : ∀ b ∈ (canonPath p).2, 0x20 < b := by
  unfold canonPath
  split_ifs
  · intro b hb
    rw [List.mem_singleton.mp hb]
    omega
  · intro b hb
    rcases List.mem_cons.mp hb with he | he
    · omega
    · exact renderSegs_gt20 _ b he

/-! ## Suffix and trim facts for the top-level round trip -/

theorem suffix_getLastD (s l : List Nat) (hs : List.IsSuffix s l) (hne : s ≠ []) :
    s.getLastD 0 = l.getLastD 0 := by
  obtain ⟨pre, hpre⟩ := hs
  rw [← hpre]
  exact (getLastD_append_right pre s hne).symm

theorem parseQueryRef_ref_suffix (l rb : List Nat)
    (h : (parseQueryRef l).2 = some rb) : List.IsSuffix rb l := by
  unfold parseQueryRef at h
  by_cases h1 : l.headD 0 = 0x3f
  · rw [if_pos h1] at h
    simp only [] at h
    by_cases h3 : (spanNotB (fun c => c == 0x23) (l.drop 1)).2 = []
    · rw [if_pos h3] at h
      exact absurd h (by simp)
    · rw [if_neg h3] at h
      simp only [Option.some.injEq] at h
      rw [← h]
      exact (List.drop_suffix _ _).trans
        ((List.dropWhile_suffix _).trans (List.drop_suffix _ _))
  · rw [if_neg h1] at h
    by_cases h2 : l.headD 0 = 0x23 ∧ l ≠ []
    · rw [if_pos h2] at h
      simp only [Option.some.injEq] at h
      rw [← h]
      exact List.drop_suffix _ _
    · rw [if_neg h2] at h
      exact absurd h (by simp)

theorem parseNoSlashDrop_ref_suffix (l rb : List Nat)
    (h : (parseNoSlashDrop l).ref = some rb) : List.IsSuffix rb l := by
  unfold parseNoSlashDrop at h
  simp only [] at h
  exact (parseQueryRef_ref_suffix _ rb h).trans
    ((List.dropWhile_suffix _).trans (List.dropWhile_suffix _))

theorem dropWhile_head_false (p : Nat → Bool) (l : List Nat)
    (h : l.dropWhile p ≠ []) : p ((l.dropWhile p).headD 0) = false := by
  induction l with
  | nil => exact absurd rfl h
  | cons c t ih =>
    rw [List.dropWhile_cons] at h ⊢
    split_ifs at h ⊢ with hp
    · exact ih h
    · rw [List.headD_cons]
      cases hpc : p c with
      | false => rfl
      | true => exact absurd hpc hp

theorem getLastD_reverse (l : List Nat) : l.reverse.getLastD 0 = l.headD 0 := by
  cases l with
  | nil => rfl
  | cons c t =>
    rw [List.reverse_cons]
    rw [getLastD_append_right _ _ (by simp)]
    rfl

/-- The trimmed spec never ends in whitespace. -/
theorem trimURL_getLast (spec : List Nat) (h : (trimURL spec).2 ≠ []) :
    0x20 < (trimURL spec).2.getLastD 0 := by
  unfold trimURL at h ⊢
  simp only [] at h ⊢
  have hv : ((spec.dropWhile fun c => c ≤ 0x20).reverse.dropWhile
      fun c => c ≤ 0x20) ≠ [] := by
    intro he
    apply h
    rw [he]
    rfl
  rw [getLastD_reverse]
  have hhead := dropWhile_head_false _ _ hv
  simp only [decide_eq_false_iff_not, not_le] at hhead
  exact hhead

theorem getLast?_eq_getLastD (l : List Nat) (x : Nat) (h : l.getLast? = some x) :
    x = l.getLastD 0 := by
  induction l with
  | nil => simp at h
  | cons c t ih =>
    cases t with
    | nil =>
      simp at h
      rw [← h]
      rfl
    | cons y z =>
      rw [List.getLast?_cons_cons] at h
      rw [List.getLastD_cons]
      rw [getLastD_irrel (y :: z) c 0 (List.cons_ne_nil y z)]
      exact ih h

theorem trimURL_noop2 (l : List Nat) (hne : l ≠ []) (hh : 0x20 < l.headD 0)
    (hl : 0x20 < l.getLastD 0) : trimURL l = (0, l) := by
  cases l with
  | nil => exact absurd rfl hne
  | cons c t =>
    refine trimURL_noop c t ?_ ?_
    · rw [List.headD_cons] at hh
      omega
    · intro x hx
      have := getLast?_eq_getLastD _ x hx
      omega

theorem drop_length_cons (a b : List Nat) (x : Nat) :
    (a ++ x :: b).drop (a.length + 1) = b := by
  induction a with
  | nil => rfl
  | cons c t ih =>
    rw [List.cons_append, List.length_cons]
    rw [show t.length + 1 + 1 = (t.length + 1) + 1 from rfl]
    rw [List.drop_succ_cons]
    exact ih

theorem append3_last (X PA2 Q2 R2 : List Nat)
    (hPA : PA2 ≠ [])
    (hPAlast : 0x20 < PA2.getLastD 0)
    (hQ : Q2 = [] ∨ 0x20 < Q2.getLastD 0)
    (hR : R2 = [] ∨ 0x20 < R2.getLastD 0) :
    0x20 < (X ++ PA2 ++ Q2 ++ R2).getLastD 0 := by
  rcases hR with h1 | h1
  · subst h1
    rw [List.append_nil]
    rcases hQ with h2 | h2
    · subst h2
      rw [List.append_nil]
      rw [getLastD_append_right _ _ hPA]
      exact hPAlast
    · have hQne : Q2 ≠ [] := by
        intro he
        rw [he] at h2
        exact absurd h2 (by decide)
      rw [getLastD_append_right _ _ hQne]
      exact h2
  · have hRne : R2 ≠ [] := by
      intro he
      rw [he] at h1
      exact absurd h1 (by decide)
    rw [getLastD_append_right _ _ hRne]
    exact h1

theorem refAscii_chunk : ∀ c, c < 0x80 →
    (refAscii c).2 = [c] ∨ (refAscii c).2 = appendEscapedChar c := by
  intro c _
  unfold refAscii
  split_ifs
  · exact Or.inr rfl
  · exact Or.inl rfl

theorem opaqueAscii_chunk : ∀ c, c < 0x80 →
    (opaqueAscii c).2 = [c] ∨ (opaqueAscii c).2 = appendEscapedChar c :=
  fun _ _ => Or.inl rfl

theorem renderQuery_last (q : Option (List Nat)) :
    (renderQuery q).2 = [] ∨ 0x20 < (renderQuery q).2.getLastD 0 := by
  cases q with
  | none => exact Or.inl rfl
  | some qb =>
    right
    show 0x20 < (0x3f :: (canonQueryBody qb).2).getLastD 0
    cases hq : (canonQueryBody qb).2 with
    | nil => decide
    | cons x y =>
      rw [getLastD_cons_of_ne _ _ (List.cons_ne_nil x y)]
      have hmem := getLastD_mem (x :: y) (List.cons_ne_nil x y)
      exact canonQueryBody_gt20 qb _ (by rw [hq]; exact hmem)

theorem renderRef_last (r : Option (List Nat)) (hres : (renderRef r).1 = true)
    (hraw : ∀ rb, r = some rb → rb ≠ [] → 0x20 < rb.getLastD 0) :
    (renderRef r).2 = [] ∨ 0x20 < (renderRef r).2.getLastD 0 := by
  cases r with
  | none => exact Or.inl rfl
  | some rb =>
    right
    show 0x20 < (0x23 :: (canonRefBody rb).2).getLastD 0
    by_cases hne : rb = []
    · subst hne
      decide
    · obtain ⟨ho, hl⟩ := canonWalk_last refAscii false true refAscii_chunk
        rb.length rb le_rfl hne (hraw rb rfl hne) hres
      rw [show (canonRefBody rb).2 = (canonWalk refAscii false true rb).2 from rfl]
      rw [getLastD_cons_of_ne _ _ ho]
      exact hl

theorem suffix_of_nil (rb : List Nat) (h : List.IsSuffix rb ([] : List Nat)) :
    rb = [] := by
  obtain ⟨pre, hp⟩ := h
  exact (List.append_eq_nil.mp hp).2

/-- The canonical standard body never ends at or below 0x20. -/
theorem canonAuthorityBody_last (dp : List Nat → Int) (so rest : List Nat)
    (hflag : (canonAuthorityBody dp so rest).1 = true)
    (hrest : rest ≠ [] → 0x20 < rest.getLastD 0) :
    0x20 < (canonAuthorityBody dp so rest).2.getLastD 0 := by
  have hflags : (renderRef (parseAfterScheme rest).ref).1 = true := by
    have h2 := hflag
    simp only [canonAuthorityBody, canonFromParts, Bool.and_eq_true] at h2
    exact h2.2
  have hout : (canonAuthorityBody dp so rest).2 =
      ([0x2f, 0x2f] ++
        (renderUserinfo (parseAuthority (parseAfterScheme rest).auth).user
          (parseAuthority (parseAfterScheme rest).auth).pass).2 ++
        (canonHost (parseAuthority (parseAfterScheme rest).auth).host).2 ++
        (renderPort dp so (parseAuthority (parseAfterScheme rest).auth).port).2) ++
      (canonPath (parseAfterScheme rest).path).2 ++
      (renderQuery (parseAfterScheme rest).query).2 ++
      (renderRef (parseAfterScheme rest).ref).2 := rfl
  rw [hout]
  obtain ⟨x, hx⟩ := canonPath_head (parseAfterScheme rest).path
  have hne : (canonPath (parseAfterScheme rest).path).2 ≠ [] := by
    rw [hx]
    exact List.cons_ne_nil _ _
  refine append3_last _ _ _ _ hne (canonPath_gt20 _ _ (getLastD_mem _ hne))
    (renderQuery_last _) (renderRef_last _ hflags ?_)
  intro rb hrb hbne
  have hs : List.IsSuffix rb rest := by
    unfold parseAfterScheme at hrb
    exact (parseNoSlashDrop_ref_suffix _ rb hrb).trans (List.dropWhile_suffix _)
  rw [suffix_getLastD rb rest hs hbne]
  apply hrest
  intro he
  rw [he] at hs
  exact hbne (suffix_of_nil rb hs)

/-- The canonical file body never ends at or below 0x20. -/
theorem canonFileBody_last (dp : List Nat → Int) (so rest : List Nat)
    (hflag : (canonFileBody dp so rest).1 = true)
    (hrest : rest ≠ [] → 0x20 < rest.getLastD 0) :
    0x20 < (canonFileBody dp so rest).2.getLastD 0 := by
  by_cases hcond : (countConsecutiveSlashes rest = 2 ∨
      countConsecutiveSlashes rest = 3) ∧
      beginsDriveSpec (rest.dropWhile isURLSlash) = false
  · have hB : canonFileBody dp so rest =
        canonFileAuthBody (parseNoSlashDrop (rest.drop 2)) := by
      simp only [canonFileBody]
      rw [if_pos hcond]
    rw [hB] at hflag ⊢
    have hflags : (renderRef (parseNoSlashDrop (rest.drop 2)).ref).1 = true := by
      have h2 := hflag
      simp only [canonFileAuthBody, Bool.and_eq_true] at h2
      exact h2.2
    have hout : (canonFileAuthBody (parseNoSlashDrop (rest.drop 2))).2 =
        ([0x2f, 0x2f] ++
          (canonFileHost (parseAuthority
            (parseNoSlashDrop (rest.drop 2)).auth).host).2) ++
        (canonPath (parseNoSlashDrop (rest.drop 2)).path).2 ++
        (renderQuery (parseNoSlashDrop (rest.drop 2)).query).2 ++
        (renderRef (parseNoSlashDrop (rest.drop 2)).ref).2 := rfl
    rw [hout]
    obtain ⟨x, hx⟩ := canonPath_head (parseNoSlashDrop (rest.drop 2)).path
    have hne : (canonPath (parseNoSlashDrop (rest.drop 2)).path).2 ≠ [] := by
      rw [hx]
      exact List.cons_ne_nil _ _
    refine append3_last _ _ _ _ hne (canonPath_gt20 _ _ (getLastD_mem _ hne))
      (renderQuery_last _) (renderRef_last _ hflags ?_)
    intro rb hrb hbne
    have hs : List.IsSuffix rb rest :=
      (parseNoSlashDrop_ref_suffix _ rb hrb).trans (List.drop_suffix _ _)
    rw [suffix_getLastD rb rest hs hbne]
    apply hrest
    intro he
    rw [he] at hs
    exact hbne (suffix_of_nil rb hs)
  · have hB : canonFileBody dp so rest =
        canonFileLocalBody (rest.drop (min (countConsecutiveSlashes rest) 3)) := by
      simp only [canonFileBody]
      rw [if_neg hcond]
    rw [hB] at hflag ⊢
    generalize hte : rest.drop (min (countConsecutiveSlashes rest) 3) = tail at hflag ⊢
    have hflags : (renderRef (parseQueryRef
        (spanNotB (fun c => c == 0x3f || c == 0x23) tail).2).2).1 = true := by
      have h2 := hflag
      simp only [canonFileLocalBody, Bool.and_eq_true] at h2
      exact h2.2
    have hout : (canonFileLocalBody tail).2 =
        ([0x2f, 0x2f] : List Nat) ++
        (canonPath (0x2f ::
          (spanNotB (fun c => c == 0x3f || c == 0x23) tail).1)).2 ++
        (renderQuery (parseQueryRef
          (spanNotB (fun c => c == 0x3f || c == 0x23) tail).2).1).2 ++
        (renderRef (parseQueryRef
          (spanNotB (fun c => c == 0x3f || c == 0x23) tail).2).2).2 := rfl
    rw [hout]
    obtain ⟨x, hx⟩ := canonPath_head
      (0x2f :: (spanNotB (fun c => c == 0x3f || c == 0x23) tail).1)
    have hne : (canonPath (0x2f ::
        (spanNotB (fun c => c == 0x3f || c == 0x23) tail).1)).2 ≠ [] := by
      rw [hx]
      exact List.cons_ne_nil _ _
    refine append3_last _ _ _ _ hne (canonPath_gt20 _ _ (getLastD_mem _ hne))
      (renderQuery_last _) (renderRef_last _ hflags ?_)
    intro rb hrb hbne
    have hs : List.IsSuffix rb rest := by
      refine ((parseQueryRef_ref_suffix _ rb hrb).trans
        ((List.dropWhile_suffix _).trans ?_))
      rw [← hte]
      exact List.drop_suffix _ _
    rw [suffix_getLastD rb rest hs hbne]
    apply hrest
    intro he
    rw [he] at hs
    exact hbne (suffix_of_nil rb hs)

/-- The canonical opaque body never ends at or below 0x20. -/
theorem canonOpaqueBody_last (rest : List Nat)
    (hflag : (canonOpaqueBody rest).1 = true)
    (hrest : rest ≠ [] → 0x20 < rest.getLastD 0) :
    (canonOpaqueBody rest).2 = [] ∨ 0x20 < (canonOpaqueBody rest).2.getLastD 0 := by
  by_cases hne : rest = []
  · subst hne
    exact Or.inl rfl
  · exact Or.inr (canonWalk_last opaqueAscii false false opaqueAscii_chunk
      rest.length rest le_rfl hne (hrest hne) hflag).2

/-! ## Dispatch invariance and the reparse scaffold -/

theorem lowerCaseEqualsASCII_canonScheme (sch r : List Nat)
    (h : (canonScheme sch).1 = true) :
    lowerCaseEqualsASCII ((canonScheme sch).2) r = lowerCaseEqualsASCII sch r := by
  rw [lowerCaseEqualsASCII_eq_map, lowerCaseEqualsASCII_eq_map]
  rw [canonScheme_toLower sch h]
  rw [List.map_map]
  rw [show List.map (toLowerASCII ∘ toLowerASCII) sch = List.map toLowerASCII sch from
    List.map_congr_left (fun a _ => toLowerASCII_idem a)]

theorem isStandardSchemeIn_canonScheme (schemes : List (List Nat)) (sch : List Nat)
    (h : (canonScheme sch).1 = true) :
    isStandardSchemeIn schemes ((canonScheme sch).2) =
      isStandardSchemeIn schemes sch := by
  unfold isStandardSchemeIn
  induction schemes with
  | nil => rfl
  | cons r rs ih =>
    simp only [List.any_cons]
    rw [lowerCaseEqualsASCII_canonScheme sch r h, ih]

theorem schemeByteOK_gt20 (b : Nat) (h : schemeByteOK b = true) : 0x20 < b := by
  unfold schemeByteOK at h
  simp only [Bool.or_eq_true, Bool.and_eq_true, decide_eq_true_eq, beq_iff_eq] at h
  omega

theorem scheme_colon_head (SO BB : List Nat)
    (hok : ∀ b ∈ SO, schemeByteOK b = true) :
    0x20 < (SO ++ 0x3a :: BB).headD 0 := by
  cases SO with
  | nil => simp
  | cons s ss =>
    rw [List.cons_append, List.headD_cons]
    exact schemeByteOK_gt20 s (hok s (List.mem_cons_self _ _))

theorem colon_body_last (SO BB : List Nat)
    (hBB : BB = [] ∨ 0x20 < BB.getLastD 0) :
    0x20 < (SO ++ 0x3a :: BB).getLastD 0 := by
  rw [getLastD_append_right _ _ (List.cons_ne_nil _ _)]
  rcases hBB with he | he
  · subst he
    decide
  · have hne : BB ≠ [] := by
      intro h2
      rw [h2] at he
      exact absurd he (by decide)
    rw [getLastD_cons_of_ne _ _ hne]
    exact he

/-- Evaluating the canonicalizer on a canonical-scheme-plus-colon-plus-body
byte string: nothing is trimmed, the scheme is re-extracted whole, and the
dispatch runs on the scheme bytes. -/
theorem canonicalize_colon_eval (schemes : List (List Nat)) (dp : List Nat → Int)
    (SO BB : List Nat)
    (hok : ∀ b ∈ SO, schemeByteOK b = true)
    (hBB : BB = [] ∨ 0x20 < BB.getLastD 0) :
    canonicalize schemes dp (SO ++ 0x3a :: BB) =
      (if lowerCaseEqualsASCII SO (strBytes "file") = true then
        ((canonScheme SO).1 && (canonFileBody dp (canonScheme SO).2 BB).1,
         (canonScheme SO).2 ++ 0x3a :: (canonFileBody dp (canonScheme SO).2 BB).2)
      else if isStandardSchemeIn schemes SO = true then
        ((canonScheme SO).1 && (canonAuthorityBody dp (canonScheme SO).2 BB).1,
         (canonScheme SO).2 ++ 0x3a ::
           (canonAuthorityBody dp (canonScheme SO).2 BB).2)
      else
        ((canonScheme SO).1 && (canonOpaqueBody BB).1,
         (canonScheme SO).2 ++ 0x3a :: (canonOpaqueBody BB).2)) := by
  have hOne : (SO ++ 0x3a :: BB) ≠ [] := by simp
  have hhead : 0x20 < (SO ++ 0x3a :: BB).headD 0 := scheme_colon_head SO BB hok
  have hlastO : 0x20 < (SO ++ 0x3a :: BB).getLastD 0 := colon_body_last SO BB hBB
  unfold canonicalize
  rw [trimURL_noop2 _ hOne hhead hlastO]
  simp only []
  rw [show extractScheme (SO ++ 0x3a :: BB) = some SO from by
    unfold extractScheme
    rw [extractSchemeAux_append BB SO [] hok]
    simp]
  simp only []
  rw [drop_length_cons SO BB 0x3a]

/-- C1: Canonicalization is idempotent — for every input string on which
the modelled Canonicalize succeeds, running Canonicalize on the produced
output succeeds and yields byte-for-byte the same output. -/
theorem canonicalize_idem (schemes : List (List Nat)) (dp : List Nat → Int)
    (S : List Nat) (h : (canonicalize schemes dp S).1 = true) :
    canonicalize schemes dp ((canonicalize schemes dp S).2) =
      (true, (canonicalize schemes dp S).2) := by
  cases hsch : extractScheme ((trimURL S).2) with
  | none =>
    exfalso
    rw [show canonicalize schemes dp S = (false, []) from by
      unfold canonicalize
      simp only []
      rw [hsch]] at h
    exact absurd h (by simp)
  | some sch =>
    have hrest : ((trimURL S).2.drop (sch.length + 1)) ≠ [] →
        0x20 < ((trimURL S).2.drop (sch.length + 1)).getLastD 0 := by
      intro hne
      rw [getLastD_drop _ _ hne]
      apply trimURL_getLast
      intro he
      apply hne
      rw [he]
      rfl
    by_cases hfile : lowerCaseEqualsASCII sch (strBytes "file") = true
    · have hO : canonicalize schemes dp S =
          ((canonScheme sch).1 && (canonFileBody dp (canonScheme sch).2
            ((trimURL S).2.drop (sch.length + 1))).1,
           (canonScheme sch).2 ++ 0x3a :: (canonFileBody dp (canonScheme sch).2
            ((trimURL S).2.drop (sch.length + 1))).2) := by
        unfold canonicalize
        simp only []
        rw [hsch]
        simp only []
        rw [if_pos hfile]
      rw [hO] at h ⊢
      simp only [Bool.and_eq_true] at h
      obtain ⟨hso, hbody⟩ := h
      simp only []
      rw [canonicalize_colon_eval schemes dp ((canonScheme sch).2) _
        (canonScheme_bytesOK sch hso)
        (Or.inr (canonFileBody_last dp _ _ hbody hrest))]
      rw [if_pos (show lowerCaseEqualsASCII ((canonScheme sch).2)
          (strBytes "file") = true from by
        rw [lowerCaseEqualsASCII_canonScheme sch _ hso]
        exact hfile)]
      rw [canonScheme_stable sch hso]
      simp only []
      rw [canonFileBody_stable dp _ _ hbody]
      rfl
    · by_cases hstd : isStandardSchemeIn schemes sch = true
      · have hO : canonicalize schemes dp S =
            ((canonScheme sch).1 && (canonAuthorityBody dp (canonScheme sch).2
              ((trimURL S).2.drop (sch.length + 1))).1,
             (canonScheme sch).2 ++ 0x3a :: (canonAuthorityBody dp
              (canonScheme sch).2 ((trimURL S).2.drop (sch.length + 1))).2) := by
          unfold canonicalize
          simp only []
          rw [hsch]
          simp only []
          rw [if_neg hfile, if_pos hstd]
        rw [hO] at h ⊢
        simp only [Bool.and_eq_true] at h
        obtain ⟨hso, hbody⟩ := h
        simp only []
        rw [canonicalize_colon_eval schemes dp ((canonScheme sch).2) _
          (canonScheme_bytesOK sch hso)
          (Or.inr (canonAuthorityBody_last dp _ _ hbody hrest))]
        rw [if_neg (show ¬(lowerCaseEqualsASCII ((canonScheme sch).2)
            (strBytes "file") = true) from by
          rw [lowerCaseEqualsASCII_canonScheme sch _ hso]
          exact hfile)]
        rw [if_pos (show isStandardSchemeIn schemes ((canonScheme sch).2) = true from by
          rw [isStandardSchemeIn_canonScheme schemes sch hso]
          exact hstd)]
        rw [canonScheme_stable sch hso]
        simp only []
        rw [canonAuthorityBody_stable dp _ _ hbody]
        rfl
      · have hO : canonicalize schemes dp S =
            ((canonScheme sch).1 && (canonOpaqueBody
              ((trimURL S).2.drop (sch.length + 1))).1,
             (canonScheme sch).2 ++ 0x3a :: (canonOpaqueBody
              ((trimURL S).2.drop (sch.length + 1))).2) := by
          unfold canonicalize
          simp only []
          rw [hsch]
          simp only []
          rw [if_neg hfile, if_neg hstd]
        rw [hO] at h ⊢
        simp only [Bool.and_eq_true] at h
        obtain ⟨hso, hbody⟩ := h
        simp only []
        rw [canonicalize_colon_eval schemes dp ((canonScheme sch).2) _
          (canonScheme_bytesOK sch hso)
          (canonOpaqueBody_last _ hbody hrest)]
        rw [if_neg (show ¬(lowerCaseEqualsASCII ((canonScheme sch).2)
            (strBytes "file") = true) from by
          rw [lowerCaseEqualsASCII_canonScheme sch _ hso]
          exact hfile)]
        rw [if_neg (show ¬(isStandardSchemeIn schemes ((canonScheme sch).2) = true) from by
          rw [isStandardSchemeIn_canonScheme schemes sch hso]
          exact hstd)]
        rw [canonScheme_stable sch hso]
        simp only []
        rw [canonOpaqueBody_stable _ hbody]
        rfl

/-- Witness for C1: a concrete standard URL canonicalizes successfully and
its output is a fixed point of the canonicalizer. -/
theorem canonicalize_idem_witness :
    (canonicalize [strBytes "http"] testDefaultPort
      (strBytes "http://User@Example.COM:0080//x/../y?q#r")).1 = true ∧
    canonicalize [strBytes "http"] testDefaultPort
      ((canonicalize [strBytes "http"] testDefaultPort
        (strBytes "http://User@Example.COM:0080//x/../y?q#r")).2) =
      (true, (canonicalize [strBytes "http"] testDefaultPort
        (strBytes "http://User@Example.COM:0080//x/../y?q#r")).2) :=
  ⟨by decide, canonicalize_idem [strBytes "http"] testDefaultPort
    (strBytes "http://User@Example.COM:0080//x/../y?q#r") (by decide)⟩

end GoogleUrl
